import Mathlib

/-!
Verification of the dependency-format converter (`semstr/conversion/dep.py`).

The mutable object graph of the Python code is embedded as an explicit state:
nodes and edges live in two indexed lists, object references become indices,
and every mutation of the Python code becomes a function from states to
states.  `None` references are `Option.none`.  Python `int` fields that can
go negative (`head_index`) are `Int`; positions are `Nat`.
-/

namespace Semstr

/-- Mirror of class `Edge` (dep.py): relation label, remote flag, the
`head_index` column value, and the two endpoint references (`_head`,
`_dependent`), which are node indices once resolved. -/
structure DepEdge where
  headIndex : Int
  rel : String
  remote : Bool
  head : Option Nat
  dependent : Option Nat
deriving Repr, DecidableEq, Inhabited

/-- Mirror of class `Node` (dep.py): position (0 = virtual root), the
`incoming` and `outgoing` adjacency lists (edge indices), the flags used by
the converter, the mutable `level` and `heads_visited` scratch fields of the
topological sort, and the position of the linked terminal (used as sort key). -/
structure DepNode where
  position : Nat := 0
  incoming : List Nat := []
  outgoing : List Nat := []
  isHead : Bool := true
  isTop : Bool := false
  level : Option Nat := none
  headsVisited : List Nat := []
  terminalPos : Nat := 0
deriving Repr, DecidableEq, Inhabited

/-- The whole object graph: all nodes and all edges ever created, addressed
by index.  Python object identity becomes list index. -/
structure DepState where
  nodes : List DepNode
  edges : List DepEdge
deriving Repr, DecidableEq, Inhabited

def DepState.getNode (st : DepState) (nid : Nat) : DepNode :=
  st.nodes.getD nid default

def DepState.getEdge (st : DepState) (eid : Nat) : DepEdge :=
  st.edges.getD eid default

def DepState.modifyNode (st : DepState) (nid : Nat) (f : DepNode → DepNode) : DepState :=
  { st with nodes := st.nodes.set nid (f (st.getNode nid)) }

def DepState.modifyEdge (st : DepState) (eid : Nat) (f : DepEdge → DepEdge) : DepState :=
  { st with edges := st.edges.set eid (f (st.getEdge eid)) }

/-- Mirror of the `Edge.head` property setter (dep.py lines 114-121):
remove the edge from the old head's `outgoing` list if present, store the
new head reference, and if it is not `None` append the edge to the new
head's `outgoing` list and overwrite `head_index` with `head.position - 1`. -/
def setHead (st : DepState) (eid : Nat) (newHead : Option Nat) : DepState :=
  let e := st.getEdge eid
  let st1 : DepState :=
    match e.head with
    | some h =>
        if eid ∈ (st.getNode h).outgoing then
          st.modifyNode h (fun n => { n with outgoing := n.outgoing.erase eid })
        else st
    | none => st
  let st2 := st1.modifyEdge eid (fun ed => { ed with head := newHead })
  match newHead with
  | some h =>
      let st3 := st2.modifyNode h (fun n => { n with outgoing := n.outgoing ++ [eid] })
      st3.modifyEdge eid (fun ed => { ed with headIndex := ((st3.getNode h).position : Int) - 1 })
  | none => st2

/-- Mirror of the `Edge.dependent` property setter (dep.py lines 127-133):
remove the edge from the old dependent's `incoming` list, store the new
dependent reference, and if it is not `None` append the edge to the new
dependent's `incoming` list. -/
def setDependent (st : DepState) (eid : Nat) (newDep : Option Nat) : DepState :=
  let e := st.getEdge eid
  let st1 : DepState :=
    match e.dependent with
    | some d => st.modifyNode d (fun n => { n with incoming := n.incoming.erase eid })
    | none => st
  let st2 := st1.modifyEdge eid (fun ed => { ed with dependent := newDep })
  match newDep with
  | some d => st2.modifyNode d (fun n => { n with incoming := n.incoming ++ [eid] })
  | none => st2

/-- Mirror of `Edge.remove` (dep.py lines 144-145): `self.head = self.dependent = None`. -/
def removeEdge (st : DepState) (eid : Nat) : DepState :=
  setDependent (setHead st eid none) eid none

/-- Python list indexing, including the negative-index convention:
`l[i]` is `l[len l + i]` for `i < 0`; out of range yields `none`
(an `IndexError` in Python). -/
def pyGet (l : List Nat) (i : Int) : Option Nat :=
  if 0 ≤ i then l.get? i.toNat
  else if (-i).toNat ≤ l.length then l.get? (l.length - (-i).toNat)
  else none

/-- Mirror of `Edge.link_head` (dep.py lines 139-142) for an integer
`head_index`: resolve the index in the `heads` list (Python semantics,
negative indices wrap) and assign the result through the `head` setter.
`none` is the `IndexError` raised on an out-of-range index.  (String
copy-node references are outside this model.) -/
def linkHead (st : DepState) (eid : Nat) (heads : List Nat) : Option DepState :=
  match pyGet heads (st.getEdge eid).headIndex with
  | some h => some (setHead st eid (some h))
  | none => none

/-- Mirror of `top_edge` (dep.py lines 385-389): create a fresh edge with
`head_index = 0`, relation TOP, not remote, then assign the virtual root
(node index `rootNid`) as head and `depNid` as dependent through the
setters.  Returns the new state and the new edge index. -/
def topEdge (st : DepState) (rootNid depNid : Nat) : DepState × Nat :=
  let eid := st.edges.length
  let st1 : DepState :=
    { st with edges := st.edges ++ [{ headIndex := 0, rel := "TOP", remote := false,
                                      head := none, dependent := none }] }
  (setDependent (setHead st1 eid (some rootNid)) eid (some depNid), eid)

/-- Adjacency-list well-formedness: every edge index stored in a node's
lists is a live edge index and the lists have no duplicates. -/
def IdsOk (st : DepState) : Prop :=
  ∀ nid, nid < st.nodes.length →
    (st.getNode nid).outgoing.Nodup ∧ (st.getNode nid).incoming.Nodup ∧
    (∀ eid ∈ (st.getNode nid).outgoing, eid < st.edges.length) ∧
    (∀ eid ∈ (st.getNode nid).incoming, eid < st.edges.length)

/-- The adjacency consistency invariant of the spec: an edge appears in a
node's `outgoing` list exactly when its `head` reference is that node, and
in its `incoming` list exactly when its `dependent` reference is that node. -/
def Consistent (st : DepState) : Prop :=
  IdsOk st ∧
  ∀ nid, nid < st.nodes.length → ∀ eid, eid < st.edges.length →
    ((eid ∈ (st.getNode nid).outgoing ↔ (st.getEdge eid).head = some nid) ∧
     (eid ∈ (st.getNode nid).incoming ↔ (st.getEdge eid).dependent = some nid))

instance : DecidablePred IdsOk := by
  intro st; unfold IdsOk; infer_instance

instance : DecidablePred Consistent := by
  intro st; unfold Consistent IdsOk; infer_instance

lemma consistent_sanity_pos :
    Consistent { nodes := [{ position := 0 }, { position := 1, incoming := [0] }],
                 edges := [{ headIndex := -1, rel := "x", remote := false,
                             head := none, dependent := some 1 }] } := by decide

lemma consistent_sanity_neg :
    ¬ Consistent { nodes := [{ position := 0 }, { position := 1, incoming := [0] }],
                   edges := [{ headIndex := -1, rel := "x", remote := false,
                               head := none, dependent := none }] } := by decide

/-! ### State-update characterization lemmas -/

@[simp] lemma default_depNode :
    (default : DepNode) = ⟨0, [], [], false, false, none, [], 0⟩ := rfl

lemma getD_set {α : Type _} [Inhabited α] (l : List α) (i j : Nat) (a : α) :
    (l.set i a).getD j default = if i = j ∧ j < l.length then a else l.getD j default := by
  rw [List.getD_eq_getElem?_getD, List.getD_eq_getElem?_getD, List.getElem?_set]
  by_cases hij : i = j
  · subst hij
    by_cases hi : i < l.length
    · simp [hi]
    · simp [hi, List.getElem?_eq_none (Nat.le_of_not_lt hi)]
  · simp [hij]

lemma getNode_modifyNode (st : DepState) (nid : Nat) (f : DepNode → DepNode) (nid2 : Nat) :
    (st.modifyNode nid f).getNode nid2 =
      if nid = nid2 ∧ nid2 < st.nodes.length then f (st.getNode nid2) else st.getNode nid2 := by
  unfold DepState.modifyNode DepState.getNode
  rw [getD_set]
  rcases Decidable.em (nid = nid2) with h | h
  · subst h; rfl
  · simp [h]

lemma getEdge_modifyEdge (st : DepState) (eid : Nat) (f : DepEdge → DepEdge) (eid2 : Nat) :
    (st.modifyEdge eid f).getEdge eid2 =
      if eid = eid2 ∧ eid2 < st.edges.length then f (st.getEdge eid2) else st.getEdge eid2 := by
  unfold DepState.modifyEdge DepState.getEdge
  rw [getD_set]
  rcases Decidable.em (eid = eid2) with h | h
  · subst h; rfl
  · simp [h]

@[simp] lemma getEdge_modifyNode (st : DepState) (nid : Nat) (f : DepNode → DepNode) (eid : Nat) :
    (st.modifyNode nid f).getEdge eid = st.getEdge eid := rfl

@[simp] lemma position_modifyOutgoing (st : DepState) (m : Nat) (g : DepNode → List Nat) (k : Nat) :
    ((st.modifyNode m (fun n => { n with outgoing := g n })).getNode k).position =
      (st.getNode k).position := by
  rw [getNode_modifyNode]; split_ifs <;> rfl

@[simp] lemma position_modifyIncoming (st : DepState) (m : Nat) (g : DepNode → List Nat) (k : Nat) :
    ((st.modifyNode m (fun n => { n with incoming := g n })).getNode k).position =
      (st.getNode k).position := by
  rw [getNode_modifyNode]; split_ifs <;> rfl

@[simp] lemma getNode_modifyEdge (st : DepState) (eid : Nat) (f : DepEdge → DepEdge) (nid : Nat) :
    (st.modifyEdge eid f).getNode nid = st.getNode nid := rfl

@[simp] lemma nodesLength_modifyNode (st : DepState) (nid : Nat) (f : DepNode → DepNode) :
    (st.modifyNode nid f).nodes.length = st.nodes.length := by
  simp [DepState.modifyNode]

@[simp] lemma nodesLength_modifyEdge (st : DepState) (eid : Nat) (f : DepEdge → DepEdge) :
    (st.modifyEdge eid f).nodes.length = st.nodes.length := rfl

@[simp] lemma edgesLength_modifyNode (st : DepState) (nid : Nat) (f : DepNode → DepNode) :
    (st.modifyNode nid f).edges.length = st.edges.length := rfl

@[simp] lemma edgesLength_modifyEdge (st : DepState) (eid : Nat) (f : DepEdge → DepEdge) :
    (st.modifyEdge eid f).edges.length = st.edges.length := by
  simp [DepState.modifyEdge]

/-- The `outgoing` list of node `nid` after the removal phase of the `head`
setter (proof-side abbreviation). -/
def shBase (st : DepState) (eid0 : Nat) (nid : Nat) : List Nat :=
  if (st.getEdge eid0).head = some nid ∧ eid0 ∈ (st.getNode nid).outgoing then
    ((st.getNode nid).outgoing).erase eid0
  else (st.getNode nid).outgoing

/-- Resulting `outgoing` list of node `nid` after `setHead st eid0 nh`
(proof-side abbreviation, see `setHead_getNode`). -/
def shOut (st : DepState) (eid0 : Nat) (nh : Option Nat) (nid : Nat) : List Nat :=
  if nh = some nid ∧ nid < st.nodes.length then shBase st eid0 nid ++ [eid0]
  else shBase st eid0 nid

lemma getNode_eq_default (st : DepState) {nid : Nat} (h : st.nodes.length ≤ nid) :
    st.getNode nid = default := by
  unfold DepState.getNode
  rw [List.getD_eq_getElem?_getD, List.getElem?_eq_none h]; rfl

lemma getEdge_eq_default (st : DepState) {eid : Nat} (h : st.edges.length ≤ eid) :
    st.getEdge eid = default := by
  unfold DepState.getEdge
  rw [List.getD_eq_getElem?_getD, List.getElem?_eq_none h]; rfl

lemma setHead_getNode (st : DepState) (eid0 : Nat) (nh : Option Nat) (nid : Nat) :
    (setHead st eid0 nh).getNode nid =
      { st.getNode nid with outgoing := shOut st eid0 nh nid } := by
  have hMemDef : ¬ nid < st.nodes.length → (st.getNode nid).outgoing = [] := by
    intro h2
    rw [getNode_eq_default st (Nat.le_of_not_lt h2)]; rfl
  unfold setHead shOut shBase
  cases hE : (st.getEdge eid0).head with
  | none =>
    cases nh with
    | none => simp [hE]
    | some h =>
      simp only [hE, getNode_modifyEdge, getNode_modifyNode, Option.some.injEq]
      split_ifs <;> simp_all
  | some hOld =>
    by_cases hM : eid0 ∈ (st.getNode hOld).outgoing
    · cases nh with
      | none =>
        simp only [hE, hM, if_pos, getNode_modifyEdge, getNode_modifyNode, Option.some.injEq]
        split_ifs <;>
          first
            | rfl
            | simp_all [List.erase_of_not_mem]
      | some h =>
        simp only [hE, hM, if_pos, getNode_modifyEdge, getNode_modifyNode, Option.some.injEq]
        split_ifs <;>
          first
            | rfl
            | simp_all [List.erase_of_not_mem]
    · cases nh with
      | none =>
        simp only [hE, hM, if_neg, getNode_modifyEdge, getNode_modifyNode, Option.some.injEq]
        split_ifs <;>
          first
            | rfl
            | simp_all [List.erase_of_not_mem]
      | some h =>
        simp only [hE, hM, if_neg, getNode_modifyEdge, getNode_modifyNode, Option.some.injEq]
        split_ifs <;>
          first
            | rfl
            | simp_all [List.erase_of_not_mem]

/-- The `incoming` list of node `nid` after the removal phase of the
`dependent` setter (proof-side abbreviation). -/
def sdBase (st : DepState) (eid0 : Nat) (nid : Nat) : List Nat :=
  if (st.getEdge eid0).dependent = some nid then
    ((st.getNode nid).incoming).erase eid0
  else (st.getNode nid).incoming

/-- Resulting `incoming` list of node `nid` after `setDependent st eid0 nd`
(proof-side abbreviation, see `setDependent_getNode`). -/
def sdInc (st : DepState) (eid0 : Nat) (nd : Option Nat) (nid : Nat) : List Nat :=
  if nd = some nid ∧ nid < st.nodes.length then sdBase st eid0 nid ++ [eid0]
  else sdBase st eid0 nid

lemma setDependent_getNode (st : DepState) (eid0 : Nat) (nd : Option Nat) (nid : Nat) :
    (setDependent st eid0 nd).getNode nid =
      { st.getNode nid with incoming := sdInc st eid0 nd nid } := by
  have hMemDef : ¬ nid < st.nodes.length → (st.getNode nid).incoming = [] := by
    intro h2
    rw [getNode_eq_default st (Nat.le_of_not_lt h2)]; rfl
  unfold setDependent sdInc sdBase
  cases hE : (st.getEdge eid0).dependent with
  | none =>
    cases nd with
    | none => simp [hE]
    | some d =>
      simp only [hE, getNode_modifyEdge, getNode_modifyNode, Option.some.injEq]
      split_ifs <;> simp_all
  | some dOld =>
    have hDef : ¬ nid < st.nodes.length → st.getNode nid = default := fun h2 =>
      getNode_eq_default st (Nat.le_of_not_lt h2)
    cases nd with
    | none =>
      simp only [hE, getNode_modifyEdge, getNode_modifyNode, Option.some.injEq]
      by_cases h1 : dOld = nid <;> by_cases h2 : nid < st.nodes.length <;>
        simp_all [List.erase_of_not_mem, default_depNode] <;>
          (try (split_ifs <;> first | rfl | omega))
    | some d =>
      simp only [hE, getNode_modifyEdge, getNode_modifyNode, Option.some.injEq]
      by_cases h1 : dOld = nid <;> by_cases h3 : d = nid <;>
        by_cases h2 : nid < st.nodes.length <;>
          simp_all [List.erase_of_not_mem, default_depNode] <;>
            (try (split_ifs <;> first | rfl | omega))

lemma setHead_getEdge_none (st : DepState) (eid0 : Nat) (eid : Nat) :
    (setHead st eid0 none).getEdge eid =
      if eid0 = eid ∧ eid < st.edges.length then
        { st.getEdge eid with head := none }
      else st.getEdge eid := by
  cases hE : (st.getEdge eid0).head with
  | none =>
    simp only [setHead, hE, getEdge_modifyNode, getEdge_modifyEdge]
    all_goals ((try split_ifs) <;> simp_all)
  | some hOld =>
    by_cases hM : eid0 ∈ (st.getNode hOld).outgoing <;>
      simp only [setHead, hE, hM, getEdge_modifyNode, getEdge_modifyEdge,
                 edgesLength_modifyEdge, edgesLength_modifyNode, if_true, if_false,
                 ite_true, ite_false, eq_self_iff_true, not_true, not_false_iff] <;>
      (try split_ifs) <;> simp_all

lemma setHead_getEdge_some (st : DepState) (eid0 h0 : Nat) (eid : Nat) :
    (setHead st eid0 (some h0)).getEdge eid =
      if eid0 = eid ∧ eid < st.edges.length then
        { st.getEdge eid with
            head := some h0
            headIndex := ((st.getNode h0).position : Int) - 1 }
      else st.getEdge eid := by
  cases hE : (st.getEdge eid0).head with
  | none =>
    simp only [setHead, hE, getEdge_modifyNode, getEdge_modifyEdge, getNode_modifyNode,
               edgesLength_modifyEdge, edgesLength_modifyNode]
    all_goals ((try split_ifs) <;> simp_all)
  | some hOld =>
    by_cases hM : eid0 ∈ (st.getNode hOld).outgoing <;>
      simp only [setHead, hE, hM, getEdge_modifyNode, getEdge_modifyEdge, getNode_modifyNode,
                 edgesLength_modifyEdge, edgesLength_modifyNode, if_true, if_false,
                 ite_true, ite_false, eq_self_iff_true, not_true, not_false_iff] <;>
      (try split_ifs) <;> simp_all

lemma setDependent_getEdge (st : DepState) (eid0 : Nat) (nd : Option Nat) (eid : Nat) :
    (setDependent st eid0 nd).getEdge eid =
      if eid0 = eid ∧ eid < st.edges.length then
        { st.getEdge eid with dependent := nd }
      else st.getEdge eid := by
  cases hE : (st.getEdge eid0).dependent with
  | none =>
    cases nd <;>
      simp only [setDependent, hE, getEdge_modifyNode, getEdge_modifyEdge, getNode_modifyNode,
                 edgesLength_modifyEdge, edgesLength_modifyNode] <;>
      (try split_ifs) <;> simp_all
  | some dOld =>
    cases nd <;>
      simp only [setDependent, hE, getEdge_modifyNode, getEdge_modifyEdge, getNode_modifyNode,
                 edgesLength_modifyEdge, edgesLength_modifyNode] <;>
      (try split_ifs) <;> simp_all

@[simp] lemma nodesLength_setHead (st : DepState) (eid0 : Nat) (nh : Option Nat) :
    (setHead st eid0 nh).nodes.length = st.nodes.length := by
  cases hE : (st.getEdge eid0).head <;> cases nh <;>
    simp only [setHead, hE] <;> (try split_ifs) <;>
      simp [DepState.modifyNode, DepState.modifyEdge]

@[simp] lemma edgesLength_setHead (st : DepState) (eid0 : Nat) (nh : Option Nat) :
    (setHead st eid0 nh).edges.length = st.edges.length := by
  cases hE : (st.getEdge eid0).head <;> cases nh <;>
    simp only [setHead, hE] <;> (try split_ifs) <;>
      simp [DepState.modifyNode, DepState.modifyEdge]

@[simp] lemma nodesLength_setDependent (st : DepState) (eid0 : Nat) (nd : Option Nat) :
    (setDependent st eid0 nd).nodes.length = st.nodes.length := by
  cases hE : (st.getEdge eid0).dependent <;> cases nd <;>
    simp only [setDependent, hE] <;> (try split_ifs) <;>
      simp [DepState.modifyNode, DepState.modifyEdge]

@[simp] lemma edgesLength_setDependent (st : DepState) (eid0 : Nat) (nd : Option Nat) :
    (setDependent st eid0 nd).edges.length = st.edges.length := by
  cases hE : (st.getEdge eid0).dependent <;> cases nd <;>
    simp only [setDependent, hE] <;> (try split_ifs) <;>
      simp [DepState.modifyNode, DepState.modifyEdge]

/-! ### Projection lemmas for the setters -/

@[simp] lemma incoming_setHead (st : DepState) (eid0 : Nat) (nh : Option Nat) (nid : Nat) :
    ((setHead st eid0 nh).getNode nid).incoming = (st.getNode nid).incoming := by
  rw [setHead_getNode]

@[simp] lemma position_setHead (st : DepState) (eid0 : Nat) (nh : Option Nat) (nid : Nat) :
    ((setHead st eid0 nh).getNode nid).position = (st.getNode nid).position := by
  rw [setHead_getNode]

lemma outgoing_setHead (st : DepState) (eid0 : Nat) (nh : Option Nat) (nid : Nat) :
    ((setHead st eid0 nh).getNode nid).outgoing = shOut st eid0 nh nid := by
  rw [setHead_getNode]

@[simp] lemma outgoing_setDependent (st : DepState) (eid0 : Nat) (nd : Option Nat) (nid : Nat) :
    ((setDependent st eid0 nd).getNode nid).outgoing = (st.getNode nid).outgoing := by
  rw [setDependent_getNode]

@[simp] lemma position_setDependent (st : DepState) (eid0 : Nat) (nd : Option Nat) (nid : Nat) :
    ((setDependent st eid0 nd).getNode nid).position = (st.getNode nid).position := by
  rw [setDependent_getNode]

lemma incoming_setDependent (st : DepState) (eid0 : Nat) (nd : Option Nat) (nid : Nat) :
    ((setDependent st eid0 nd).getNode nid).incoming = sdInc st eid0 nd nid := by
  rw [setDependent_getNode]

@[simp] lemma dependent_setHead (st : DepState) (eid0 : Nat) (nh : Option Nat) (eid : Nat) :
    ((setHead st eid0 nh).getEdge eid).dependent = (st.getEdge eid).dependent := by
  cases nh
  · rw [setHead_getEdge_none]; split_ifs <;> rfl
  · rw [setHead_getEdge_some]; split_ifs <;> rfl

@[simp] lemma rel_setHead (st : DepState) (eid0 : Nat) (nh : Option Nat) (eid : Nat) :
    ((setHead st eid0 nh).getEdge eid).rel = (st.getEdge eid).rel := by
  cases nh
  · rw [setHead_getEdge_none]; split_ifs <;> rfl
  · rw [setHead_getEdge_some]; split_ifs <;> rfl

@[simp] lemma remote_setHead (st : DepState) (eid0 : Nat) (nh : Option Nat) (eid : Nat) :
    ((setHead st eid0 nh).getEdge eid).remote = (st.getEdge eid).remote := by
  cases nh
  · rw [setHead_getEdge_none]; split_ifs <;> rfl
  · rw [setHead_getEdge_some]; split_ifs <;> rfl

lemma head_setHead (st : DepState) (eid0 : Nat) (nh : Option Nat) (eid : Nat) :
    ((setHead st eid0 nh).getEdge eid).head =
      if eid0 = eid ∧ eid < st.edges.length then nh else (st.getEdge eid).head := by
  cases nh
  · rw [setHead_getEdge_none]; split_ifs <;> rfl
  · rw [setHead_getEdge_some]; split_ifs <;> rfl

@[simp] lemma head_setDependent (st : DepState) (eid0 : Nat) (nd : Option Nat) (eid : Nat) :
    ((setDependent st eid0 nd).getEdge eid).head = (st.getEdge eid).head := by
  rw [setDependent_getEdge]; split_ifs <;> rfl

@[simp] lemma rel_setDependent (st : DepState) (eid0 : Nat) (nd : Option Nat) (eid : Nat) :
    ((setDependent st eid0 nd).getEdge eid).rel = (st.getEdge eid).rel := by
  rw [setDependent_getEdge]; split_ifs <;> rfl

@[simp] lemma remote_setDependent (st : DepState) (eid0 : Nat) (nd : Option Nat) (eid : Nat) :
    ((setDependent st eid0 nd).getEdge eid).remote = (st.getEdge eid).remote := by
  rw [setDependent_getEdge]; split_ifs <;> rfl

@[simp] lemma headIndex_setDependent (st : DepState) (eid0 : Nat) (nd : Option Nat) (eid : Nat) :
    ((setDependent st eid0 nd).getEdge eid).headIndex = (st.getEdge eid).headIndex := by
  rw [setDependent_getEdge]; split_ifs <;> rfl

lemma dependent_setDependent (st : DepState) (eid0 : Nat) (nd : Option Nat) (eid : Nat) :
    ((setDependent st eid0 nd).getEdge eid).dependent =
      if eid0 = eid ∧ eid < st.edges.length then nd else (st.getEdge eid).dependent := by
  rw [setDependent_getEdge]; split_ifs <;> rfl

/-! ### The setters preserve the adjacency invariant -/

lemma shBase_nodup (st : DepState) (eid0 : Nat) (nid : Nat)
    (hNd : (st.getNode nid).outgoing.Nodup) : (shBase st eid0 nid).Nodup := by
  unfold shBase; split_ifs
  · exact hNd.erase eid0
  · exact hNd

lemma not_mem_shBase (st : DepState) (eid0 : Nat) (nid : Nat)
    (hNd : (st.getNode nid).outgoing.Nodup)
    (hIff : eid0 ∈ (st.getNode nid).outgoing ↔ (st.getEdge eid0).head = some nid) :
    eid0 ∉ shBase st eid0 nid := by
  unfold shBase; split_ifs with h
  · intro hmem
    exact ((List.Nodup.mem_erase_iff hNd).mp hmem).1 rfl
  · intro hmem
    exact h ⟨hIff.mp hmem, hmem⟩

lemma mem_shBase_of_ne (st : DepState) (eid0 : Nat) (nid : Nat) {eid : Nat} (hne : eid ≠ eid0) :
    eid ∈ shBase st eid0 nid ↔ eid ∈ (st.getNode nid).outgoing := by
  unfold shBase; split_ifs with h
  · exact List.mem_erase_of_ne hne
  · exact Iff.rfl

lemma shBase_subset (st : DepState) (eid0 : Nat) (nid : Nat) :
    shBase st eid0 nid ⊆ (st.getNode nid).outgoing := by
  unfold shBase; split_ifs
  · exact (List.erase_sublist eid0 _).subset
  · exact fun _ h => h

lemma mem_shOut (st : DepState) (eid0 : Nat) (nh : Option Nat) (nid : Nat) (eid : Nat)
    (hNd : (st.getNode nid).outgoing.Nodup)
    (hIff : eid0 ∈ (st.getNode nid).outgoing ↔ (st.getEdge eid0).head = some nid) :
    eid ∈ shOut st eid0 nh nid ↔
      (eid ≠ eid0 ∧ eid ∈ (st.getNode nid).outgoing) ∨
      (eid = eid0 ∧ nh = some nid ∧ nid < st.nodes.length) := by
  unfold shOut
  by_cases he : eid = eid0
  · subst he
    have hnm := not_mem_shBase st eid nid hNd hIff
    split_ifs with hc
    · simp [hnm, hc]
    · simp [hnm, hc]
  · have hb := mem_shBase_of_ne st eid0 nid he
    split_ifs with hc
    · simp [he, hb]
    · simp [he, hb]

lemma sdBase_nodup (st : DepState) (eid0 : Nat) (nid : Nat)
    (hNd : (st.getNode nid).incoming.Nodup) : (sdBase st eid0 nid).Nodup := by
  unfold sdBase; split_ifs
  · exact hNd.erase eid0
  · exact hNd

lemma not_mem_sdBase (st : DepState) (eid0 : Nat) (nid : Nat)
    (hNd : (st.getNode nid).incoming.Nodup)
    (hIff : eid0 ∈ (st.getNode nid).incoming ↔ (st.getEdge eid0).dependent = some nid) :
    eid0 ∉ sdBase st eid0 nid := by
  unfold sdBase; split_ifs with h
  · intro hmem
    exact ((List.Nodup.mem_erase_iff hNd).mp hmem).1 rfl
  · intro hmem
    exact h (hIff.mp hmem)

lemma mem_sdBase_of_ne (st : DepState) (eid0 : Nat) (nid : Nat) {eid : Nat} (hne : eid ≠ eid0) :
    eid ∈ sdBase st eid0 nid ↔ eid ∈ (st.getNode nid).incoming := by
  unfold sdBase; split_ifs with h
  · exact List.mem_erase_of_ne hne
  · exact Iff.rfl

lemma sdBase_subset (st : DepState) (eid0 : Nat) (nid : Nat) :
    sdBase st eid0 nid ⊆ (st.getNode nid).incoming := by
  unfold sdBase; split_ifs
  · exact (List.erase_sublist eid0 _).subset
  · exact fun _ h => h

lemma mem_sdInc (st : DepState) (eid0 : Nat) (nd : Option Nat) (nid : Nat) (eid : Nat)
    (hNd : (st.getNode nid).incoming.Nodup)
    (hIff : eid0 ∈ (st.getNode nid).incoming ↔ (st.getEdge eid0).dependent = some nid) :
    eid ∈ sdInc st eid0 nd nid ↔
      (eid ≠ eid0 ∧ eid ∈ (st.getNode nid).incoming) ∨
      (eid = eid0 ∧ nd = some nid ∧ nid < st.nodes.length) := by
  unfold sdInc
  by_cases he : eid = eid0
  · subst he
    have hnm := not_mem_sdBase st eid nid hNd hIff
    split_ifs with hc
    · simp [hnm, hc]
    · simp [hnm, hc]
  · have hb := mem_sdBase_of_ne st eid0 nid he
    split_ifs with hc
    · simp [he, hb]
    · simp [he, hb]

theorem consistent_setHead (st : DepState) (eid0 : Nat) (nh : Option Nat)
    (hC : Consistent st) (he : eid0 < st.edges.length) :
    Consistent (setHead st eid0 nh) := by
  obtain ⟨hIds, hIff⟩ := hC
  constructor
  · intro nid hn
    rw [nodesLength_setHead] at hn
    obtain ⟨hNd, hNdI, hBo, hBi⟩ := hIds nid hn
    have hIff0 := (hIff nid hn eid0 he).1
    refine ⟨?_, ?_, ?_, ?_⟩
    · rw [outgoing_setHead]
      unfold shOut
      split_ifs
      · exact (shBase_nodup st eid0 nid hNd).append (List.nodup_singleton eid0)
          (by
            intro a ha hb
            rw [List.mem_singleton] at hb
            rw [hb] at ha
            exact not_mem_shBase st eid0 nid hNd hIff0 ha)
      · exact shBase_nodup st eid0 nid hNd
    · rw [incoming_setHead]; exact hNdI
    · intro eid hmem
      rw [outgoing_setHead] at hmem
      rw [edgesLength_setHead]
      unfold shOut at hmem
      split_ifs at hmem
      · rcases List.mem_append.mp hmem with h1 | h1
        · exact hBo eid (shBase_subset st eid0 nid h1)
        · rw [List.mem_singleton] at h1; subst h1; exact he
      · exact hBo eid (shBase_subset st eid0 nid hmem)
    · intro eid hmem
      rw [incoming_setHead] at hmem
      rw [edgesLength_setHead]
      exact hBi eid hmem
  · intro nid hn eid heE
    rw [nodesLength_setHead] at hn
    rw [edgesLength_setHead] at heE
    have hIff0 := (hIff nid hn eid0 he).1
    obtain ⟨hNd, hNdI, hBo, hBi⟩ := hIds nid hn
    constructor
    · rw [outgoing_setHead, mem_shOut st eid0 nh nid eid hNd hIff0, head_setHead]
      by_cases heq : eid = eid0
      · rw [heq] at heE ⊢
        rw [if_pos (And.intro rfl heE)]
        simp only [ne_eq, not_true_eq_false, false_and, false_or, true_and]
        constructor
        · rintro ⟨h1, -⟩; exact h1
        · intro h1; exact ⟨h1, hn⟩
      · have hcond : ¬ (eid0 = eid ∧ eid < st.edges.length) := fun h1 => heq h1.1.symm
        rw [if_neg hcond]
        simp only [heq, ne_eq, not_false_iff, true_and, false_and, or_false]
        exact (hIff nid hn eid heE).1
    · rw [incoming_setHead, dependent_setHead]
      exact (hIff nid hn eid heE).2

theorem consistent_setDependent (st : DepState) (eid0 : Nat) (nd : Option Nat)
    (hC : Consistent st) (he : eid0 < st.edges.length) :
    Consistent (setDependent st eid0 nd) := by
  obtain ⟨hIds, hIff⟩ := hC
  constructor
  · intro nid hn
    rw [nodesLength_setDependent] at hn
    obtain ⟨hNd, hNdI, hBo, hBi⟩ := hIds nid hn
    have hIff0 := (hIff nid hn eid0 he).2
    refine ⟨?_, ?_, ?_, ?_⟩
    · rw [outgoing_setDependent]; exact hNd
    · rw [incoming_setDependent]
      unfold sdInc
      split_ifs
      · exact (sdBase_nodup st eid0 nid hNdI).append (List.nodup_singleton eid0)
          (by
            intro a ha hb
            rw [List.mem_singleton] at hb
            rw [hb] at ha
            exact not_mem_sdBase st eid0 nid hNdI hIff0 ha)
      · exact sdBase_nodup st eid0 nid hNdI
    · intro eid hmem
      rw [outgoing_setDependent] at hmem
      rw [edgesLength_setDependent]
      exact hBo eid hmem
    · intro eid hmem
      rw [incoming_setDependent] at hmem
      rw [edgesLength_setDependent]
      unfold sdInc at hmem
      split_ifs at hmem
      · rcases List.mem_append.mp hmem with h1 | h1
        · exact hBi eid (sdBase_subset st eid0 nid h1)
        · rw [List.mem_singleton] at h1; subst h1; exact he
      · exact hBi eid (sdBase_subset st eid0 nid hmem)
  · intro nid hn eid heE
    rw [nodesLength_setDependent] at hn
    rw [edgesLength_setDependent] at heE
    have hIff0 := (hIff nid hn eid0 he).2
    obtain ⟨hNd, hNdI, hBo, hBi⟩ := hIds nid hn
    constructor
    · rw [outgoing_setDependent, head_setDependent]
      exact (hIff nid hn eid heE).1
    · rw [incoming_setDependent, mem_sdInc st eid0 nd nid eid hNdI hIff0,
          dependent_setDependent]
      by_cases heq : eid = eid0
      · rw [heq] at heE ⊢
        rw [if_pos (And.intro rfl heE)]
        simp only [ne_eq, not_true_eq_false, false_and, false_or, true_and]
        constructor
        · rintro ⟨h1, -⟩; exact h1
        · intro h1; exact ⟨h1, hn⟩
      · have hcond : ¬ (eid0 = eid ∧ eid < st.edges.length) := fun h1 => heq h1.1.symm
        rw [if_neg hcond]
        simp only [heq, ne_eq, not_false_iff, true_and, false_and, or_false]
        exact (hIff nid hn eid heE).2

theorem consistent_removeEdge (st : DepState) (eid0 : Nat)
    (hC : Consistent st) (he : eid0 < st.edges.length) :
    Consistent (removeEdge st eid0) := by
  unfold removeEdge
  apply consistent_setDependent
  · exact consistent_setHead st eid0 none hC he
  · rw [edgesLength_setHead]; exact he

theorem consistent_linkHead (st : DepState) (eid0 : Nat) (heads : List Nat) (st2 : DepState)
    (hC : Consistent st) (he : eid0 < st.edges.length)
    (hL : linkHead st eid0 heads = some st2) :
    Consistent st2 := by
  unfold linkHead at hL
  cases hP : pyGet heads (st.getEdge eid0).headIndex with
  | none => rw [hP] at hL; exact absurd hL (by simp)
  | some h =>
    rw [hP] at hL
    have : st2 = setHead st eid0 (some h) := by
      injection hL with h1; exact h1.symm
    rw [this]
    exact consistent_setHead st eid0 (some h) hC he

/-! ### Edge creation -/

lemma getNode_appendEdges (st : DepState) (es : List DepEdge) (nid : Nat) :
    ({ st with edges := st.edges ++ es } : DepState).getNode nid = st.getNode nid := rfl

lemma getEdge_appendEdges (st : DepState) (es : List DepEdge) (eid : Nat)
    (h : eid < st.edges.length) :
    ({ st with edges := st.edges ++ es } : DepState).getEdge eid = st.getEdge eid := by
  unfold DepState.getEdge
  rw [List.getD_eq_getElem?_getD, List.getD_eq_getElem?_getD]
  show (st.edges ++ es)[eid]?.getD default = st.edges[eid]?.getD default
  rw [List.getElem?_append, if_pos h]

lemma getEdge_appendEdges_last (st : DepState) (e : DepEdge) :
    ({ st with edges := st.edges ++ [e] } : DepState).getEdge st.edges.length = e := by
  unfold DepState.getEdge
  rw [List.getD_eq_getElem?_getD, List.getElem?_append_right (Nat.le_refl _)]
  simp

lemma consistent_appendEdge (st : DepState) (e : DepEdge)
    (hC : Consistent st) (hH : e.head = none) (hD : e.dependent = none) :
    Consistent { st with edges := st.edges ++ [e] } := by
  obtain ⟨hIds, hIff⟩ := hC
  constructor
  · intro nid hn
    obtain ⟨hNd, hNdI, hBo, hBi⟩ := hIds nid hn
    rw [getNode_appendEdges]
    refine ⟨hNd, hNdI, ?_, ?_⟩
    · intro eid hmem
      simp only [List.length_append, List.length_singleton]
      exact Nat.lt_succ_of_lt (hBo eid hmem)
    · intro eid hmem
      simp only [List.length_append, List.length_singleton]
      exact Nat.lt_succ_of_lt (hBi eid hmem)
  · intro nid hn eid heE
    simp only [List.length_append, List.length_singleton] at heE
    rw [getNode_appendEdges]
    by_cases hlt : eid < st.edges.length
    · rw [getEdge_appendEdges st [e] eid hlt]
      exact hIff nid hn eid hlt
    · have heid : eid = st.edges.length := by omega
      subst heid
      rw [getEdge_appendEdges_last]
      obtain ⟨hNd, hNdI, hBo, hBi⟩ := hIds nid hn
      constructor
      · constructor
        · intro hmem; exact absurd (hBo _ hmem) hlt
        · intro hh; rw [hH] at hh; cases hh
      · constructor
        · intro hmem; exact absurd (hBi _ hmem) hlt
        · intro hh; rw [hD] at hh; cases hh

theorem consistent_topEdge (st : DepState) (rootNid depNid : Nat)
    (hC : Consistent st) :
    Consistent (topEdge st rootNid depNid).1 := by
  unfold topEdge
  have h1 := consistent_appendEdge st
    { headIndex := 0, rel := "TOP", remote := false, head := none, dependent := none }
    hC rfl rfl
  have hlen : st.edges.length <
      ({ st with edges := st.edges ++
        [{ headIndex := 0, rel := "TOP", remote := false,
           head := none, dependent := none }] } : DepState).edges.length := by
    simp
  have h2 := consistent_setHead _ st.edges.length (some rootNid) h1 hlen
  exact consistent_setDependent _ st.edges.length (some depNid) h2 (by simpa using hlen)

/-! ### The head-index invariant (claim C10) -/

instance decidableForallOptionEq {p : Nat → Prop} [DecidablePred p] (o : Option Nat) :
    Decidable (∀ h, o = some h → p h) :=
  match o with
  | none => isTrue (by intro h hh; cases hh)
  | some k =>
      if hk : p k then
        isTrue (by intro h hh; cases hh; exact hk)
      else isFalse (fun f => hk (f k rfl))

/-- Every resolved head reference comes with the matching `head_index`
column value: `head_index = head.position - 1`. -/
def HeadIndexOk (st : DepState) : Prop :=
  ∀ eid, eid < st.edges.length → ∀ h, (st.getEdge eid).head = some h →
    (st.getEdge eid).headIndex = ((st.getNode h).position : Int) - 1

instance : DecidablePred HeadIndexOk := by
  intro st; unfold HeadIndexOk; infer_instance

lemma headIndex_setHead_some (st : DepState) (eid0 h0 : Nat) (eid : Nat) :
    ((setHead st eid0 (some h0)).getEdge eid).headIndex =
      if eid0 = eid ∧ eid < st.edges.length then ((st.getNode h0).position : Int) - 1
      else (st.getEdge eid).headIndex := by
  rw [setHead_getEdge_some]; split_ifs <;> rfl

lemma headIndex_setHead_none (st : DepState) (eid0 : Nat) (eid : Nat) :
    ((setHead st eid0 none).getEdge eid).headIndex = (st.getEdge eid).headIndex := by
  rw [setHead_getEdge_none]; split_ifs <;> rfl

lemma headIndexOk_setHead (st : DepState) (eid0 : Nat) (nh : Option Nat)
    (hOk : HeadIndexOk st) : HeadIndexOk (setHead st eid0 nh) := by
  intro eid he h hh
  rw [edgesLength_setHead] at he
  rw [head_setHead] at hh
  cases nh with
  | none =>
    rw [headIndex_setHead_none, position_setHead]
    split_ifs at hh with hc
    all_goals first
      | cases hh
      | exact hOk eid he h hh
  | some h0 =>
    rw [headIndex_setHead_some, position_setHead]
    split_ifs at hh with hc
    · rw [if_pos hc]
      cases hh; rfl
    · rw [if_neg hc]
      exact hOk eid he h hh

lemma headIndexOk_setDependent (st : DepState) (eid0 : Nat) (nd : Option Nat)
    (hOk : HeadIndexOk st) : HeadIndexOk (setDependent st eid0 nd) := by
  intro eid he h hh
  rw [edgesLength_setDependent] at he
  rw [head_setDependent] at hh
  rw [headIndex_setDependent, position_setDependent]
  exact hOk eid he h hh

lemma headIndexOk_removeEdge (st : DepState) (eid0 : Nat)
    (hOk : HeadIndexOk st) : HeadIndexOk (removeEdge st eid0) :=
  headIndexOk_setDependent _ eid0 none (headIndexOk_setHead st eid0 none hOk)

lemma headIndexOk_linkHead (st : DepState) (eid0 : Nat) (heads : List Nat) (st2 : DepState)
    (hOk : HeadIndexOk st) (hL : linkHead st eid0 heads = some st2) : HeadIndexOk st2 := by
  unfold linkHead at hL
  cases hP : pyGet heads (st.getEdge eid0).headIndex with
  | none => rw [hP] at hL; exact absurd hL (by simp)
  | some h =>
    rw [hP] at hL
    have : st2 = setHead st eid0 (some h) := by injection hL with h1; exact h1.symm
    rw [this]
    exact headIndexOk_setHead st eid0 (some h) hOk

lemma headIndexOk_appendEdge (st : DepState) (e : DepEdge)
    (hOk : HeadIndexOk st) (hH : e.head = none) :
    HeadIndexOk { st with edges := st.edges ++ [e] } := by
  intro eid he h hh
  simp only [List.length_append, List.length_singleton] at he
  rw [getNode_appendEdges]
  by_cases hlt : eid < st.edges.length
  · rw [getEdge_appendEdges st [e] eid hlt] at hh ⊢
    exact hOk eid hlt h hh
  · have heid : eid = st.edges.length := by omega
    subst heid
    rw [getEdge_appendEdges_last] at hh
    rw [hH] at hh; cases hh

lemma headIndexOk_topEdge (st : DepState) (rootNid depNid : Nat)
    (hOk : HeadIndexOk st) : HeadIndexOk (topEdge st rootNid depNid).1 := by
  unfold topEdge
  exact headIndexOk_setDependent _ _ _
    (headIndexOk_setHead _ _ _ (headIndexOk_appendEdge st _ hOk rfl))

/-! ### Punctuation edge flipping (create_non_terminals, dep.py lines 302-308) -/

/-- Mirror of the punctuation flip in `create_non_terminals` (dep.py lines
302-308): compute the replacement head (the head of the first incoming edge,
or the virtual root when there is none), reparent every outgoing edge of the
punctuation node to it, then reparent every incoming edge to the current
head of the first former outgoing edge.  (The code only runs this for nodes
with a nonempty `outgoing`; the `[]` fallback mirrors the unreachable
empty case.) -/
def flipPunct (st : DepState) (rootNid nid : Nat) : DepState :=
  let headRef : Option Nat :=
    match (st.getNode nid).incoming with
    | [] => some rootNid
    | e :: _ => (st.getEdge e).head
  let outg := (st.getNode nid).outgoing
  let st1 := outg.foldl (fun s e => setHead s e headRef) st
  ((st1.getNode nid).incoming).foldl
    (fun s e =>
      setHead s e
        (match outg with
         | [] => none
         | o :: _ => (s.getEdge o).head)) st1

lemma headIndexOk_foldl {β : Type _} (f : DepState → β → DepState)
    (hf : ∀ s b, HeadIndexOk s → HeadIndexOk (f s b)) :
    ∀ (l : List β) (st : DepState), HeadIndexOk st → HeadIndexOk (l.foldl f st) := by
  intro l
  induction l with
  | nil => intro st h; exact h
  | cons b t ih => intro st h; exact ih (f st b) (hf st b h)

lemma headIndexOk_flipPunct (st : DepState) (rootNid nid : Nat)
    (hOk : HeadIndexOk st) : HeadIndexOk (flipPunct st rootNid nid) := by
  unfold flipPunct
  apply headIndexOk_foldl _ (fun s b hs => headIndexOk_setHead s b _ hs)
  apply headIndexOk_foldl _ (fun s b hs => headIndexOk_setHead s b _ hs)
  exact hOk

lemma consistent_foldl_setHead (g : DepState → Nat → Option Nat) :
    ∀ (l : List Nat) (st : DepState), Consistent st → (∀ e ∈ l, e < st.edges.length) →
      Consistent (l.foldl (fun s e => setHead s e (g s e)) st) := by
  intro l
  induction l with
  | nil => intro st h _; exact h
  | cons b t ih =>
      intro st h hb
      apply ih
      · exact consistent_setHead st b _ h (hb b (List.mem_cons_self b t))
      · intro e he
        rw [edgesLength_setHead]
        exact hb e (List.mem_cons_of_mem b he)

lemma incoming_foldl_setHead (g : DepState → Nat → Option Nat) :
    ∀ (l : List Nat) (st : DepState) (nid : Nat),
      ((l.foldl (fun s e => setHead s e (g s e)) st).getNode nid).incoming =
        (st.getNode nid).incoming := by
  intro l
  induction l with
  | nil => intro st nid; rfl
  | cons b t ih =>
      intro st nid
      rw [List.foldl_cons, ih, incoming_setHead]

lemma edgesLength_foldl_setHead (g : DepState → Nat → Option Nat) :
    ∀ (l : List Nat) (st : DepState),
      (l.foldl (fun s e => setHead s e (g s e)) st).edges.length = st.edges.length := by
  intro l
  induction l with
  | nil => intro st; rfl
  | cons b t ih =>
      intro st
      rw [List.foldl_cons, ih, edgesLength_setHead]

lemma consistent_flipPunct (st : DepState) (rootNid nid : Nat) (hC : Consistent st) :
    Consistent (flipPunct st rootNid nid) := by
  unfold flipPunct
  by_cases hn : nid < st.nodes.length
  · have hIds := hC.1
    obtain ⟨-, -, hBo, hBi⟩ := hIds nid hn
    apply consistent_foldl_setHead
    · exact consistent_foldl_setHead _ _ st hC hBo
    · intro e he
      rw [incoming_foldl_setHead] at he
      rw [edgesLength_foldl_setHead]
      exact hBi e he
  · have hdef := getNode_eq_default st (Nat.le_of_not_lt hn)
    simp only [hdef, default_depNode, List.foldl_nil]
    exact hC

/-! ### Preprocessing (dep.py lines 521-543) -/

/-- `self.ROOT.lower()` in dep.py. -/
def rootRel : String := "root"

/-- `self.ORPHAN` in dep.py. -/
def orphanRel : String := "orphan"

/-- `EdgeTags.Terminal` from the external `ucca` package; `is_flat` (dep.py
lines 650-651) compares the relation against it. -/
def terminalTag : String := "Terminal"

/-- `EdgeTags.Linker` from the external `ucca` package. -/
def linkerTag : String := "L"

/-- Mirror of `is_flat` (dep.py lines 650-651). -/
def isFlat (e : DepEdge) : Bool := e.rel == terminalTag

/-- Mirror of `roots` (dep.py lines 633-634): the nodes with an incoming
edge labeled with the lowercase ROOT relation. -/
def rootsOf (st : DepState) (nodeIds : List Nat) : List Nat :=
  nodeIds.filter (fun n =>
    ((st.getNode n).incoming).any (fun eid => (st.getEdge eid).rel == rootRel))

/-- Mirror of the root demotion loop (dep.py lines 524-525): each extra root
keeps only its incoming edges that are not ROOT-labeled and have a
non-negative head index.  This assigns the `incoming` list directly,
bypassing the `dependent` setter, exactly as the Python code does. -/
def demoteExtraRoots (st : DepState) (extras : List Nat) : DepState :=
  extras.foldl
    (fun s r =>
      s.modifyNode r (fun n =>
        { n with incoming := n.incoming.filter (fun eid =>
            !((s.getEdge eid).rel == rootRel) && decide (0 ≤ (s.getEdge eid).headIndex)) }))
    st

/-- Mirror of the `for edge in dep_node.incoming` scan in `preprocess`
(dep.py lines 528-536), including the CPython iteration semantics: the loop
reads the live list at index `i`, so a removal during iteration skips the
element that slides into position `i`.  Remote flat edges are removed
through the setters; other remote edges lose their `remote` flag outside
the semantic (UCCA) formalism; a non-remote edge marks the node as having a
primary parent. -/
def scanIncoming (isUcca : Bool) (nid : Nat) :
    Nat → DepState → Nat → Bool → DepState × Bool
  | 0, st, _, parentless => (st, parentless)
  | fuel + 1, st, i, parentless =>
    let inc := (st.getNode nid).incoming
    if hlt : i < inc.length then
      let eid := inc.get ⟨i, hlt⟩
      let e := st.getEdge eid
      if e.remote then
        if isFlat e then
          scanIncoming isUcca nid fuel (removeEdge st eid) (i + 1) parentless
        else if !isUcca then
          scanIncoming isUcca nid fuel
            (st.modifyEdge eid (fun ed => { ed with remote := false })) (i + 1) parentless
        else
          scanIncoming isUcca nid fuel st (i + 1) parentless
      else
        scanIncoming isUcca nid fuel st (i + 1) false
    else (st, parentless)

/-- One step of the per-node loop of `preprocess` (dep.py lines 527-542):
scan the incoming edges, then, in tree mode, give a parentless node a single
ORPHAN edge pointing at the first root (or designate it the root with the
ROOT relation and head index -1 when no root exists).  The new edge is
created by the `Edge` constructor and stored by direct assignment to
`incoming`, bypassing the `dependent` setter, exactly as the Python code
does. -/
def preprocessNode (tree isUcca : Bool) (acc : DepState × List Nat) (nid : Nat) :
    DepState × List Nat :=
  let st := acc.1
  let roots := acc.2
  let scanned := scanIncoming isUcca nid ((st.getNode nid).incoming.length + 1) st 0 true
  let st1 := scanned.1
  let parentless := scanned.2
  if parentless && tree then
    match roots with
    | r :: _ =>
        let eid := st1.edges.length
        let st2 : DepState := { st1 with edges := st1.edges ++
          [{ headIndex := ((st1.getNode r).position : Int) - 1, rel := orphanRel,
             remote := false, head := none, dependent := none }] }
        (st2.modifyNode nid (fun n => { n with incoming := [eid] }), roots)
    | [] =>
        let eid := st1.edges.length
        let st2 : DepState := { st1 with edges := st1.edges ++
          [{ headIndex := -1, rel := rootRel, remote := false,
             head := none, dependent := none }] }
        (st2.modifyNode nid (fun n => { n with incoming := [eid] }), [nid])
  else (st1, roots)

/-- Mirror of `preprocess` (dep.py lines 521-543): compute the roots, demote
all but the first in strict-tree mode when converting to the dependency
format, then run the per-node scan / orphan-attachment loop.  The pair also
returns the final value of the `roots` variable (its first element is the
designated root). -/
def preprocessPair (st : DepState) (nodeIds : List Nat) (toDep tree isUcca : Bool) :
    DepState × List Nat :=
  let roots := rootsOf st nodeIds
  let pair : DepState × List Nat :=
    match roots with
    | r :: rest =>
        if toDep && tree && !rest.isEmpty then (demoteExtraRoots st rest, [r])
        else (st, roots)
    | [] => (st, roots)
  nodeIds.foldl (preprocessNode tree isUcca) pair

/-- The preprocessed state (dep.py lines 521-543). -/
def preprocess (st : DepState) (nodeIds : List Nat) (toDep tree isUcca : Bool) : DepState :=
  (preprocessPair st nodeIds toDep tree isUcca).1

/-! ### Claims C1 and C10 -/

/-- A small consistent state used by the witnesses: a virtual root and one
terminal node whose single incoming edge is still unlinked. -/
def exSetterSt : DepState :=
  { nodes := [{ position := 0 }, { position := 1, incoming := [0], terminalPos := 1 }],
    edges := [{ headIndex := -1, rel := "x", remote := false,
                head := none, dependent := some 1 }] }

/-- A one-node state (a single parentless terminal) on which `preprocess`
in strict-tree mode creates an edge by direct list assignment. -/
def c1State : DepState :=
  { nodes := [{ position := 1, terminalPos := 1 }], edges := [] }

lemma c1State_consistent : Consistent c1State := by decide

lemma c1State_preprocess_inconsistent :
    ¬ Consistent (preprocess c1State [0] true true false) := by decide

/-- C1 (amended): construction and every operation that goes through the
`Edge.head` / `Edge.dependent` property setters — direct head or dependent
assignment, `link_head`, `remove`, `top_edge` creation, and the punctuation
reparenting — preserves the adjacency-list consistency invariant.  (The
claim as stated is false: `preprocess` assigns `incoming` lists directly,
bypassing the setters; see `C1_preprocess_breaks_adjacency`.) -/
theorem C1_adjacency_consistency (st : DepState) (eid0 : Nat) :
    Consistent st → eid0 < st.edges.length →
      (∀ nh, Consistent (setHead st eid0 nh)) ∧
      (∀ nd, Consistent (setDependent st eid0 nd)) ∧
      Consistent (removeEdge st eid0) ∧
      (∀ heads st2, linkHead st eid0 heads = some st2 → Consistent st2) ∧
      (∀ rootNid depNid, Consistent (topEdge st rootNid depNid).1) ∧
      (∀ rootNid nid, Consistent (flipPunct st rootNid nid)) := by
  intro hC he
  refine ⟨fun nh => consistent_setHead st eid0 nh hC he,
          fun nd => consistent_setDependent st eid0 nd hC he,
          consistent_removeEdge st eid0 hC he,
          fun heads st2 hL => consistent_linkHead st eid0 heads st2 hC he hL,
          fun rootNid depNid => consistent_topEdge st rootNid depNid hC,
          fun rootNid nid => consistent_flipPunct st rootNid nid hC⟩

/-- C1 witness: the preserved invariant evaluated on a concrete state. -/
theorem C1_adjacency_consistency_witness :
    Consistent (removeEdge exSetterSt 0) :=
  (C1_adjacency_consistency exSetterSt 0 (by decide) (by decide)).2.2.1

/-- C1 counterexample: `preprocess` in strict-tree mode breaks the
adjacency invariant on a consistent input — the designated root receives a
ROOT edge stored in its `incoming` list whose `dependent` reference is
`None`, because the code assigns the list directly instead of using the
setter. -/
theorem C1_preprocess_breaks_adjacency :
    Consistent c1State ∧ ¬ Consistent (preprocess c1State [0] true true false) := by
  exact ⟨by decide, by decide⟩

/-- C10: whenever a node is assigned as an edge head through the `head`
setter (initial linking, reparenting, synthetic TOP edges), `head_index` is
simultaneously set to `head.position - 1`; the invariant is preserved by
all the operations, and an edge whose head is the virtual root (position 0)
has `head_index = -1` regardless of the index it was constructed with. -/
theorem C10_head_index_tracks_position (st : DepState) :
    HeadIndexOk st →
      (∀ eid0 h0, eid0 < st.edges.length →
        ((setHead st eid0 (some h0)).getEdge eid0).headIndex =
          ((st.getNode h0).position : Int) - 1) ∧
      (∀ eid0 nh, HeadIndexOk (setHead st eid0 nh)) ∧
      (∀ eid0 nd, HeadIndexOk (setDependent st eid0 nd)) ∧
      (∀ eid0, HeadIndexOk (removeEdge st eid0)) ∧
      (∀ eid0 heads st2, linkHead st eid0 heads = some st2 → HeadIndexOk st2) ∧
      (∀ rootNid depNid, HeadIndexOk (topEdge st rootNid depNid).1) ∧
      (∀ rootNid nid, HeadIndexOk (flipPunct st rootNid nid)) ∧
      (∀ eid h, eid < st.edges.length → (st.getEdge eid).head = some h →
        (st.getNode h).position = 0 → (st.getEdge eid).headIndex = -1) := by
  intro hOk
  refine ⟨?_, fun eid0 nh => headIndexOk_setHead st eid0 nh hOk,
          fun eid0 nd => headIndexOk_setDependent st eid0 nd hOk,
          fun eid0 => headIndexOk_removeEdge st eid0 hOk,
          fun eid0 heads st2 hL => headIndexOk_linkHead st eid0 heads st2 hOk hL,
          fun rootNid depNid => headIndexOk_topEdge st rootNid depNid hOk,
          fun rootNid nid => headIndexOk_flipPunct st rootNid nid hOk,
          ?_⟩
  · intro eid0 h0 he
    rw [headIndex_setHead_some, if_pos (And.intro rfl he)]
  · intro eid h he hh hpos
    have := hOk eid he h hh
    rw [hpos] at this
    rw [this]
    rfl

/-- C10 witness: assigning the virtual root as head of a concrete edge
constructed with `head_index = -1` and checking the tracked index. -/
theorem C10_head_index_witness :
    ((setHead exSetterSt 0 (some 0)).getEdge 0).headIndex =
      ((exSetterSt.getNode 0).position : Int) - 1 ∧
    HeadIndexOk (removeEdge exSetterSt 0) :=
  ⟨(C10_head_index_tracks_position exSetterSt (by decide)).1 0 0 (by decide),
   (C10_head_index_tracks_position exSetterSt (by decide)).2.2.2.1 0⟩

/-! ### Preprocess invariants (claim C5) -/

/-- A node carrying the (lowercase) ROOT relation on some incoming edge. -/
def RootBearing (st : DepState) (n : Nat) : Prop :=
  ∃ eid ∈ (st.getNode n).incoming, (st.getEdge eid).rel = rootRel

instance (st : DepState) (n : Nat) : Decidable (RootBearing st n) := by
  unfold RootBearing; infer_instance

lemma erase_get_eq_take_drop {l : List Nat} {i : Nat} (hN : l.Nodup) (hi : i < l.length) :
    l.erase (l.get ⟨i, hi⟩) = l.take i ++ l.drop (i + 1) := by
  set a := l.get ⟨i, hi⟩ with ha
  have hdrop : l.drop i = a :: l.drop (i + 1) := by
    rw [List.drop_eq_getElem_cons hi, ha, List.get_eq_getElem]
  have hdecomp : l = l.take i ++ a :: l.drop (i + 1) := by
    conv_lhs => rw [← List.take_append_drop i l]
    rw [hdrop]
  have hnotin : a ∉ l.take i := by
    intro hmem
    have h2 : ¬ (l.take i).Disjoint (a :: l.drop (i + 1)) := by
      intro hd
      exact hd hmem (List.mem_cons_self a _)
    rw [hdecomp] at hN
    exact h2 (List.nodup_append.mp hN).2.2
  conv_lhs => rw [hdecomp]
  rw [List.erase_append, if_neg hnotin, List.erase_cons_head]

lemma incoming_removeEdge (st : DepState) (eid : Nat) (nid : Nat) :
    ((removeEdge st eid).getNode nid).incoming =
      if (st.getEdge eid).dependent = some nid then ((st.getNode nid).incoming).erase eid
      else (st.getNode nid).incoming := by
  unfold removeEdge
  rw [incoming_setDependent]
  unfold sdInc sdBase
  rw [dependent_setHead, incoming_setHead]
  simp

lemma outgoing_removeEdge (st : DepState) (eid : Nat) (nid : Nat) :
    ((removeEdge st eid).getNode nid).outgoing = shOut st eid none nid := by
  unfold removeEdge
  rw [outgoing_setDependent, outgoing_setHead]

@[simp] lemma position_removeEdge (st : DepState) (eid : Nat) (nid : Nat) :
    ((removeEdge st eid).getNode nid).position = (st.getNode nid).position := by
  unfold removeEdge
  rw [position_setDependent, position_setHead]

@[simp] lemma edgesLength_removeEdge (st : DepState) (eid : Nat) :
    (removeEdge st eid).edges.length = st.edges.length := by
  unfold removeEdge
  rw [edgesLength_setDependent, edgesLength_setHead]

@[simp] lemma nodesLength_removeEdge (st : DepState) (eid : Nat) :
    (removeEdge st eid).nodes.length = st.nodes.length := by
  unfold removeEdge
  rw [nodesLength_setDependent, nodesLength_setHead]

@[simp] lemma rel_removeEdge (st : DepState) (eid e2 : Nat) :
    ((removeEdge st eid).getEdge e2).rel = (st.getEdge e2).rel := by
  unfold removeEdge
  rw [rel_setDependent, rel_setHead]

@[simp] lemma remote_removeEdge (st : DepState) (eid e2 : Nat) :
    ((removeEdge st eid).getEdge e2).remote = (st.getEdge e2).remote := by
  unfold removeEdge
  rw [remote_setDependent, remote_setHead]

lemma dependent_removeEdge (st : DepState) (eid e2 : Nat) :
    ((removeEdge st eid).getEdge e2).dependent =
      if eid = e2 ∧ e2 < st.edges.length then none else (st.getEdge e2).dependent := by
  unfold removeEdge
  rw [dependent_setDependent, dependent_setHead, edgesLength_setHead]

lemma getEdge_removeEdge_ne (st : DepState) (eid e2 : Nat) (hne : eid ≠ e2) :
    (removeEdge st eid).getEdge e2 = st.getEdge e2 := by
  unfold removeEdge
  rw [setDependent_getEdge]
  rw [if_neg (fun h => hne h.1)]
  rw [setHead_getEdge_none]
  rw [if_neg (fun h => hne h.1)]

/-- The scan of `preprocess` only mutates the state by removing an edge of
the scanned node's current incoming list or by clearing the remote flag of
such an edge; hence any predicate preserved by those two mutations holds of
the scan result. -/
lemma scanIncoming_pres (isUcca : Bool) (m : Nat) (Q : DepState → Prop)
    (hRem : ∀ s eid, Q s → eid ∈ (s.getNode m).incoming → Q (removeEdge s eid))
    (hDem : ∀ s eid, Q s → eid ∈ (s.getNode m).incoming →
      Q (s.modifyEdge eid (fun ed => { ed with remote := false }))) :
    ∀ fuel s i p, Q s → Q (scanIncoming isUcca m fuel s i p).1 := by
  intro fuel
  induction fuel with
  | zero => intro s i p hQ; exact hQ
  | succ f ih =>
      intro s i p hQ
      rw [scanIncoming]
      split
      case isTrue hlt =>
        have hmem : (s.getNode m).incoming.get ⟨i, hlt⟩ ∈ (s.getNode m).incoming :=
          List.get_mem _ i hlt
        dsimp only
        split_ifs with h1 h2 h3
        · exact ih _ _ _ (hRem s _ hQ hmem)
        · exact ih _ _ _ (hDem s _ hQ hmem)
        · exact ih _ _ _ hQ
        · exact ih _ _ _ hQ
      case isFalse hlt => exact hQ

lemma mem_drop_of_mem_drop_succ {α : Type _} {l : List α} {i : Nat} {x : α}
    (h : x ∈ l.drop (i + 1)) : x ∈ l.drop i := by
  have h2 : (l.drop i).drop 1 = l.drop (i + 1) := by rw [List.drop_drop]
  rw [← h2] at h
  exact List.drop_subset _ _ h

lemma get_not_mem_drop_succ {l : List Nat} (hN : l.Nodup) {i : Nat} (hi : i < l.length) :
    l.get ⟨i, hi⟩ ∉ l.drop (i + 1) := by
  have hd : l.drop i = l.get ⟨i, hi⟩ :: l.drop (i + 1) := by
    rw [List.drop_eq_getElem_cons hi, List.get_eq_getElem]
  have hnd : (l.drop i).Nodup := hN.sublist (List.drop_sublist i l)
  rw [hd] at hnd
  exact (List.nodup_cons.mp hnd).1

lemma drop_erase_get {l : List Nat} (hN : l.Nodup) {i : Nat} (hi : i < l.length) :
    (l.erase (l.get ⟨i, hi⟩)).drop (i + 1) = l.drop (i + 2) := by
  rw [erase_get_eq_take_drop hN hi]
  have hlen : (l.take i).length = i := by
    rw [List.length_take]
    omega
  have h1 : (l.take i ++ l.drop (i + 1)).drop (i + 1) =
      ((l.take i ++ l.drop (i + 1)).drop i).drop 1 := by
    rw [List.drop_drop]
  rw [h1]
  have h2 : (l.take i ++ l.drop (i + 1)).drop i = l.drop (i + 1) := by
    have h3 := List.drop_left (l.take i) (l.drop (i + 1))
    rwa [hlen] at h3
  rw [h2, List.drop_drop]

@[simp] lemma dependent_modifyRemote (s : DepState) (eid e2 : Nat) (b : Bool) :
    ((s.modifyEdge eid (fun ed => { ed with remote := b })).getEdge e2).dependent =
      (s.getEdge e2).dependent := by
  rw [getEdge_modifyEdge]; split_ifs <;> rfl

@[simp] lemma head_modifyRemote (s : DepState) (eid e2 : Nat) (b : Bool) :
    ((s.modifyEdge eid (fun ed => { ed with remote := b })).getEdge e2).head =
      (s.getEdge e2).head := by
  rw [getEdge_modifyEdge]; split_ifs <;> rfl

@[simp] lemma rel_modifyRemote (s : DepState) (eid e2 : Nat) (b : Bool) :
    ((s.modifyEdge eid (fun ed => { ed with remote := b })).getEdge e2).rel =
      (s.getEdge e2).rel := by
  rw [getEdge_modifyEdge]; split_ifs <;> rfl

lemma remote_modifyRemote_ne (s : DepState) (eid e2 : Nat) (b : Bool) (hne : eid ≠ e2) :
    ((s.modifyEdge eid (fun ed => { ed with remote := b })).getEdge e2).remote =
      (s.getEdge e2).remote := by
  rw [getEdge_modifyEdge, if_neg (fun h => hne h.1)]

/-- If every not-yet-visited incoming edge of the scanned node is remote,
the scan never clears the parentless flag: the node counts as parentless. -/
lemma scanIncoming_keeps_parentless (isUcca : Bool) (m : Nat) :
    ∀ fuel s i p,
      (s.getNode m).incoming.Nodup →
      (∀ eid ∈ (s.getNode m).incoming, (s.getEdge eid).dependent = some m) →
      (∀ eid ∈ (s.getNode m).incoming.drop i, (s.getEdge eid).remote = true) →
      (scanIncoming isUcca m fuel s i p).2 = p := by
  intro fuel
  induction fuel with
  | zero => intro s i p _ _ _; rfl
  | succ f ih =>
      intro s i p hNd hDep hRem
      rw [scanIncoming]
      split
      case isFalse hlt => rfl
      case isTrue hlt =>
        dsimp only
        have hmem : (s.getNode m).incoming.get ⟨i, hlt⟩ ∈ (s.getNode m).incoming :=
          List.get_mem _ i hlt
        have hmemdrop : (s.getNode m).incoming.get ⟨i, hlt⟩ ∈ (s.getNode m).incoming.drop i := by
          rw [List.drop_eq_getElem_cons hlt, List.get_eq_getElem]
          exact List.mem_cons_self _ _
        have hrem : (s.getEdge ((s.getNode m).incoming.get ⟨i, hlt⟩)).remote = true :=
          hRem _ hmemdrop
        rw [if_pos hrem]
        split_ifs with h2 h3
        · -- remote flat edge: removed through the setters
          apply ih
          · rw [incoming_removeEdge, if_pos (hDep _ hmem)]
            exact hNd.erase _
          · intro e2 hm2
            rw [incoming_removeEdge, if_pos (hDep _ hmem)] at hm2
            have hne : e2 ≠ (s.getNode m).incoming.get ⟨i, hlt⟩ :=
              ((List.Nodup.mem_erase_iff hNd).mp hm2).1
            have he2 : e2 ∈ (s.getNode m).incoming :=
              ((List.Nodup.mem_erase_iff hNd).mp hm2).2
            rw [getEdge_removeEdge_ne s _ e2 (Ne.symm hne)]
            exact hDep e2 he2
          · intro e2 hm2
            rw [incoming_removeEdge, if_pos (hDep _ hmem), drop_erase_get hNd hlt] at hm2
            rw [remote_removeEdge]
            exact hRem e2 (mem_drop_of_mem_drop_succ (by
              have h4 : (s.getNode m).incoming.drop (i + 2) =
                  ((s.getNode m).incoming.drop (i + 1)).drop 1 := by rw [List.drop_drop]
              rw [h4] at hm2
              exact List.drop_subset _ _ hm2))
        · -- remote non-flat edge outside UCCA: remote flag cleared
          apply ih
          · show ((s.modifyEdge _ _).getNode m).incoming.Nodup
            rw [getNode_modifyEdge]
            exact hNd
          · intro e2 hm2
            rw [getNode_modifyEdge] at hm2
            rw [dependent_modifyRemote]
            exact hDep e2 hm2
          · intro e2 hm2
            rw [getNode_modifyEdge] at hm2
            have hne : (s.getNode m).incoming.get ⟨i, hlt⟩ ≠ e2 := by
              intro hcontra
              apply get_not_mem_drop_succ hNd hlt
              rw [hcontra]
              exact hm2
            rw [remote_modifyRemote_ne s _ e2 false hne]
            exact hRem e2 (mem_drop_of_mem_drop_succ hm2)
        · -- remote edge kept
          apply ih _ _ _ hNd hDep
          intro e2 hm2
          exact hRem e2 (mem_drop_of_mem_drop_succ hm2)

@[simp] lemma headIndex_modifyRemote (s : DepState) (eid e2 : Nat) (b : Bool) :
    ((s.modifyEdge eid (fun ed => { ed with remote := b })).getEdge e2).headIndex =
      (s.getEdge e2).headIndex := by
  rw [getEdge_modifyEdge]; split_ifs <;> rfl

lemma mem_rootsOf (st : DepState) (nodeIds : List Nat) (k : Nat) :
    k ∈ rootsOf st nodeIds ↔ k ∈ nodeIds ∧ RootBearing st k := by
  unfold rootsOf RootBearing
  rw [List.mem_filter]
  constructor
  · rintro ⟨h1, h2⟩
    refine ⟨h1, ?_⟩
    obtain ⟨eid, hmem, heq⟩ := List.any_eq_true.mp h2
    exact ⟨eid, hmem, by rwa [beq_iff_eq] at heq⟩
  · rintro ⟨h1, eid, hmem, heq⟩
    exact ⟨h1, List.any_eq_true.mpr ⟨eid, hmem, by rwa [beq_iff_eq]⟩⟩

lemma demoteExtraRoots_nil (st : DepState) : demoteExtraRoots st [] = st := rfl

lemma demoteExtraRoots_cons (st : DepState) (r : Nat) (t : List Nat) :
    demoteExtraRoots st (r :: t) =
      demoteExtraRoots (st.modifyNode r (fun n =>
        { n with incoming := n.incoming.filter (fun eid =>
            !((st.getEdge eid).rel == rootRel) &&
            decide (0 ≤ (st.getEdge eid).headIndex)) })) t := by
  unfold demoteExtraRoots
  rw [List.foldl_cons]

/-- The demotion loop only shrinks `incoming` lists; it changes no edge. -/
lemma demoteExtraRoots_getEdge (st : DepState) (extras : List Nat) (eid : Nat) :
    (demoteExtraRoots st extras).getEdge eid = st.getEdge eid := by
  induction extras generalizing st with
  | nil => rfl
  | cons r t ih =>
      rw [demoteExtraRoots_cons, ih]
      rfl

lemma demoteExtraRoots_edgesLength (st : DepState) (extras : List Nat) :
    (demoteExtraRoots st extras).edges.length = st.edges.length := by
  induction extras generalizing st with
  | nil => rfl
  | cons r t ih =>
      rw [demoteExtraRoots_cons, ih]
      rfl

lemma demoteExtraRoots_nodesLength (st : DepState) (extras : List Nat) :
    (demoteExtraRoots st extras).nodes.length = st.nodes.length := by
  induction extras generalizing st with
  | nil => rfl
  | cons r t ih =>
      rw [demoteExtraRoots_cons, ih]
      simp

lemma demoteExtraRoots_getNode_notMem (st : DepState) (extras : List Nat) (k : Nat)
    (hk : k ∉ extras) :
    (demoteExtraRoots st extras).getNode k = st.getNode k := by
  induction extras generalizing st with
  | nil => rfl
  | cons r t ih =>
      rw [demoteExtraRoots_cons]
      rw [ih _ (fun h => hk (List.mem_cons_of_mem r h))]
      rw [getNode_modifyNode]
      rw [if_neg ?_]
      rintro ⟨rfl, -⟩
      exact hk (List.mem_cons_self r t)

lemma demoteExtraRoots_incoming_subset (st : DepState) (extras : List Nat) (k : Nat) :
    ∀ eid ∈ ((demoteExtraRoots st extras).getNode k).incoming,
      eid ∈ (st.getNode k).incoming := by
  induction extras generalizing st with
  | nil => exact fun eid h => h
  | cons r t ih =>
      intro eid hmem
      rw [demoteExtraRoots_cons] at hmem
      have h2 := ih _ eid hmem
      rw [getNode_modifyNode] at h2
      split_ifs at h2 with hc
      · obtain ⟨rfl, -⟩ := hc
        exact List.mem_of_mem_filter h2
      · exact h2

lemma demoteExtraRoots_not_rootBearing (st : DepState) (extras : List Nat)
    (hNd : extras.Nodup) :
    ∀ k ∈ extras, ¬ RootBearing (demoteExtraRoots st extras) k := by
  induction extras generalizing st with
  | nil => intro k hk; cases hk
  | cons r t ih =>
      intro k hk
      rcases List.mem_cons.mp hk with rfl | hkt
      · rintro ⟨eid, hmem, hrel⟩
        rw [demoteExtraRoots_getEdge] at hrel
        rw [demoteExtraRoots_cons] at hmem
        have h2 := demoteExtraRoots_incoming_subset _ t k eid hmem
        rw [getNode_modifyNode] at h2
        split_ifs at h2 with hc
        · have h3 := List.of_mem_filter h2
          rw [Bool.and_eq_true] at h3
          have h4 : ((st.getEdge eid).rel == rootRel) = false := by
            have h5 := h3.1
            rwa [Bool.not_eq_eq_eq_not, Bool.not_true] at h5
          rw [beq_eq_false_iff_ne] at h4
          exact h4 hrel
        · have hlen : ¬ k < st.nodes.length := fun hlt => hc ⟨rfl, hlt⟩
          rw [getNode_eq_default _ (Nat.le_of_not_lt hlen)] at h2
          exact List.not_mem_nil eid h2
      · rw [demoteExtraRoots_cons]
        exact ih _ (List.nodup_cons.mp hNd).2 k hkt

/-- Well-formed incoming ids over a node set: every stored edge id is live. -/
def WOk (nodeIds : List Nat) (st : DepState) : Prop :=
  ∀ m ∈ nodeIds, ∀ eid ∈ (st.getNode m).incoming, eid < st.edges.length

/-- At most one root, tracked against the running `roots` variable of
`preprocess`: with no designated root no node bears ROOT, and with a
designated first root it is the only possible bearer. -/
def AOk (nodeIds : List Nat) (st : DepState) (roots : List Nat) : Prop :=
  (roots = [] → ∀ k ∈ nodeIds, ¬ RootBearing st k) ∧
  (∀ r rest, roots = r :: rest → ∀ k ∈ nodeIds, RootBearing st k → k = r)

lemma rootBearing_removeEdge (s : DepState) (eid k : Nat)
    (h : RootBearing (removeEdge s eid) k) : RootBearing s k := by
  obtain ⟨e2, hmem, hrel⟩ := h
  rw [incoming_removeEdge] at hmem
  rw [rel_removeEdge] at hrel
  refine ⟨e2, ?_, hrel⟩
  split_ifs at hmem
  · exact (List.erase_sublist _ _).subset hmem
  · exact hmem

lemma rootBearing_modifyRemote (s : DepState) (eid k : Nat) (b : Bool)
    (h : RootBearing (s.modifyEdge eid (fun ed => { ed with remote := b })) k) :
    RootBearing s k := by
  obtain ⟨e2, hmem, hrel⟩ := h
  rw [getNode_modifyEdge] at hmem
  rw [rel_modifyRemote] at hrel
  exact ⟨e2, hmem, hrel⟩

lemma wOk_scan (nodeIds : List Nat) (isUcca : Bool) (m : Nat) (st : DepState)
    (roots : List Nat) (hW : WOk nodeIds st) (hA : AOk nodeIds st roots) :
    ∀ fuel i p,
      WOk nodeIds (scanIncoming isUcca m fuel st i p).1 ∧
      AOk nodeIds (scanIncoming isUcca m fuel st i p).1 roots := by
  intro fuel i p
  have := scanIncoming_pres isUcca m
    (fun s => WOk nodeIds s ∧ AOk nodeIds s roots) ?_ ?_ fuel st i p ⟨hW, hA⟩
  · exact this
  · rintro s eid ⟨hW2, hA2⟩ hmem
    constructor
    · intro k hk e2 hmem2
      rw [incoming_removeEdge] at hmem2
      rw [edgesLength_removeEdge]
      split_ifs at hmem2
      · exact hW2 k hk e2 ((List.erase_sublist _ _).subset hmem2)
      · exact hW2 k hk e2 hmem2
    · exact ⟨fun hr k hk hRB => hA2.1 hr k hk (rootBearing_removeEdge s eid k hRB),
        fun r rest hr k hk hRB => hA2.2 r rest hr k hk (rootBearing_removeEdge s eid k hRB)⟩
  · rintro s eid ⟨hW2, hA2⟩ hmem
    constructor
    · intro k hk e2 hmem2
      rw [getNode_modifyEdge] at hmem2
      rw [edgesLength_modifyEdge]
      exact hW2 k hk e2 hmem2
    · exact ⟨fun hr k hk hRB => hA2.1 hr k hk (rootBearing_modifyRemote s eid k false hRB),
        fun r rest hr k hk hRB => hA2.2 r rest hr k hk (rootBearing_modifyRemote s eid k false hRB)⟩

/-- The orphan / designated-root attachment step: resulting node lists and
edges, seen through `getNode` / `getEdge`. -/
lemma attach_getNode (st1 : DepState) (e : DepEdge) (m k : Nat) :
    ((({ st1 with edges := st1.edges ++ [e] } : DepState).modifyNode m
        (fun n => { n with incoming := [st1.edges.length] })).getNode k) =
      if m = k ∧ k < st1.nodes.length then
        { st1.getNode k with incoming := [st1.edges.length] }
      else st1.getNode k := by
  rw [getNode_modifyNode]
  rfl

lemma attach_getEdge_lt (st1 : DepState) (e : DepEdge) (m eid : Nat)
    (h : eid < st1.edges.length) :
    ((({ st1 with edges := st1.edges ++ [e] } : DepState).modifyNode m
        (fun n => { n with incoming := [st1.edges.length] })).getEdge eid) =
      st1.getEdge eid := by
  rw [getEdge_modifyNode]
  exact getEdge_appendEdges st1 [e] eid h

lemma attach_getEdge_last (st1 : DepState) (e : DepEdge) (m : Nat) :
    ((({ st1 with edges := st1.edges ++ [e] } : DepState).modifyNode m
        (fun n => { n with incoming := [st1.edges.length] })).getEdge st1.edges.length) = e := by
  rw [getEdge_modifyNode]
  exact getEdge_appendEdges_last st1 e

lemma attach_wOk (nodeIds : List Nat) (st1 : DepState) (e : DepEdge) (m : Nat)
    (hW : WOk nodeIds st1) :
    WOk nodeIds (({ st1 with edges := st1.edges ++ [e] } : DepState).modifyNode m
        (fun n => { n with incoming := [st1.edges.length] })) := by
  intro k hk e2 hmem2
  rw [attach_getNode] at hmem2
  have hlen : (({ st1 with edges := st1.edges ++ [e] } : DepState).modifyNode m
      (fun n => { n with incoming := [st1.edges.length] })).edges.length =
        st1.edges.length + 1 := by
    simp [DepState.modifyNode]
  rw [hlen]
  split_ifs at hmem2
  · rw [List.mem_singleton] at hmem2
    omega
  · exact Nat.lt_succ_of_lt (hW k hk e2 hmem2)

lemma attach_rootBearing (nodeIds : List Nat) (st1 : DepState) (e : DepEdge) (m k : Nat)
    (hW : WOk nodeIds st1) (hk : k ∈ nodeIds) (hkm : ¬ (m = k ∧ k < st1.nodes.length))
    (hRB : RootBearing (({ st1 with edges := st1.edges ++ [e] } : DepState).modifyNode m
        (fun n => { n with incoming := [st1.edges.length] })) k) :
    RootBearing st1 k := by
  obtain ⟨e2, hmem, hrel⟩ := hRB
  rw [attach_getNode, if_neg hkm] at hmem
  rw [attach_getEdge_lt st1 e m e2 (hW k hk e2 hmem)] at hrel
  exact ⟨e2, hmem, hrel⟩

lemma preprocessNode_step_AOk (nodeIds : List Nat) (isUcca : Bool) (st : DepState)
    (roots : List Nat) (m : Nat) (hW : WOk nodeIds st) (hA : AOk nodeIds st roots) :
    WOk nodeIds (preprocessNode true isUcca (st, roots) m).1 ∧
    AOk nodeIds (preprocessNode true isUcca (st, roots) m).1
      (preprocessNode true isUcca (st, roots) m).2 := by
  obtain ⟨hW1, hA1⟩ := wOk_scan nodeIds isUcca m st roots hW hA
    ((st.getNode m).incoming.length + 1) 0 true
  unfold preprocessNode
  dsimp only
  split_ifs with hpl
  · cases hroots : roots with
    | cons r rest =>
      dsimp only
      constructor
      · exact attach_wOk nodeIds _ _ m hW1
      · rw [hroots] at hA1
        constructor
        · intro hcontra; cases hcontra
        · intro r0 rest0 heq k hk hRB
          injection heq with h1 h2
          subst h1
          by_cases hkm : m = k ∧
              k < (scanIncoming isUcca m ((st.getNode m).incoming.length + 1) st 0 true).1.nodes.length
          · -- the reattached node carries only the fresh ORPHAN edge
            exfalso
            obtain ⟨e2, hmem, hrel⟩ := hRB
            rw [attach_getNode, if_pos hkm, List.mem_singleton] at hmem
            subst hmem
            rw [attach_getEdge_last] at hrel
            exact absurd hrel (by unfold orphanRel rootRel; simp)
          · exact hA1.2 r rest rfl k hk (attach_rootBearing nodeIds _ _ m k hW1 hk hkm hRB)
    | nil =>
      dsimp only
      constructor
      · exact attach_wOk nodeIds _ _ m hW1
      · rw [hroots] at hA1
        constructor
        · intro hcontra; cases hcontra
        · intro r0 rest0 heq k hk hRB
          injection heq with h1 h2
          subst h1
          by_cases hkm : m = k ∧
              k < (scanIncoming isUcca m ((st.getNode m).incoming.length + 1) st 0 true).1.nodes.length
          · exact hkm.1.symm
          · exact absurd (attach_rootBearing nodeIds _ _ m k hW1 hk hkm hRB)
              (hA1.1 rfl k hk)
  · exact ⟨hW1, hA1⟩

lemma preprocess_fold_AOk (nodeIds : List Nat) (isUcca : Bool) :
    ∀ (rem : List Nat) (st : DepState) (roots : List Nat),
      WOk nodeIds st → AOk nodeIds st roots →
      WOk nodeIds (rem.foldl (preprocessNode true isUcca) (st, roots)).1 ∧
      AOk nodeIds (rem.foldl (preprocessNode true isUcca) (st, roots)).1
        (rem.foldl (preprocessNode true isUcca) (st, roots)).2 := by
  intro rem
  induction rem with
  | nil => intro st roots hW hA; exact ⟨hW, hA⟩
  | cons m t ih =>
      intro st roots hW hA
      rw [List.foldl_cons]
      obtain ⟨hW2, hA2⟩ := preprocessNode_step_AOk nodeIds isUcca st roots m hW hA
      have := ih (preprocessNode true isUcca (st, roots) m).1
        (preprocessNode true isUcca (st, roots) m).2 hW2 hA2
      exact this

lemma consistent_wOk (st : DepState) (nodeIds : List Nat)
    (hC : Consistent st) (hV : ∀ n ∈ nodeIds, n < st.nodes.length) :
    WOk nodeIds st := by
  intro m hm eid hmem
  exact (hC.1 m (hV m hm)).2.2.2 eid hmem

lemma preprocessPair_AOk (st : DepState) (nodeIds : List Nat) (isUcca : Bool)
    (hC : Consistent st) (hNd : nodeIds.Nodup)
    (hV : ∀ n ∈ nodeIds, n < st.nodes.length) :
    WOk nodeIds (preprocessPair st nodeIds true true isUcca).1 ∧
    AOk nodeIds (preprocessPair st nodeIds true true isUcca).1
      (preprocessPair st nodeIds true true isUcca).2 := by
  have hW0 : WOk nodeIds st := consistent_wOk st nodeIds hC hV
  have hRootsNd : (rootsOf st nodeIds).Nodup := hNd.filter _
  unfold preprocessPair
  cases hroots : rootsOf st nodeIds with
  | nil =>
      dsimp only
      apply preprocess_fold_AOk
      · exact hW0
      · constructor
        · intro hr k hk hRB
          have : k ∈ rootsOf st nodeIds := (mem_rootsOf st nodeIds k).mpr ⟨hk, hRB⟩
          rw [hroots] at this
          cases this
        · intro r rest hr; cases hr
  | cons r rest =>
      cases rest with
      | nil =>
          dsimp only
          rw [if_neg (by simp)]
          apply preprocess_fold_AOk
          · exact hW0
          · constructor
            · intro hr; cases hr
            · intro r0 rest0 heq k hk hRB
              injection heq with h1 h2
              subst h1
              have : k ∈ rootsOf st nodeIds := (mem_rootsOf st nodeIds k).mpr ⟨hk, hRB⟩
              rw [hroots, List.mem_singleton] at this
              exact this
      | cons r2 rest2 =>
          dsimp only
          rw [if_pos (by simp)]
          have hRestNd : (r2 :: rest2).Nodup := by
            rw [hroots] at hRootsNd
            exact (List.nodup_cons.mp hRootsNd).2
          apply preprocess_fold_AOk
          · -- demotion only shrinks lists and keeps the edge array
            intro m hm eid hmem
            rw [demoteExtraRoots_edgesLength]
            exact hW0 m hm eid (demoteExtraRoots_incoming_subset st (r2 :: rest2) m eid hmem)
          · constructor
            · intro hr; cases hr
            · intro r0 rest0 heq k hk hRB
              injection heq with h1 h2
              subst h1
              by_cases hkrest : k ∈ r2 :: rest2
              · exact absurd hRB
                  (demoteExtraRoots_not_rootBearing st (r2 :: rest2) hRestNd k hkrest)
              · have hRBst : RootBearing st k := by
                  obtain ⟨eid, hmem, hrel⟩ := hRB
                  rw [demoteExtraRoots_getNode_notMem st _ k hkrest] at hmem
                  rw [demoteExtraRoots_getEdge] at hrel
                  exact ⟨eid, hmem, hrel⟩
                have : k ∈ rootsOf st nodeIds := (mem_rootsOf st nodeIds k).mpr ⟨hk, hRBst⟩
                rw [hroots] at this
                rcases List.mem_cons.mp this with h3 | h3
                · exact h3
                · exact absurd h3 hkrest

/-- Per-node scan invariant for the not-yet-processed nodes: duplicate-free
incoming lists of live edges whose `dependent` reference points back at the
owning node (this is the part of full consistency that the preprocess loop
actually maintains). -/
def KOk (st : DepState) (rem : List Nat) : Prop :=
  ∀ m ∈ rem, (st.getNode m).incoming.Nodup ∧
    ∀ eid ∈ (st.getNode m).incoming,
      eid < st.edges.length ∧ (st.getEdge eid).dependent = some m

/-- The tracked node has no primary (non-remote) incoming edge. -/
def PreN (st : DepState) (n : Nat) : Prop :=
  ∀ eid ∈ (st.getNode n).incoming, (st.getEdge eid).remote = true

/-- Final disposition of a previously parentless node `n` in tree mode:
a single fresh edge, not remote, never linked through the setters, which is
either an ORPHAN edge whose head index is the designated root position
minus one, or the ROOT edge with head index -1 on the designated root
itself. -/
def PostS (n r : Nat) (s : DepState) : Prop :=
  ∃ eid, eid < s.edges.length ∧ (s.getNode n).incoming = [eid] ∧
    (s.getEdge eid).dependent = none ∧ (s.getEdge eid).remote = false ∧
    (((s.getEdge eid).rel = orphanRel ∧
      (s.getEdge eid).headIndex = ((s.getNode r).position : Int) - 1) ∨
     ((s.getEdge eid).rel = rootRel ∧ (s.getEdge eid).headIndex = -1 ∧ n = r))

/-- `PostS` together with the designated-root bookkeeping of the running
`roots` list. -/
def PostN (n : Nat) (q : DepState × List Nat) : Prop :=
  ∃ r rest, q.2 = r :: rest ∧ PostS n r q.1

lemma demoteExtraRoots_incoming_sublist (st : DepState) (extras : List Nat) (k : Nat) :
    ((demoteExtraRoots st extras).getNode k).incoming.Sublist (st.getNode k).incoming := by
  induction extras generalizing st with
  | nil => exact List.Sublist.refl _
  | cons r t ih =>
      rw [demoteExtraRoots_cons]
      refine (ih _).trans ?_
      rw [getNode_modifyNode]
      split_ifs with hc
      · exact List.filter_sublist _
      · exact List.Sublist.refl _

lemma scan_nodesLength (isUcca : Bool) (m : Nat) (fuel : Nat) (st : DepState) (i : Nat)
    (p : Bool) :
    (scanIncoming isUcca m fuel st i p).1.nodes.length = st.nodes.length := by
  have := scanIncoming_pres isUcca m (fun s => s.nodes.length = st.nodes.length)
    ?_ ?_ fuel st i p rfl
  · exact this
  · intro s eid hs _
    rw [nodesLength_removeEdge]
    exact hs
  · intro s eid hs _
    rw [nodesLength_modifyEdge]
    exact hs

lemma attach_position (st1 : DepState) (e : DepEdge) (m k : Nat) :
    ((({ st1 with edges := st1.edges ++ [e] } : DepState).modifyNode m
        (fun n => { n with incoming := [st1.edges.length] })).getNode k).position =
      (st1.getNode k).position := by
  rw [attach_getNode]
  split_ifs <;> rfl

lemma attach_nodesLength (st1 : DepState) (e : DepEdge) (m : Nat) :
    (({ st1 with edges := st1.edges ++ [e] } : DepState).modifyNode m
        (fun n => { n with incoming := [st1.edges.length] })).nodes.length =
      st1.nodes.length := by
  rw [nodesLength_modifyNode]

lemma attach_edgesLength (st1 : DepState) (e : DepEdge) (m : Nat) :
    (({ st1 with edges := st1.edges ++ [e] } : DepState).modifyNode m
        (fun n => { n with incoming := [st1.edges.length] })).edges.length =
      st1.edges.length + 1 := by
  simp [DepState.modifyNode]

lemma kOk_removeEdge (s : DepState) (rem : List Nat) (m eid : Nat) (hm : m ∈ rem)
    (hs : KOk s rem) (hmem : eid ∈ (s.getNode m).incoming) : KOk (removeEdge s eid) rem := by
  have hdep : (s.getEdge eid).dependent = some m := ((hs m hm).2 eid hmem).2
  intro k hk
  obtain ⟨hNd, hMem⟩ := hs k hk
  constructor
  · rw [incoming_removeEdge]
    split_ifs
    · exact hNd.erase eid
    · exact hNd
  · intro e2 hmem2
    rw [incoming_removeEdge] at hmem2
    have he2 : e2 ∈ (s.getNode k).incoming ∧ e2 ≠ eid := by
      split_ifs at hmem2 with hcond
      · exact ⟨((List.Nodup.mem_erase_iff hNd).mp hmem2).2,
          ((List.Nodup.mem_erase_iff hNd).mp hmem2).1⟩
      · refine ⟨hmem2, ?_⟩
        intro hcontra
        subst hcontra
        exact hcond (((hs k hk).2 e2 hmem2).2)
    rw [edgesLength_removeEdge, getEdge_removeEdge_ne s eid e2 (Ne.symm he2.2)]
    exact hMem e2 he2.1

lemma kOk_modifyRemote (s : DepState) (rem : List Nat) (eid : Nat) (b : Bool)
    (hs : KOk s rem) :
    KOk (s.modifyEdge eid (fun ed => { ed with remote := b })) rem := by
  intro k hk
  obtain ⟨hNd, hMem⟩ := hs k hk
  refine ⟨by rw [getNode_modifyEdge]; exact hNd, ?_⟩
  intro e2 hmem2
  rw [getNode_modifyEdge] at hmem2
  rw [edgesLength_modifyEdge, dependent_modifyRemote]
  exact hMem e2 hmem2

/-- Scan preservation of `KOk` for the whole remaining node set. -/
lemma scan_KOk (isUcca : Bool) (m : Nat) (rem : List Nat) (hm : m ∈ rem)
    (fuel : Nat) (st : DepState) (i : Nat) (p : Bool) (hK : KOk st rem) :
    KOk (scanIncoming isUcca m fuel st i p).1 rem := by
  have := scanIncoming_pres isUcca m (fun s => KOk s rem) ?_ ?_ fuel st i p hK
  · exact this
  · intro s eid hs hmem
    exact kOk_removeEdge s rem m eid hm hs hmem
  · intro s eid hs hmem
    exact kOk_modifyRemote s rem eid false hs

/-- Scanning a different node preserves the tracked all-remote state: the
scan only removes edges owned by the scanned node and only clears remote
flags of such edges. -/
lemma scan_PreN (isUcca : Bool) (m n : Nat) (rem : List Nat) (hm : m ∈ rem) (hn : n ∈ rem)
    (hnm : n ≠ m) (fuel : Nat) (st : DepState) (i : Nat) (p : Bool)
    (hK : KOk st rem) (hP : PreN st n) :
    KOk (scanIncoming isUcca m fuel st i p).1 rem ∧
      PreN (scanIncoming isUcca m fuel st i p).1 n := by
  have := scanIncoming_pres isUcca m
    (fun s => KOk s rem ∧ PreN s n) ?_ ?_ fuel st i p ⟨hK, hP⟩
  · exact this
  · rintro s eid ⟨hs, hpre⟩ hmem
    refine ⟨kOk_removeEdge s rem m eid hm hs hmem, ?_⟩
    intro e2 hmem2
    rw [incoming_removeEdge] at hmem2
    rw [remote_removeEdge]
    apply hpre e2
    split_ifs at hmem2
    · exact (List.erase_sublist _ _).subset hmem2
    · exact hmem2
  · rintro s eid ⟨hs, hpre⟩ hmem
    refine ⟨kOk_modifyRemote s rem eid false hs, ?_⟩
    have hdep : (s.getEdge eid).dependent = some m := ((hs m hm).2 eid hmem).2
    intro e2 hmem2
    rw [getNode_modifyEdge] at hmem2
    have hne : eid ≠ e2 := by
      intro hcontra
      have h9 := ((hs n hn).2 e2 hmem2).2
      rw [← hcontra, hdep] at h9
      exact hnm (Option.some.inj h9).symm
    rw [remote_modifyRemote_ne s eid e2 false hne]
    exact hpre e2 hmem2

/-- Scanning any node other than the tracked (already finished) node
preserves the tracked final disposition. -/
lemma scan_PostS (isUcca : Bool) (m n r : Nat) (rem : List Nat) (hm : m ∈ rem)
    (hnm : n ≠ m) (fuel : Nat) (st : DepState) (i : Nat) (p : Bool)
    (hK : KOk st rem) (hP : PostS n r st) :
    KOk (scanIncoming isUcca m fuel st i p).1 rem ∧
      PostS n r (scanIncoming isUcca m fuel st i p).1 := by
  have := scanIncoming_pres isUcca m
    (fun s => KOk s rem ∧ PostS n r s) ?_ ?_ fuel st i p ⟨hK, hP⟩
  · exact this
  · rintro s eid ⟨hs, hpost⟩ hmem
    refine ⟨kOk_removeEdge s rem m eid hm hs hmem, ?_⟩
    obtain ⟨e2, hlen, hinc, hdep2, hrem2, hrest⟩ := hpost
    have hdep : (s.getEdge eid).dependent = some m := ((hs m hm).2 eid hmem).2
    have hne : eid ≠ e2 := by
      intro hcontra
      subst hcontra
      rw [hdep] at hdep2
      cases hdep2
    refine ⟨e2, by rwa [edgesLength_removeEdge], ?_, ?_, ?_, ?_⟩
    · rw [incoming_removeEdge, if_neg (by
        rw [hdep]
        intro hcontra
        exact hnm (Option.some.inj hcontra).symm)]
      exact hinc
    · rw [getEdge_removeEdge_ne s eid e2 hne]
      exact hdep2
    · rw [getEdge_removeEdge_ne s eid e2 hne]
      exact hrem2
    · rw [getEdge_removeEdge_ne s eid e2 hne, position_removeEdge]
      exact hrest
  · rintro s eid ⟨hs, hpost⟩ hmem
    refine ⟨kOk_modifyRemote s rem eid false hs, ?_⟩
    obtain ⟨e2, hlen, hinc, hdep2, hrem2, hrest⟩ := hpost
    have hdep : (s.getEdge eid).dependent = some m := ((hs m hm).2 eid hmem).2
    have hne : eid ≠ e2 := by
      intro hcontra
      subst hcontra
      rw [hdep] at hdep2
      cases hdep2
    refine ⟨e2, by rwa [edgesLength_modifyEdge], ?_, ?_, ?_, ?_⟩
    · rw [getNode_modifyEdge]
      exact hinc
    · rw [dependent_modifyRemote]
      exact hdep2
    · rw [remote_modifyRemote_ne s eid e2 false hne]
      exact hrem2
    · rw [rel_modifyRemote, headIndex_modifyRemote, getNode_modifyEdge]
      exact hrest

lemma attach_KOk (st1 : DepState) (e : DepEdge) (m : Nat) (tail : List Nat)
    (hmt : m ∉ tail) (hK : KOk st1 tail) :
    KOk (({ st1 with edges := st1.edges ++ [e] } : DepState).modifyNode m
        (fun n => { n with incoming := [st1.edges.length] })) tail := by
  intro k hk
  have hmk : ¬ (m = k ∧ k < st1.nodes.length) := by
    rintro ⟨rfl, -⟩
    exact hmt hk
  obtain ⟨hNd, hMem⟩ := hK k hk
  constructor
  · rw [attach_getNode, if_neg hmk]
    exact hNd
  · intro e2 hmem2
    rw [attach_getNode, if_neg hmk] at hmem2
    have hb := hMem e2 hmem2
    rw [attach_edgesLength, attach_getEdge_lt st1 e m e2 hb.1]
    exact ⟨Nat.lt_succ_of_lt hb.1, hb.2⟩

lemma nodesLength_preprocessNode (isUcca : Bool) (st : DepState) (roots : List Nat)
    (m : Nat) :
    (preprocessNode true isUcca (st, roots) m).1.nodes.length = st.nodes.length := by
  unfold preprocessNode
  dsimp only
  split_ifs
  · cases roots with
    | cons r rest =>
        dsimp only
        rw [attach_nodesLength, scan_nodesLength]
    | nil =>
        dsimp only
        rw [attach_nodesLength, scan_nodesLength]
  · exact scan_nodesLength isUcca m _ st 0 true

lemma preprocess_fold_PostN (isUcca : Bool) (n : Nat) :
    ∀ (rem : List Nat) (st : DepState) (roots : List Nat),
      rem.Nodup → KOk st rem → (∀ m ∈ rem, m < st.nodes.length) →
      ((n ∈ rem ∧ PreN st n) ∨ (n ∉ rem ∧ PostN n (st, roots))) →
      PostN n (rem.foldl (preprocessNode true isUcca) (st, roots)) := by
  intro rem
  induction rem with
  | nil =>
      intro st roots _ _ _ htr
      rcases htr with ⟨hin, -⟩ | ⟨-, hpost⟩
      · cases hin
      · exact hpost
  | cons m tail ih =>
      intro st roots hNd hK hV htr
      rw [List.foldl_cons]
      have hmt : m ∉ tail := (List.nodup_cons.mp hNd).1
      have hNdT : tail.Nodup := (List.nodup_cons.mp hNd).2
      have hmm : m ∈ m :: tail := List.mem_cons_self m tail
      by_cases hnm : n = m
      · -- the tracked parentless node is processed now
        rcases htr with ⟨-, hpre⟩ | ⟨hnin, -⟩
        swap
        · exact absurd (hnm ▸ hmm) hnin
        subst hnm
        obtain ⟨hNdn, hMemn⟩ := hK n hmm
        have hflag : (scanIncoming isUcca n ((st.getNode n).incoming.length + 1)
            st 0 true).2 = true := by
          apply scanIncoming_keeps_parentless isUcca n _ st 0 true hNdn
          · intro eid hmem
            exact (hMemn eid hmem).2
          · intro eid hmem
            rw [List.drop_zero] at hmem
            exact hpre eid hmem
        have hKs : KOk (scanIncoming isUcca n ((st.getNode n).incoming.length + 1)
            st 0 true).1 (n :: tail) :=
          scan_KOk isUcca n (n :: tail) hmm _ st 0 true hK
        have hVn : n < (scanIncoming isUcca n ((st.getNode n).incoming.length + 1)
            st 0 true).1.nodes.length := by
          rw [scan_nodesLength]
          exact hV n hmm
        -- evaluate the step
        have hstep :
            ∃ r rest2,
              (preprocessNode true isUcca (st, roots) n).2 = r :: rest2 ∧
              PostS n r (preprocessNode true isUcca (st, roots) n).1 ∧
              KOk (preprocessNode true isUcca (st, roots) n).1 tail := by
          unfold preprocessNode
          dsimp only
          split_ifs with hfl
          swap
          · exfalso
            apply hfl
            rw [hflag]
            rfl
          cases roots with
          | cons r rest =>
              dsimp only
              refine ⟨r, rest, rfl, ?_, ?_⟩
              · refine ⟨(scanIncoming isUcca n ((st.getNode n).incoming.length + 1)
                    st 0 true).1.edges.length, ?_, ?_, ?_, ?_, ?_⟩
                · rw [attach_edgesLength]
                  omega
                · rw [attach_getNode, if_pos ⟨rfl, hVn⟩]
                · rw [attach_getEdge_last]
                · rw [attach_getEdge_last]
                · rw [attach_getEdge_last, attach_position]
                  left
                  exact ⟨rfl, rfl⟩
              · exact attach_KOk _ _ n tail hmt (fun k hk => hKs k (List.mem_cons_of_mem n hk))
          | nil =>
              dsimp only
              refine ⟨n, [], rfl, ?_, ?_⟩
              · refine ⟨(scanIncoming isUcca n ((st.getNode n).incoming.length + 1)
                    st 0 true).1.edges.length, ?_, ?_, ?_, ?_, ?_⟩
                · rw [attach_edgesLength]
                  omega
                · rw [attach_getNode, if_pos ⟨rfl, hVn⟩]
                · rw [attach_getEdge_last]
                · rw [attach_getEdge_last]
                · rw [attach_getEdge_last]
                  right
                  exact ⟨rfl, rfl, rfl⟩
              · exact attach_KOk _ _ n tail hmt (fun k hk => hKs k (List.mem_cons_of_mem n hk))
        obtain ⟨r, rest2, hq2, hpost, hKq⟩ := hstep
        refine ih (preprocessNode true isUcca (st, roots) n).1
          (preprocessNode true isUcca (st, roots) n).2 hNdT hKq ?_ ?_
        · intro k hk
          rw [nodesLength_preprocessNode]
          exact hV k (List.mem_cons_of_mem n hk)
        · right
          exact ⟨hmt, r, rest2, hq2, hpost⟩
      · -- a different node is processed
        rcases htr with ⟨hin, hpre⟩ | ⟨hnin, hpost⟩
        · -- tracked node still pending
          have hnt : n ∈ tail := by
            rcases List.mem_cons.mp hin with h | h
            · exact absurd h hnm
            · exact h
          obtain ⟨hKs, hPs⟩ := scan_PreN isUcca m n (m :: tail) hmm hin hnm
            ((st.getNode m).incoming.length + 1) st 0 true hK hpre
          have hnext :
              KOk (preprocessNode true isUcca (st, roots) m).1 tail ∧
              PreN (preprocessNode true isUcca (st, roots) m).1 n := by
            unfold preprocessNode
            dsimp only
            split_ifs with hfl
            · cases roots with
              | cons r rest =>
                  dsimp only
                  refine ⟨attach_KOk _ _ m tail hmt
                    (fun k hk => hKs k (List.mem_cons_of_mem m hk)), ?_⟩
                  intro eid hmem
                  have hmkn : ¬ (m = n ∧ n < (scanIncoming isUcca m
                      ((st.getNode m).incoming.length + 1) st 0 true).1.nodes.length) := by
                    rintro ⟨rfl, -⟩
                    exact hnm rfl
                  rw [attach_getNode, if_neg hmkn] at hmem
                  have hb := ((hKs n hin).2 eid hmem).1
                  rw [attach_getEdge_lt _ _ m eid hb]
                  exact hPs eid hmem
              | nil =>
                  dsimp only
                  refine ⟨attach_KOk _ _ m tail hmt
                    (fun k hk => hKs k (List.mem_cons_of_mem m hk)), ?_⟩
                  intro eid hmem
                  have hmkn : ¬ (m = n ∧ n < (scanIncoming isUcca m
                      ((st.getNode m).incoming.length + 1) st 0 true).1.nodes.length) := by
                    rintro ⟨rfl, -⟩
                    exact hnm rfl
                  rw [attach_getNode, if_neg hmkn] at hmem
                  have hb := ((hKs n hin).2 eid hmem).1
                  rw [attach_getEdge_lt _ _ m eid hb]
                  exact hPs eid hmem
            · exact ⟨fun k hk => hKs k (List.mem_cons_of_mem m hk), hPs⟩
          refine ih (preprocessNode true isUcca (st, roots) m).1
            (preprocessNode true isUcca (st, roots) m).2 hNdT hnext.1 ?_ ?_
          · intro k hk
            rw [nodesLength_preprocessNode]
            exact hV k (List.mem_cons_of_mem m hk)
          · left
            exact ⟨hnt, hnext.2⟩
        · -- tracked node already finished
          obtain ⟨r, rest, hq2, hPs0⟩ := hpost
          dsimp only at hq2
          subst hq2
          obtain ⟨hKs, hPs⟩ := scan_PostS isUcca m n r (m :: tail) hmm hnm
            ((st.getNode m).incoming.length + 1) st 0 true hK hPs0
          have hnext :
              KOk (preprocessNode true isUcca (st, r :: rest) m).1 tail ∧
              PostN n (preprocessNode true isUcca (st, r :: rest) m) := by
            unfold preprocessNode
            dsimp only
            split_ifs with hfl
            · dsimp only
              refine ⟨attach_KOk _ _ m tail hmt
                (fun k hk => hKs k (List.mem_cons_of_mem m hk)), ?_⟩
              refine ⟨r, rest, rfl, ?_⟩
              obtain ⟨e2, hlen, hinc, hdep2, hrem2, hrest2⟩ := hPs
              have hmkn : ¬ (m = n ∧ n < (scanIncoming isUcca m
                  ((st.getNode m).incoming.length + 1) st 0 true).1.nodes.length) := by
                rintro ⟨rfl, -⟩
                exact hnm rfl
              refine ⟨e2, ?_, ?_, ?_, ?_, ?_⟩
              · rw [attach_edgesLength]
                omega
              · rw [attach_getNode, if_neg hmkn]
                exact hinc
              · rw [attach_getEdge_lt _ _ m e2 hlen]
                exact hdep2
              · rw [attach_getEdge_lt _ _ m e2 hlen]
                exact hrem2
              · rw [attach_getEdge_lt _ _ m e2 hlen, attach_position]
                exact hrest2
            · exact ⟨fun k hk => hKs k (List.mem_cons_of_mem m hk), ⟨r, rest, rfl, hPs⟩⟩
          refine ih (preprocessNode true isUcca (st, r :: rest) m).1
            (preprocessNode true isUcca (st, r :: rest) m).2 hNdT hnext.1 ?_ ?_
          · intro k hk
            rw [nodesLength_preprocessNode]
            exact hV k (List.mem_cons_of_mem m hk)
          · right
            exact ⟨fun h => hnin (List.mem_cons_of_mem m h), hnext.2⟩

lemma consistent_kOk (st : DepState) (nodeIds : List Nat)
    (hC : Consistent st) (hV : ∀ n ∈ nodeIds, n < st.nodes.length) :
    KOk st nodeIds := by
  intro m hm
  refine ⟨(hC.1 m (hV m hm)).2.1, ?_⟩
  intro eid hmem
  have hb := (hC.1 m (hV m hm)).2.2.2 eid hmem
  exact ⟨hb, ((hC.2 m (hV m hm) eid hb).2).mp hmem⟩

lemma demote_kOk (st : DepState) (extras : List Nat) (nodeIds : List Nat)
    (hK : KOk st nodeIds) : KOk (demoteExtraRoots st extras) nodeIds := by
  intro m hm
  obtain ⟨hNd, hMem⟩ := hK m hm
  refine ⟨(demoteExtraRoots_incoming_sublist st extras m).nodup hNd, ?_⟩
  intro eid hmem
  have h2 := hMem eid (demoteExtraRoots_incoming_subset st extras m eid hmem)
  rw [demoteExtraRoots_edgesLength, demoteExtraRoots_getEdge]
  exact h2

lemma demote_PreN (st : DepState) (extras : List Nat) (n : Nat)
    (hpre : PreN st n) : PreN (demoteExtraRoots st extras) n := by
  intro eid hmem
  rw [demoteExtraRoots_getEdge]
  exact hpre eid (demoteExtraRoots_incoming_subset st extras n eid hmem)

lemma preprocessPair_PostN (st : DepState) (nodeIds : List Nat) (isUcca : Bool) (n : Nat)
    (hC : Consistent st) (hNd : nodeIds.Nodup)
    (hV : ∀ k ∈ nodeIds, k < st.nodes.length) (hn : n ∈ nodeIds)
    (hpre : PreN st n) :
    PostN n (preprocessPair st nodeIds true true isUcca) := by
  have hK0 : KOk st nodeIds := consistent_kOk st nodeIds hC hV
  unfold preprocessPair
  cases hroots : rootsOf st nodeIds with
  | nil =>
      dsimp only
      exact preprocess_fold_PostN isUcca n nodeIds st [] hNd hK0 hV (Or.inl ⟨hn, hpre⟩)
  | cons r rest =>
      cases rest with
      | nil =>
          dsimp only
          rw [if_neg (by simp)]
          exact preprocess_fold_PostN isUcca n nodeIds st [r] hNd hK0 hV (Or.inl ⟨hn, hpre⟩)
      | cons r2 rest2 =>
          dsimp only
          rw [if_pos (by simp)]
          apply preprocess_fold_PostN isUcca n nodeIds _ [r] hNd
          · exact demote_kOk st (r2 :: rest2) nodeIds hK0
          · intro k hk
            rw [demoteExtraRoots_nodesLength]
            exact hV k hk
          · exact Or.inl ⟨hn, demote_PreN st (r2 :: rest2) n hpre⟩

/-- C5 (amended): in strict-tree mode (tree = True, converting to the
dependency format), after `preprocess` at most one node carries an incoming
ROOT-relation edge — not always exactly one, since an input with no ROOT
edge and no parentless node (for example a primary-edge cycle) ends with
none — and every node all of whose incoming edges were remote (in
particular every node with no primary incoming edge) ends with a single
fresh non-remote edge: an ORPHAN edge whose head index is the designated
root position minus one, or, if no root existed when it was reached, it is
itself designated the root with a ROOT edge with head index -1. -/
theorem C5_preprocess_single_root (st : DepState) (nodeIds : List Nat) (isUcca : Bool)
    (hC : Consistent st) (hNd : nodeIds.Nodup)
    (hV : ∀ n ∈ nodeIds, n < st.nodes.length) :
    (∀ m ∈ nodeIds, ∀ n ∈ nodeIds,
       RootBearing (preprocess st nodeIds true true isUcca) m →
       RootBearing (preprocess st nodeIds true true isUcca) n → m = n) ∧
    (∀ n ∈ nodeIds,
       (∀ eid ∈ (st.getNode n).incoming, (st.getEdge eid).remote = true) →
       PostN n (preprocessPair st nodeIds true true isUcca)) := by
  constructor
  · intro m hm n hn hRBm hRBn
    obtain ⟨-, hA⟩ := preprocessPair_AOk st nodeIds isUcca hC hNd hV
    cases hfr : (preprocessPair st nodeIds true true isUcca).2 with
    | nil => exact absurd hRBm (hA.1 hfr m hm)
    | cons r rest =>
        have h1 := hA.2 r rest hfr m hm hRBm
        have h2 := hA.2 r rest hfr n hn hRBn
        rw [h1, h2]
  · intro n hn hpre
    exact preprocessPair_PostN st nodeIds isUcca n hC hNd hV hn hpre

/-- Two nodes forming a primary-edge cycle: no ROOT edge, no parentless
node. -/
def c5CycleSt : DepState :=
  { nodes := [{ position := 1, incoming := [0], outgoing := [1], terminalPos := 1 },
              { position := 2, incoming := [1], outgoing := [0], terminalPos := 2 }],
    edges := [{ headIndex := 1, rel := "x", remote := false, head := some 1, dependent := some 0 },
              { headIndex := 0, rel := "x", remote := false, head := some 0, dependent := some 1 }] }

/-- C5 counterexample: on a consistent two-node cycle with no ROOT edge and
no parentless node, `preprocess` in strict-tree mode leaves zero nodes with
the ROOT relation, so "exactly one node has the ROOT relation" fails. -/
theorem C5_no_root_counterexample :
    Consistent c5CycleSt ∧
    ¬ ∃ k ∈ ([0, 1] : List Nat),
        RootBearing (preprocess c5CycleSt [0, 1] true true false) k ∧
        ∀ j ∈ ([0, 1] : List Nat),
          RootBearing (preprocess c5CycleSt [0, 1] true true false) j → j = k :=
  ⟨by decide, by decide⟩

/-- C5 witness: a concrete parentless node is designated the root. -/
theorem C5_preprocess_single_root_witness :
    PostN 0 (preprocessPair exSetterSt [0, 1] true true false) :=
  (C5_preprocess_single_root exSetterSt [0, 1] false (by decide) (by decide)
    (by decide)).2 0 (by decide) (by decide)

/-! ### Topological sort (dep.py lines 205-227, claim C2) -/

/-- `e.head.level or 0` for one incoming edge id (an unresolved head would
raise in Python; it contributes 0 here and the theorems about real runs
only meet resolved heads). -/
def headLevelVal (st : DepState) (eid : Nat) : Nat :=
  match (st.getEdge eid).head with
  | some h => ((st.getNode h).level).getD 0
  | none => 0

/-- `1 + max(e.head.level or 0 for e in node.incoming)` is
`1 + maxHeadLevel st k` when the list is nonempty (the fold over `max`
starting at 0 agrees with Python `max` on nonempty lists of naturals). -/
def maxHeadLevel (st : DepState) (k : Nat) : Nat :=
  ((st.getNode k).incoming.map (headLevelVal st)).foldl max 0

/-- The unvisited, unleveled heads of a node, in incoming-edge order
(`[e.head for e in node.incoming if e.head.level is None and e.head not in
node.heads_visited]`, duplicates preserved). -/
def newHeads (st : DepState) (node : Nat) : List Nat :=
  ((st.getNode node).incoming.filterMap (fun eid => (st.getEdge eid).head)).filter
    (fun h => ((st.getNode h).level).isNone && decide (h ∉ (st.getNode node).headsVisited))

/-- `node.heads_visited.update(heads)`: set update, keeping insertion
order and ignoring elements already present. -/
def setUpdate (vis : List Nat) (heads : List Nat) : List Nat :=
  heads.foldl (fun acc2 h => if h ∈ acc2 then acc2 else acc2 ++ [h]) vis

/-- The `while remaining` loop of `_topological_sort` (dep.py lines
210-223).  `remaining.pop()` is modelled by reading and dropping the last
element; the `levels` dictionary is modelled by the accumulator of
(node, level) assignments made during the run. -/
def topoLoop (st : DepState) :
    Nat → List Nat → List (Nat × Nat) → DepState × List (Nat × Nat)
  | 0, _, acc => (st, acc)
  | fuel + 1, remaining, acc =>
    match remaining.getLast? with
    | none => (st, acc)
    | some node =>
      let rest := remaining.dropLast
      match (st.getNode node).level with
      | some _ => topoLoop st fuel rest acc
      | none =>
        if (st.getNode node).incoming.isEmpty then
          topoLoop (st.modifyNode node (fun nd => { nd with level := some 0 }))
            fuel rest ((node, 0) :: acc)
        else
          let heads := newHeads st node
          if heads.isEmpty then
            let lvl := 1 + maxHeadLevel st node
            topoLoop (st.modifyNode node (fun nd => { nd with level := some lvl }))
              fuel rest ((node, lvl) :: acc)
          else
            topoLoop
              (st.modifyNode node (fun nd =>
                { nd with headsVisited := setUpdate nd.headsVisited heads }))
              fuel (rest ++ [node] ++ heads) acc

/-- Fuel that is larger than any possible number of loop iterations on the
given state (each node is pushed once as a leaf and at most once per
(dependent, visited-head) pair; the bound is generous). -/
def topoFuel (st : DepState) (nodeIds : List Nat) : Nat :=
  (st.nodes.length + 1) * (st.edges.length + 1) * 4 + nodeIds.length + 1

/-- The loop run of `_topological_sort`: start from the leaves (nodes
without outgoing edges, in node order). -/
def topoRun (st : DepState) (nodeIds : List Nat) : DepState × List (Nat × Nat) :=
  topoLoop st (topoFuel st nodeIds)
    (nodeIds.filter (fun n => (st.getNode n).outgoing.isEmpty)) []

/-- Comparison realizing `sorted(levels.items())` followed by the
per-level `sorted(level_nodes, key=lambda x: x.terminal.position)`:
ascending level, ties by ascending terminal position. -/
def topoLe (st : DepState) (p q : Nat × Nat) : Prop :=
  p.2 < q.2 ∨ (p.2 = q.2 ∧ (st.getNode p.1).terminalPos ≤ (st.getNode q.1).terminalPos)

instance (st : DepState) : DecidableRel (topoLe st) := by
  intro p q; unfold topoLe; infer_instance

instance topoLe_total (st : DepState) : IsTotal (Nat × Nat) (topoLe st) := by
  constructor
  intro p q
  unfold topoLe
  rcases Nat.lt_trichotomy p.2 q.2 with h | h | h
  · exact Or.inl (Or.inl h)
  · rcases Nat.le_total (st.getNode p.1).terminalPos (st.getNode q.1).terminalPos with h2 | h2
    · exact Or.inl (Or.inr ⟨h, h2⟩)
    · exact Or.inr (Or.inr ⟨h.symm, h2⟩)
  · exact Or.inr (Or.inl h)

instance topoLe_tr (st : DepState) : IsTrans (Nat × Nat) (topoLe st) := by
  constructor
  intro p q s hpq hqs
  unfold topoLe at *
  rcases hpq with h1 | ⟨h1, h2⟩ <;> rcases hqs with h3 | ⟨h3, h4⟩
  · exact Or.inl (h1.trans h3)
  · exact Or.inl (h3 ▸ h1)
  · exact Or.inl (h1 ▸ h3)
  · exact Or.inr ⟨h1.trans h3, h2.trans h4⟩

/-- Mirror of `_topological_sort` (dep.py lines 205-227): run the leveling
loop, keep the nodes assigned a positive level (level 0, the dummy root
level, is omitted), and order them by ascending level with ties by
terminal position (a stable sort by this key realizes the grouped
`sorted(levels.items())` iteration).  Returns the final state (levels and
visited sets are mutations of the nodes) together with the sorted node
list. -/
def topologicalSort (st : DepState) (nodeIds : List Nat) : DepState × List Nat :=
  let r := topoRun st nodeIds
  (r.1, ((List.insertionSort (topoLe r.1) (r.2.filter (fun p => decide (0 < p.2)))).map
    (fun p => p.1)))

/-- Nodes 1-2 form a head cycle, node 3 hangs below node 1, node 4 is
isolated, node 0 is the virtual root (used by claim C2). -/
def c2St : DepState :=
  { nodes :=
      [{ position := 0 },
       { position := 1
         incoming := [1]
         outgoing := [0, 2]
         terminalPos := 1 },
       { position := 2
         incoming := [2]
         outgoing := [1]
         terminalPos := 2 },
       { position := 3
         incoming := [0]
         terminalPos := 3 },
       { position := 4
         terminalPos := 4 }]
    edges :=
      [{ headIndex := 0
         rel := "x"
         remote := false
         head := some 1
         dependent := some 3 },
       { headIndex := 1
         rel := "x"
         remote := false
         head := some 2
         dependent := some 1 },
       { headIndex := 0
         rel := "x"
         remote := false
         head := some 1
         dependent := some 2 }] }

lemma c2St_sorted_output : (topologicalSort c2St [0, 1, 2, 3, 4]).2 = [1, 2, 3] := by
  decide

/-- Head references stay inside the node array (vacuously true for the
default edge returned out of range). -/
def HeadsOk (st : DepState) : Prop :=
  ∀ eid, eid < st.edges.length → ∀ h, (st.getEdge eid).head = some h →
    h < st.nodes.length

instance : DecidablePred HeadsOk := by
  intro st; unfold HeadsOk; infer_instance

lemma headsOk_all (st : DepState) (hH : HeadsOk st) (eid : Nat) (h : Nat)
    (hh : (st.getEdge eid).head = some h) : h < st.nodes.length := by
  by_cases he : eid < st.edges.length
  · exact hH eid he h hh
  · rw [getEdge_eq_default st (Nat.le_of_not_lt he)] at hh
    cases hh

@[simp] lemma level_modifyVisited (st : DepState) (m : Nat) (g : DepNode → List Nat) (k : Nat) :
    ((st.modifyNode m (fun nd => { nd with headsVisited := g nd })).getNode k).level =
      (st.getNode k).level := by
  rw [getNode_modifyNode]; split_ifs <;> rfl

@[simp] lemma incoming_modifyVisited (st : DepState) (m : Nat) (g : DepNode → List Nat)
    (k : Nat) :
    ((st.modifyNode m (fun nd => { nd with headsVisited := g nd })).getNode k).incoming =
      (st.getNode k).incoming := by
  rw [getNode_modifyNode]; split_ifs <;> rfl

@[simp] lemma terminalPos_modifyVisited (st : DepState) (m : Nat) (g : DepNode → List Nat)
    (k : Nat) :
    ((st.modifyNode m (fun nd => { nd with headsVisited := g nd })).getNode k).terminalPos =
      (st.getNode k).terminalPos := by
  rw [getNode_modifyNode]; split_ifs <;> rfl

lemma level_modifyLevel (st : DepState) (m : Nat) (v : Option Nat) (k : Nat) :
    ((st.modifyNode m (fun nd => { nd with level := v })).getNode k).level =
      if m = k ∧ k < st.nodes.length then v else (st.getNode k).level := by
  rw [getNode_modifyNode]; split_ifs <;> rfl

@[simp] lemma incoming_modifyLevel (st : DepState) (m : Nat) (v : Option Nat) (k : Nat) :
    ((st.modifyNode m (fun nd => { nd with level := v })).getNode k).incoming =
      (st.getNode k).incoming := by
  rw [getNode_modifyNode]; split_ifs <;> rfl

@[simp] lemma terminalPos_modifyLevel (st : DepState) (m : Nat) (v : Option Nat) (k : Nat) :
    ((st.modifyNode m (fun nd => { nd with level := v })).getNode k).terminalPos =
      (st.getNode k).terminalPos := by
  rw [getNode_modifyNode]; split_ifs <;> rfl

lemma foldl_max_le (l : List Nat) (f g : Nat → Nat) :
    ∀ (a b : Nat), a ≤ b → (∀ x ∈ l, f x ≤ g x) →
      (l.map f).foldl max a ≤ (l.map g).foldl max b := by
  induction l with
  | nil => intro a b hab _; exact hab
  | cons x t ih =>
      intro a b hab h
      rw [List.map_cons, List.map_cons, List.foldl_cons, List.foldl_cons]
      exact ih (max a (f x)) (max b (g x))
        (max_le_max hab (h x (List.mem_cons_self x t)))
        (fun y hy => h y (List.mem_cons_of_mem x hy))

lemma maxHeadLevel_mono_levelSet (st : DepState) (m : Nat) (v : Nat) (k : Nat)
    (hm : (st.getNode m).level = none) :
    maxHeadLevel st k ≤
      maxHeadLevel (st.modifyNode m (fun nd => { nd with level := some v })) k := by
  unfold maxHeadLevel
  rw [incoming_modifyLevel]
  apply foldl_max_le _ _ _ 0 0 (Nat.le_refl 0)
  intro eid _
  unfold headLevelVal
  rw [getEdge_modifyNode]
  cases hh : (st.getEdge eid).head with
  | none => exact Nat.le_refl 0
  | some h =>
      dsimp only
      rw [level_modifyLevel]
      split_ifs with hc
      · obtain ⟨rfl, -⟩ := hc
        rw [hm]
        exact Nat.zero_le v
      · exact Nat.le_refl _

lemma maxHeadLevel_modifyVisited (st : DepState) (m : Nat) (g : DepNode → List Nat) (k : Nat) :
    maxHeadLevel (st.modifyNode m (fun nd => { nd with headsVisited := g nd })) k =
      maxHeadLevel st k := by
  unfold maxHeadLevel
  rw [incoming_modifyVisited]
  congr 1
  apply List.map_congr_left
  intro eid _
  unfold headLevelVal
  rw [getEdge_modifyNode]
  cases (st.getEdge eid).head with
  | none => rfl
  | some h =>
      dsimp only
      rw [level_modifyVisited]

/-- The loop invariant of `_topological_sort`: every recorded assignment
(node, level) is the stored level of that node; level 0 is recorded exactly
for nodes without incoming edges; a node with incoming edges gets a level
between 1 and 1 + the maximum of its head levels (unleveled heads counting
as 0, evaluated in the current state — a quantity that only grows as more
levels are assigned). -/
def TopoInv (st : DepState) (acc : List (Nat × Nat)) : Prop :=
  ∀ p ∈ acc, (st.getNode p.1).level = some p.2 ∧
    ((st.getNode p.1).incoming = [] ↔ p.2 = 0) ∧
    ((st.getNode p.1).incoming ≠ [] → 1 ≤ p.2 ∧ p.2 ≤ 1 + maxHeadLevel st p.1)

lemma topoInv_nil (st : DepState) : TopoInv st [] := by
  intro p hp; cases hp

lemma topoLoop_inv (fuel : Nat) :
    ∀ (st : DepState) (remaining : List Nat) (acc : List (Nat × Nat)),
      HeadsOk st → (∀ n ∈ remaining, n < st.nodes.length) → TopoInv st acc →
      TopoInv (topoLoop st fuel remaining acc).1 (topoLoop st fuel remaining acc).2 := by
  induction fuel with
  | zero => intro st remaining acc _ _ hInv; exact hInv
  | succ fuel ih =>
      intro st remaining acc hH hV hInv
      rw [topoLoop]
      cases hLast : remaining.getLast? with
      | none => exact hInv
      | some node =>
          dsimp only
          have hNode : node < st.nodes.length :=
            hV node (List.mem_of_mem_getLast? hLast)
          have hRest : ∀ n ∈ remaining.dropLast, n < st.nodes.length :=
            fun n hn => hV n (List.dropLast_subset remaining hn)
          cases hLev : (st.getNode node).level with
          | some l => exact ih st remaining.dropLast acc hH hRest hInv
          | none =>
              by_cases hEmp : (st.getNode node).incoming.isEmpty
              · rw [if_pos hEmp]
                rw [List.isEmpty_iff] at hEmp
                refine ih _ _ _ ?_ ?_ ?_
                · intro eid he h hh
                  rw [edgesLength_modifyNode] at he
                  rw [getEdge_modifyNode] at hh
                  rw [nodesLength_modifyNode]
                  exact hH eid he h hh
                · intro n hn
                  rw [nodesLength_modifyNode]
                  exact hRest n hn
                · intro p hp
                  rcases List.mem_cons.mp hp with rfl | hp
                  · refine ⟨?_, ?_, ?_⟩
                    · rw [level_modifyLevel, if_pos ⟨rfl, hNode⟩]
                    · rw [incoming_modifyLevel, hEmp]
                      constructor <;> intro <;> rfl
                    · rw [incoming_modifyLevel, hEmp]
                      intro hne
                      exact absurd rfl hne
                  · obtain ⟨h1, h2, h3⟩ := hInv p hp
                    refine ⟨?_, ?_, ?_⟩
                    · rw [level_modifyLevel]
                      split_ifs with hc
                      · exfalso
                        obtain ⟨rfl, -⟩ := hc
                        rw [hLev] at h1
                        cases h1
                      · exact h1
                    · rw [incoming_modifyLevel]
                      exact h2
                    · rw [incoming_modifyLevel]
                      intro hne
                      refine ⟨(h3 hne).1, Nat.le_trans (h3 hne).2 ?_⟩
                      exact Nat.add_le_add_left
                        (maxHeadLevel_mono_levelSet st node 0 p.1 hLev) 1
              · rw [if_neg hEmp]
                by_cases hHd : (newHeads st node).isEmpty
                · rw [if_pos hHd]
                  refine ih _ _ _ ?_ ?_ ?_
                  · intro eid he h hh
                    rw [edgesLength_modifyNode] at he
                    rw [getEdge_modifyNode] at hh
                    rw [nodesLength_modifyNode]
                    exact hH eid he h hh
                  · intro n hn
                    rw [nodesLength_modifyNode]
                    exact hRest n hn
                  · intro p hp
                    rcases List.mem_cons.mp hp with rfl | hp
                    · refine ⟨?_, ?_, ?_⟩
                      · rw [level_modifyLevel, if_pos ⟨rfl, hNode⟩]
                      · rw [incoming_modifyLevel]
                        constructor
                        · intro hc
                          exact absurd (List.isEmpty_iff.mpr hc) hEmp
                        · intro hc
                          omega
                      · rw [incoming_modifyLevel]
                        intro _
                        refine ⟨Nat.le_add_right 1 _, Nat.add_le_add_left ?_ 1⟩
                        exact maxHeadLevel_mono_levelSet st node _ node hLev
                    · obtain ⟨h1, h2, h3⟩ := hInv p hp
                      refine ⟨?_, ?_, ?_⟩
                      · rw [level_modifyLevel]
                        split_ifs with hc
                        · exfalso
                          obtain ⟨rfl, -⟩ := hc
                          rw [hLev] at h1
                          cases h1
                        · exact h1
                      · rw [incoming_modifyLevel]
                        exact h2
                      · rw [incoming_modifyLevel]
                        intro hne
                        refine ⟨(h3 hne).1, Nat.le_trans (h3 hne).2 ?_⟩
                        exact Nat.add_le_add_left
                          (maxHeadLevel_mono_levelSet st node _ p.1 hLev) 1
                · rw [if_neg hHd]
                  refine ih _ _ _ ?_ ?_ ?_
                  · intro eid he h hh
                    rw [edgesLength_modifyNode] at he
                    rw [getEdge_modifyNode] at hh
                    rw [nodesLength_modifyNode]
                    exact hH eid he h hh
                  · intro n hn
                    rw [nodesLength_modifyNode]
                    rcases List.mem_append.mp hn with hn | hn
                    · rcases List.mem_append.mp hn with hn | hn
                      · exact hRest n hn
                      · rcases List.mem_singleton.mp hn with rfl
                        exact hNode
                    · unfold newHeads at hn
                      obtain ⟨hn2, -⟩ := List.mem_filter.mp hn
                      obtain ⟨eid, -, hh⟩ := List.mem_filterMap.mp hn2
                      exact headsOk_all st hH eid n hh
                  · intro p hp
                    obtain ⟨h1, h2, h3⟩ := hInv p hp
                    refine ⟨?_, ?_, ?_⟩
                    · rw [level_modifyVisited]
                      exact h1
                    · rw [incoming_modifyVisited]
                      exact h2
                    · rw [incoming_modifyVisited]
                      intro hne
                      refine ⟨(h3 hne).1, ?_⟩
                      rw [maxHeadLevel_modifyVisited]
                      exact (h3 hne).2

/-- C2 (amended): given in-range node ids and in-range head references,
`_topological_sort` returns the nodes ordered by ascending assigned level
with ties broken by ascending terminal position; a node appears in the
output exactly when the loop assigned it a positive level (level 0 — the
parentless nodes, not only the virtual root — is excluded); a node is
assigned level 0 iff it has no incoming edges, and a node with incoming
edges is assigned a level between 1 and 1 + the maximum of its heads'
levels as read in the FINAL state (on cycles the assigned level can be
strictly below 1 + that maximum, and it need not equal it). -/
theorem C2_topological_sort_levels (st : DepState) (nodeIds : List Nat)
    (hH : HeadsOk st) (hV : ∀ n ∈ nodeIds, n < st.nodes.length) :
    List.Pairwise
      (fun k1 k2 =>
        ((topologicalSort st nodeIds).1.getNode k1).level.getD 0 <
            ((topologicalSort st nodeIds).1.getNode k2).level.getD 0 ∨
          (((topologicalSort st nodeIds).1.getNode k1).level.getD 0 =
              ((topologicalSort st nodeIds).1.getNode k2).level.getD 0 ∧
            ((topologicalSort st nodeIds).1.getNode k1).terminalPos ≤
              ((topologicalSort st nodeIds).1.getNode k2).terminalPos))
      (topologicalSort st nodeIds).2 ∧
    (∀ k, k ∈ (topologicalSort st nodeIds).2 ↔
      ∃ l, (k, l) ∈ (topoRun st nodeIds).2 ∧ 0 < l) ∧
    (∀ p ∈ (topoRun st nodeIds).2,
      ((topoRun st nodeIds).1.getNode p.1).level = some p.2 ∧
        (((topoRun st nodeIds).1.getNode p.1).incoming = [] ↔ p.2 = 0) ∧
        (((topoRun st nodeIds).1.getNode p.1).incoming ≠ [] →
          1 ≤ p.2 ∧ p.2 ≤ 1 + maxHeadLevel (topoRun st nodeIds).1 p.1)) := by
  have hInv : TopoInv (topoRun st nodeIds).1 (topoRun st nodeIds).2 := by
    unfold topoRun
    exact topoLoop_inv _ st _ [] hH
      (fun n hn => hV n (List.mem_of_mem_filter hn)) (topoInv_nil st)
  have hFst : (topologicalSort st nodeIds).1 = (topoRun st nodeIds).1 := rfl
  have hSnd : (topologicalSort st nodeIds).2 =
      (List.insertionSort (topoLe (topoRun st nodeIds).1)
        ((topoRun st nodeIds).2.filter (fun p => decide (0 < p.2)))).map
        (fun p => p.1) := rfl
  refine ⟨?_, ?_, hInv⟩
  · rw [hSnd, List.pairwise_map]
    have hSorted := List.sorted_insertionSort (topoLe (topoRun st nodeIds).1)
      ((topoRun st nodeIds).2.filter (fun p => decide (0 < p.2)))
    refine hSorted.imp_of_mem ?_
    intro p q hp hq hpq
    rw [List.mem_insertionSort] at hp hq
    obtain ⟨hp2, -⟩ := List.mem_filter.mp hp
    obtain ⟨hq2, -⟩ := List.mem_filter.mp hq
    have hpl := (hInv p hp2).1
    have hql := (hInv q hq2).1
    rw [hFst, hpl, hql]
    exact hpq
  · intro k
    rw [hSnd]
    constructor
    · intro hk
      obtain ⟨⟨k1, l⟩, hkS, hkEq⟩ := List.mem_map.mp hk
      dsimp only at hkEq
      subst hkEq
      rw [List.mem_insertionSort] at hkS
      obtain ⟨hmem, hpos⟩ := List.mem_filter.mp hkS
      exact ⟨l, hmem, of_decide_eq_true hpos⟩
    · intro hk
      obtain ⟨l, hmem, hpos⟩ := hk
      refine List.mem_map.mpr ⟨(k, l), ?_, rfl⟩
      rw [List.mem_insertionSort]
      exact List.mem_filter.mpr ⟨hmem, decide_eq_true hpos⟩

/-- C2 counterexample: on `c2St` (virtual root 0, a two-node head cycle
1-2, node 3 below 1, isolated node 4) the claim fails twice: node 4 (not
the virtual root) is excluded from the output because its level is 0, and
node 1 is assigned level 1 although 1 + the maximum of its heads' levels
is 3 (its head, node 2, ends at level 2). -/
theorem C2_level_rule_counterexample :
    (4 ∉ (topologicalSort c2St [0, 1, 2, 3, 4]).2 ∧
      ((topologicalSort c2St [0, 1, 2, 3, 4]).1.getNode 4).incoming = [] ∧
      (4 : Nat) ≠ 0) ∧
    (((topologicalSort c2St [0, 1, 2, 3, 4]).1.getNode 1).level = some 1 ∧
      ((topologicalSort c2St [0, 1, 2, 3, 4]).1.getNode 1).incoming ≠ [] ∧
      1 + maxHeadLevel (topologicalSort c2St [0, 1, 2, 3, 4]).1 1 = 3) := by
  decide

/-- Witness for C2 at the concrete state `c2St`. -/
theorem C2_topological_sort_levels_witness :
    HeadsOk c2St ∧ (∀ n ∈ [0, 1, 2, 3, 4], n < c2St.nodes.length) ∧
    (∀ k, k ∈ (topologicalSort c2St [0, 1, 2, 3, 4]).2 ↔
      ∃ l, (k, l) ∈ (topoRun c2St [0, 1, 2, 3, 4]).2 ∧ 0 < l) :=
  ⟨by decide, by decide,
    (C2_topological_sort_levels c2St [0, 1, 2, 3, 4] (by decide) (by decide)).2.1⟩

/-- Abstraction of one edge reaching `incoming_edges` from
`find_top_headed_edges(terminal)` (dep.py line 582): `headPos` is
`find_head_terminal(e.parent).position`, `tag` and `remote` are the
label data, and `omitted` is the subclass-specific `omit_edge(e, tree)`
verdict.  The subclass hooks are arbitrary, so these fields are left
parametric. -/
structure PassageEdge where
  headPos : Int
  tag : String
  remote : Bool
  omitted : Bool
deriving DecidableEq, Repr

/-- `incoming_edges` (dep.py lines 579-588): in test mode return nothing;
otherwise pair every candidate edge with `find_head_terminal(e.parent)
.position - 1` and keep `Edge(head_index, tag, remote)` for the pairs
whose head index differs from `terminal.position - 1` and that are not
omitted.  The Python set comprehension is modelled as the list of
produced elements (deduplication does not affect which triples occur). -/
def incomingEdges (test : Bool) (terminalPos : Int) (es : List PassageEdge) :
    List (Int × String × Bool) :=
  if test then []
  else
    (es.map (fun e => (e, e.headPos - 1))).filterMap
      (fun p =>
        if p.2 ≠ terminalPos - 1 ∧ ¬ p.1.omitted then
          some (p.2, p.1.tag, p.1.remote)
        else none)

/-- C7: every dependency edge emitted by `incoming_edges` for a terminal
has a head index different from the terminal's own index
(`terminal.position - 1`): the backward converter never emits a
self-loop. -/
theorem C7_no_self_loops (test : Bool) (terminalPos : Int)
    (es : List PassageEdge) :
    ∀ d ∈ incomingEdges test terminalPos es, d.1 ≠ terminalPos - 1 := by
  intro d hd
  unfold incomingEdges at hd
  split_ifs at hd
  · cases hd
  · obtain ⟨p, -, hp⟩ := List.mem_filterMap.mp hd
    by_cases hc : p.2 ≠ terminalPos - 1 ∧ ¬ p.1.omitted
    · rw [if_pos hc] at hp
      obtain ⟨rfl⟩ := hp
      exact hc.1
    · rw [if_neg hc] at hp
      cases hp

/-- Witness for C7: one candidate survives, one is a self-loop, one is
omitted. -/
theorem C7_no_self_loops_witness :
    (3, "nsubj", false) ∈
        incomingEdges false 2
          [{ headPos := 4, tag := "nsubj", remote := false, omitted := false },
           { headPos := 2, tag := "punct", remote := false, omitted := false },
           { headPos := 5, tag := "det", remote := false, omitted := true }] ∧
      (3 : Int) ≠ 2 - 1 := by
  refine ⟨by decide, ?_⟩
  exact C7_no_self_loops false 2
    [{ headPos := 4, tag := "nsubj", remote := false, omitted := false },
     { headPos := 2, tag := "punct", remote := false, omitted := false },
     { headPos := 5, tag := "det", remote := false, omitted := true }]
    (3, "nsubj", false) (by decide)

/-- A node produced by `read_line` in `generate_graphs`, abstracted to
what `_link_heads` consumes: whether it counts as a head
(`Node.is_head`, default `True`, also for the dummy root) and the
resolved integer head index of each of its incoming edges
(`edge.link_head` resolves copy-reference strings to integers before
indexing; an unresolvable reference raises just like an out-of-range
index, so both are represented by an index outside the heads list). -/
structure GNode where
  isHead : Bool := true
  edgeHeads : List Int := []
deriving DecidableEq, Repr

/-- Whether `heads[i]` raises `IndexError` in Python for a list of the
given length (negative indices wrap from the end). -/
def pyInRange (len : Nat) (i : Int) : Bool :=
  decide ((0 ≤ i ∧ i < (len : Int)) ∨ (i < 0 ∧ -i ≤ (len : Int)))

/-- Whether `_link_heads` (dep.py lines 189-193) raises on this node
list: `heads = [n for n in dep_nodes if n.is_head]`, and some incoming
edge's resolved head index falls outside `heads`. -/
def linkRaises (nodes : List GNode) : Bool :=
  let H := (nodes.filter (fun n => n.isHead)).length
  nodes.any (fun nd => nd.edgeHeads.any (fun i => ! pyInRange H i))

/-- One input line of `generate_graphs`: a comment (optionally carrying a
sentence id from its `sent_id` match), a content line read into a node,
or a blank line. -/
inductive GLine where
  | comment (sid : Option String)
  | token (nd : GNode)
  | blank
deriving DecidableEq, Repr

/-- One observable event of the generator: a produced graph or a
"Skipped passage" report, carrying the current sentence id. -/
inductive OutEvent where
  | graph (sid : Option String)
  | skipped (sid : Option String)
deriving DecidableEq, Repr

/-- The loop of `generate_graphs` (dep.py lines 253-284).  State:
current sentence id and `dep_nodes` (`none` = Python `None`, otherwise
the dummy root followed by the read nodes).  The result pairs the
yielded/reported events, in order, with `some sid` when the run raised
an uncaught exception while linking (the `yield _graph()` at line 272 is
inside try/except; the final one at line 284 is not, and linking a
`None` node list also raises). -/
def ggLoop (split : Bool) :
    List GLine → Option String → Option (List GNode) →
      List OutEvent × Option (Option String)
  | [], sid, nodes =>
    if ¬ split ∨ nodes.isSome then
      match nodes with
      | some ns =>
          if linkRaises ns then ([], some sid) else ([OutEvent.graph sid], none)
      | none => ([], some sid)
    else ([], none)
  | GLine.comment s :: rest, sid, nodes =>
    ggLoop split rest (match s with | some v => some v | none => sid) nodes
  | GLine.token nd :: rest, sid, nodes =>
    ggLoop split rest sid (some ((nodes.getD [{ }]) ++ [nd]))
  | GLine.blank :: rest, sid, nodes =>
    match nodes with
    | some ns =>
        if split then
          let ev := if linkRaises ns then OutEvent.skipped sid else OutEvent.graph sid
          let r := ggLoop split rest none none
          (ev :: r.1, r.2)
        else ggLoop split rest sid nodes
    | none => ggLoop split rest sid nodes

/-- `generate_graphs(lines, split)`, from the initial state
(`sentence_id = dep_nodes = None`). -/
def generateGraphs (split : Bool) (ls : List GLine) :
    List OutEvent × Option (Option String) :=
  ggLoop split ls none none

/-- C6 (amended): only for a sentence terminated by a blank line in
split mode does a linking failure (out-of-range head index /
unresolvable copy-reference) behave as claimed: the graph is not
produced, a "Skipped passage" report carrying the current sentence id is
emitted instead, and generation continues on the remaining lines exactly
as a fresh run (state reset, no abort from this failure).  The final
`yield` (line 284) is outside the try/except, so the last sentence — and
every sentence when `split=False` — propagates the exception instead. -/
theorem C6_skip_reported_midstream (rest : List GLine) (sid : Option String)
    (ns : List GNode) (hFail : linkRaises ns = true) :
    ggLoop true (GLine.blank :: rest) sid (some ns) =
      (OutEvent.skipped sid :: (generateGraphs true rest).1,
       (generateGraphs true rest).2) := by
  rw [ggLoop]
  simp only [hFail, if_true, generateGraphs]

/-- C6 counterexample: with `split=True` and no trailing blank line, a
bad head index in the last sentence aborts the generator (the error
escapes with no "skipped" report and no further processing), because the
final `yield _graph()` at dep.py line 284 is not wrapped in try/except. -/
theorem C6_last_sentence_aborts :
    generateGraphs true
        [GLine.comment (some "s1"), GLine.token { edgeHeads := [(5 : Int)] }] =
      ([], some (some "s1")) := by
  decide

/-- Witness for C6: a failing sentence on a blank-line boundary is
reported as skipped and the run continues. -/
theorem C6_skip_reported_midstream_witness :
    linkRaises [{ }, { edgeHeads := [(5 : Int)] }] = true ∧
    ggLoop true [GLine.blank, GLine.token { }, GLine.blank] (some "s0")
        (some [{ }, { edgeHeads := [(5 : Int)] }]) =
      (OutEvent.skipped (some "s0") ::
          (generateGraphs true [GLine.token { }, GLine.blank]).1,
        (generateGraphs true [GLine.token { }, GLine.blank]).2) :=
  ⟨by decide,
    C6_skip_reported_midstream [GLine.token { }, GLine.blank] (some "s0")
      [{ }, { edgeHeads := [(5 : Int)] }] (by decide)⟩

/-- The head-successor relation walked by `find_cycle` (dep.py line 503):
`n` steps to `e.head` for an edge `e` in `n.incoming`. -/
def SuccStep (st : DepState) (a b : Nat) : Prop :=
  ∃ eid ∈ (st.getNode a).incoming, (st.getEdge eid).head = some b

instance (st : DepState) : DecidableRel (SuccStep st) := by
  intro a b; unfold SuccStep; infer_instance

/-- Every incoming edge of a (real) node has a head reference, and it is a
real node: the precondition for `find_cycle` not to crash on
`None.incoming` (dep.py line 503 with `e.head = None`). -/
def HeadsPresent (st : DepState) : Prop :=
  ∀ k, k < st.nodes.length → ∀ eid ∈ (st.getNode k).incoming,
    ∃ h, (st.getEdge eid).head = some h ∧ h < st.nodes.length

instance : DecidablePred HeadsPresent := by
  intro st; unfold HeadsPresent; infer_instance

/-- A pending call of the `find_cycle` recursion: visiting a node, or
iterating over a node's remaining incoming edges. -/
inductive FcCall where
  | node (n : Nat)
  | edges (eids : List Nat)
deriving DecidableEq, Repr

/-- `find_cycle` (dep.py lines 498-507), with an explicit finish list.
`fcGo st fuel (FcCall.node n) v p F` is `find_cycle(n, v, p)`: `v` is
the visited set and `p` the path set (both insertion-ordered lists);
`FcCall.edges eids` is the `for e in n.incoming` loop over the remaining
edges (dep.py lines 503-505), short-circuiting on `True`.  `F` records
the order in which node visits complete with `False` (a ghost output, it
does not influence control flow).  `none` models a crash (a `None`
head); the structural recursion is on `fuel`, consumed one unit per
call and shown adequate separately. -/
def fcGo (st : DepState) : Nat → FcCall → List Nat → List Nat → List Nat →
    Option (List Nat × List Nat × List Nat × Bool)
  | 0, _, _, _, _ => none
  | fuel + 1, FcCall.node n, v, p, F =>
    if n ∈ v then some (v, p, F, false)
    else
      match fcGo st fuel (FcCall.edges (st.getNode n).incoming) (v ++ [n]) (p ++ [n]) F with
      | none => none
      | some (v2, p2, F2, true) => some (v2, p2, F2, true)
      | some (v2, p2, F2, false) => some (v2, p2.erase n, F2 ++ [n], false)
  | _ + 1, FcCall.edges [], v, p, F => some (v, p, F, false)
  | fuel + 1, FcCall.edges (eid :: rest), v, p, F =>
    match (st.getEdge eid).head with
    | none => none
    | some h =>
      if h ∈ p then some (v, p, F, true)
      else
        match fcGo st fuel (FcCall.node h) v p F with
        | none => none
        | some (v2, p2, F2, true) => some (v2, p2, F2, true)
        | some (v2, p2, F2, false) => fcGo st fuel (FcCall.edges rest) v2 p2 F2

/-- The largest incoming-list length over the real nodes. -/
def maxIncLen (st : DepState) : Nat :=
  ((List.range st.nodes.length).map (fun k => (st.getNode k).incoming.length)).foldr max 0

/-- Fuel that bounds the call depth of the `find_cycle` recursion (each
visited node costs one level plus one per incoming edge). -/
def fcFuel (st : DepState) : Nat :=
  st.nodes.length * (1 + maxIncLen st) + 2

/-- `any(self.find_cycle(dep_node, visited, path) for dep_node in
dep_nodes)` (dep.py line 513): the visited and path sets are shared
across the starting nodes and the scan short-circuits on the first
`True`. -/
def fcScan (st : DepState) (fuel : Nat) :
    List Nat → List Nat → List Nat → List Nat →
      Option (List Nat × List Nat × List Nat × Bool)
  | [], v, p, F => some (v, p, F, false)
  | d :: rest, v, p, F =>
    match fcGo st fuel (FcCall.node d) v p F with
    | none => none
    | some (v2, p2, F2, true) => some (v2, p2, F2, true)
    | some (v2, p2, F2, false) => fcScan st fuel rest v2 p2 F2

/-- The candidate edges of one `break_cycles` iteration (dep.py line
517): every incoming edge of every node on the discovered path (the
Python set `path` is modelled in insertion order; the choice of order is
the model's, CPython's set order is unspecified). -/
def cycleCandidates (st : DepState) (path : List Nat) : List Nat :=
  path.flatMap (fun d => (st.getNode d).incoming)

/-- The numeric rendering of the removal key `(not e.remote, e.rel !=
EdgeTags.Linker)` (dep.py line 518): lexicographic on the two booleans,
`False < True`. -/
def edgeKey (st : DepState) (eid : Nat) : Nat :=
  (if (st.getEdge eid).remote then 0 else 2) +
    (if (st.getEdge eid).rel = linkerTag then 0 else 1)

/-- Python `min` over a nonempty candidate list: the first element of
minimal key (ties keep the earlier element, as `min` does); `none` is
the `ValueError` on an empty sequence. -/
def pickMinEdge (st : DepState) : List Nat → Option Nat
  | [] => none
  | e :: rest =>
    some (rest.foldl (fun best e2 => if edgeKey st e2 < edgeKey st best then e2 else best) e)

/-- The `while True` loop of `break_cycles` (dep.py lines 509-519):
scan for a cycle with fresh visited/path sets; if none, stop; otherwise
remove the minimal-key candidate edge (`edge.remove()`, which clears
both endpoint references through the setters) and repeat.  Returns the
final state and the number of edge-removing iterations; `none` on fuel
exhaustion or a crash. -/
def breakCyclesLoop (nodes : List Nat) : Nat → DepState → Option (DepState × Nat)
  | 0, _ => none
  | fuel + 1, st =>
    match fcScan st (fcFuel st) nodes [] [] [] with
    | none => none
    | some (_, _, _, false) => some (st, 0)
    | some (_, p, _, true) =>
      match pickMinEdge st (cycleCandidates st p) with
      | none => none
      | some m =>
        match breakCyclesLoop nodes fuel (removeEdge st m) with
        | none => none
        | some (st2, its) => some (st2, its + 1)

/-- The sum of the incoming-list lengths over the real nodes: the
termination measure of `break_cycles`. -/
def totalIncoming (st : DepState) : Nat :=
  ((List.range st.nodes.length).map (fun k => (st.getNode k).incoming.length)).sum

/-- `break_cycles(dep_nodes)`, with internally adequate fuel. -/
def breakCycles (st : DepState) (nodes : List Nat) : Option (DepState × Nat) :=
  breakCyclesLoop nodes (totalIncoming st + 1) st

/-- A two-node head cycle below a virtual root (used by claims C3, C4,
C9): edge 0 gives node 1 the head 2, edge 1 gives node 2 the head 1. -/
def c3St : DepState :=
  { nodes :=
      [{ position := 0 },
       { position := 1
         incoming := [0]
         outgoing := [1] },
       { position := 2
         incoming := [1]
         outgoing := [0] }]
    edges :=
      [{ head := some 2
         dependent := some 1
         rel := "conj"
         remote := false
         headIndex := 1 },
       { head := some 1
         dependent := some 2
         rel := "conj"
         remote := false
         headIndex := 0 }] }

lemma c3St_run : breakCycles c3St [1, 2] = some (removeEdge c3St 0, 1) := by
  decide

/-- The finish list is in reverse-topological order: every successor of
a finished node finished strictly earlier. -/
def GoodF (st : DepState) (F : List Nat) : Prop :=
  ∀ m ∈ F, ∀ b, SuccStep st m b → b ∈ F ∧ List.indexOf b F < List.indexOf m F

/-- The invariant tying `find_cycle`'s visited set `v`, path `p` and
finish list `F` together: `v` is exactly the disjoint union of the open
path and the finished nodes, `F` has no duplicates, and the finished
part is reverse-topologically sorted. -/
def DfsInv (st : DepState) (v p F : List Nat) : Prop :=
  (∀ x ∈ p, x ∈ v) ∧ (∀ x ∈ F, x ∈ v) ∧ (∀ x ∈ v, x ∈ p ∨ x ∈ F) ∧
    (∀ x ∈ F, x ∉ p) ∧ F.Nodup ∧ GoodF st F

lemma dfsInv_empty (st : DepState) : DfsInv st [] [] [] := by
  refine ⟨?_, ?_, ?_, ?_, List.nodup_nil, ?_⟩ <;> intro x hx <;> cases hx

lemma erase_append_singleton (p : List Nat) (n : Nat) (h : n ∉ p) :
    (p ++ [n]).erase n = p := by
  rw [List.erase_append_right _ h, List.erase_cons_head, List.append_nil]

lemma dfsInv_push (st : DepState) (v p F : List Nat) (n : Nat)
    (hI : DfsInv st v p F) (hn : n ∉ v) :
    DfsInv st (v ++ [n]) (p ++ [n]) F := by
  obtain ⟨h1, h2, h3, h4, h5, h6⟩ := hI
  refine ⟨?_, ?_, ?_, ?_, h5, h6⟩
  · intro x hx
    rcases List.mem_append.mp hx with hx | hx
    · exact List.mem_append.mpr (Or.inl (h1 x hx))
    · exact List.mem_append.mpr (Or.inr hx)
  · intro x hx
    exact List.mem_append.mpr (Or.inl (h2 x hx))
  · intro x hx
    rcases List.mem_append.mp hx with hx | hx
    · rcases h3 x hx with hx2 | hx2
      · exact Or.inl (List.mem_append.mpr (Or.inl hx2))
      · exact Or.inr hx2
    · exact Or.inl (List.mem_append.mpr (Or.inr hx))
  · intro x hx hx2
    rcases List.mem_append.mp hx2 with hx2 | hx2
    · exact h4 x hx hx2
    · rcases List.mem_singleton.mp hx2 with rfl
      exact hn (h2 x hx)

lemma goodF_append (st : DepState) (F : List Nat) (n : Nat)
    (hG : GoodF st F) (hn : n ∉ F)
    (hsucc : ∀ b, SuccStep st n b → b ∈ F) :
    GoodF st (F ++ [n]) := by
  intro m hm b hb
  rcases List.mem_append.mp hm with hm | hm
  · obtain ⟨hbF, hlt⟩ := hG m hm b hb
    refine ⟨List.mem_append.mpr (Or.inl hbF), ?_⟩
    rw [List.indexOf_append_of_mem hbF, List.indexOf_append_of_mem hm]
    exact hlt
  · rcases List.mem_singleton.mp hm with rfl
    have hbF := hsucc b hb
    refine ⟨List.mem_append.mpr (Or.inl hbF), ?_⟩
    rw [List.indexOf_append_of_mem hbF, List.indexOf_append_of_not_mem hn,
      List.indexOf_cons_self]
    exact Nat.lt_of_lt_of_le (List.indexOf_lt_length.mpr hbF)
      (Nat.le_add_right F.length 0)

/-- Closing a node visit: the path shrinks back and the node joins the
finish list. -/
lemma dfsInv_pop (st : DepState) (v p F : List Nat) (n : Nat)
    (hI : DfsInv st v (p ++ [n]) F) (hn : n ∉ p)
    (hsucc : ∀ b, SuccStep st n b → b ∈ F) :
    DfsInv st v p (F ++ [n]) := by
  obtain ⟨h1, h2, h3, h4, h5, h6⟩ := hI
  have hnF : n ∉ F := fun hc => h4 n hc (List.mem_append.mpr (Or.inr (List.mem_singleton.mpr rfl)))
  refine ⟨?_, ?_, ?_, ?_, ?_, ?_⟩
  · intro x hx
    exact h1 x (List.mem_append.mpr (Or.inl hx))
  · intro x hx
    rcases List.mem_append.mp hx with hx | hx
    · exact h2 x hx
    · rcases List.mem_singleton.mp hx with rfl
      exact h1 x (List.mem_append.mpr (Or.inr (List.mem_singleton.mpr rfl)))
  · intro x hx
    rcases h3 x hx with hx2 | hx2
    · rcases List.mem_append.mp hx2 with hx2 | hx2
      · exact Or.inl hx2
      · exact Or.inr (List.mem_append.mpr (Or.inr hx2))
    · exact Or.inr (List.mem_append.mpr (Or.inl hx2))
  · intro x hx hx2
    rcases List.mem_append.mp hx with hx | hx
    · exact h4 x hx (List.mem_append.mpr (Or.inl hx2))
    · rcases List.mem_singleton.mp hx with rfl
      exact hn hx2
  · exact List.Nodup.append h5 (List.nodup_singleton n)
      (by intro x hx hx2; rcases List.mem_singleton.mp hx2 with rfl; exact hnF hx)
  · exact goodF_append st F n h6 hnF hsucc

/-- Precondition of a `find_cycle` call: a node visit is only started on
a node not currently on the path (checked by the caller). -/
def fcPre (p : List Nat) : FcCall → Prop
  | FcCall.node n => n ∉ p
  | FcCall.edges _ => True

/-- What a `False`-returning call guarantees about the finish list: the
visited node finished, respectively every head of the processed edges
finished. -/
def fcPost (st : DepState) (F2 : List Nat) : FcCall → Prop
  | FcCall.node n => n ∈ F2
  | FcCall.edges eids =>
      ∀ eid ∈ eids, ∀ h, (st.getEdge eid).head = some h → h ∈ F2

lemma fcGo_false_post (st : DepState) :
    ∀ (fuel : Nat) (call : FcCall) (v p F v2 p2 F2 : List Nat),
      DfsInv st v p F → fcPre p call →
      fcGo st fuel call v p F = some (v2, p2, F2, false) →
      p2 = p ∧ (∀ x ∈ F, x ∈ F2) ∧ (∀ x ∈ v, x ∈ v2) ∧
        DfsInv st v2 p F2 ∧ fcPost st F2 call := by
  intro fuel
  induction fuel with
  | zero => intro call v p F v2 p2 F2 _ _ heq; cases heq
  | succ fuel ih =>
      intro call v p F v2 p2 F2 hI hPre heq
      match call with
      | FcCall.node n =>
          rw [fcGo] at heq
          by_cases hv : n ∈ v
          · rw [if_pos hv] at heq
            obtain ⟨rfl, rfl, rfl, -⟩ :=
              Prod.mk.injEq .. ▸ (Option.some.injEq .. ▸ heq :)
            refine ⟨rfl, fun x hx => hx, fun x hx => hx, hI, ?_⟩
            rcases hI.2.2.1 n hv with hc | hc
            · exact absurd hc hPre
            · exact hc
          · rw [if_neg hv] at heq
            cases hrec : fcGo st fuel (FcCall.edges (st.getNode n).incoming)
                (v ++ [n]) (p ++ [n]) F with
            | none => rw [hrec] at heq; cases heq
            | some r =>
                obtain ⟨v3, p3, F3, b⟩ := r
                rw [hrec] at heq
                cases b with
                | true => simp only [] at heq; cases heq
                | false =>
                    simp only [Option.some.injEq, Prod.mk.injEq] at heq
                    obtain ⟨rfl, rfl, rfl, -⟩ := heq
                    have hIp := dfsInv_push st v p F n hI hv
                    obtain ⟨hp3, hF3, hv3, hI3, hPost3⟩ :=
                      ih (FcCall.edges (st.getNode n).incoming)
                        (v ++ [n]) (p ++ [n]) F v3 p3 F3 hIp trivial hrec
                    subst hp3
                    have hsucc : ∀ b2, SuccStep st n b2 → b2 ∈ F3 := by
                      intro b2 hb2
                      obtain ⟨eid, he, hh⟩ := hb2
                      exact hPost3 eid he b2 hh
                    refine ⟨erase_append_singleton p n hPre, ?_, ?_, ?_, ?_⟩
                    · intro x hx
                      exact List.mem_append.mpr (Or.inl (hF3 x hx))
                    · intro x hx
                      exact hv3 x (List.mem_append.mpr (Or.inl hx))
                    · exact dfsInv_pop st v3 p F3 n hI3 hPre hsucc
                    · exact List.mem_append.mpr
                        (Or.inr (List.mem_singleton.mpr rfl))
      | FcCall.edges [] =>
          rw [fcGo] at heq
          obtain ⟨rfl, rfl, rfl, -⟩ :=
            Prod.mk.injEq .. ▸ (Option.some.injEq .. ▸ heq :)
          exact ⟨rfl, fun x hx => hx, fun x hx => hx, hI,
            fun eid he => absurd he (List.not_mem_nil eid)⟩
      | FcCall.edges (eid :: rest) =>
          rw [fcGo] at heq
          cases hh : (st.getEdge eid).head with
          | none => rw [hh] at heq; cases heq
          | some h =>
              rw [hh] at heq
              dsimp only at heq
              by_cases hp : h ∈ p
              · rw [if_pos hp] at heq
                simp only [Option.some.injEq, Prod.mk.injEq] at heq
                obtain ⟨-, -, -, hcontra⟩ := heq
                cases hcontra
              · rw [if_neg hp] at heq
                cases hrec : fcGo st fuel (FcCall.node h) v p F with
                | none => rw [hrec] at heq; cases heq
                | some r =>
                    obtain ⟨v4, p4, F4, b⟩ := r
                    rw [hrec] at heq
                    cases b with
                    | true => simp only [] at heq; cases heq
                    | false =>
                        obtain ⟨hp4, hF4, hv4, hI4, hPost4⟩ :=
                          ih (FcCall.node h) v p F v4 p4 F4 hI hp hrec
                        rw [hp4] at heq
                        obtain ⟨hp2, hF2, hv2, hI2, hPost2⟩ :=
                          ih (FcCall.edges rest) v4 p F4 v2 p2 F2 hI4 trivial heq
                        refine ⟨hp2, fun x hx => hF2 x (hF4 x hx),
                          fun x hx => hv2 x (hv4 x hx), hI2, ?_⟩
                        intro e2 he2 h2 hh2
                        rcases List.mem_cons.mp he2 with rfl | he2
                        · rw [hh, Option.some.injEq] at hh2
                          rw [← hh2]
                          exact hF2 h hPost4
                        · exact hPost2 e2 he2 h2 hh2

/-- Precondition for the `True` analysis: an edge-loop call only
iterates over (a suffix of) the incoming list of some node on the
path. -/
def fcEdgesOnPath (st : DepState) (p : List Nat) : FcCall → Prop
  | FcCall.node _ => True
  | FcCall.edges eids => ∃ d, d ∈ p ∧ ∀ eid ∈ eids, eid ∈ (st.getNode d).incoming

lemma fcGo_true_post (st : DepState) :
    ∀ (fuel : Nat) (call : FcCall) (v p F v2 p2 F2 : List Nat),
      DfsInv st v p F → fcEdgesOnPath st p call →
      fcGo st fuel call v p F = some (v2, p2, F2, true) →
      ∃ d ∈ p2, (st.getNode d).incoming ≠ [] := by
  intro fuel
  induction fuel with
  | zero => intro call v p F v2 p2 F2 _ _ heq; cases heq
  | succ fuel ih =>
      intro call v p F v2 p2 F2 hI hPre heq
      match call with
      | FcCall.node n =>
          rw [fcGo] at heq
          by_cases hv : n ∈ v
          · rw [if_pos hv] at heq
            simp only [Option.some.injEq, Prod.mk.injEq] at heq
            obtain ⟨-, -, -, hcontra⟩ := heq
            cases hcontra
          · rw [if_neg hv] at heq
            cases hrec : fcGo st fuel (FcCall.edges (st.getNode n).incoming)
                (v ++ [n]) (p ++ [n]) F with
            | none => rw [hrec] at heq; cases heq
            | some r =>
                obtain ⟨v3, p3, F3, b⟩ := r
                rw [hrec] at heq
                cases b with
                | false =>
                    simp only [Option.some.injEq, Prod.mk.injEq] at heq
                    obtain ⟨-, -, -, hcontra⟩ := heq
                    cases hcontra
                | true =>
                    simp only [Option.some.injEq, Prod.mk.injEq] at heq
                    obtain ⟨rfl, rfl, rfl, -⟩ := heq
                    refine ih (FcCall.edges (st.getNode n).incoming)
                      (v ++ [n]) (p ++ [n]) F _ _ _
                      (dfsInv_push st v p F n hI hv) ?_ hrec
                    exact ⟨n, List.mem_append.mpr
                      (Or.inr (List.mem_singleton.mpr rfl)), fun eid he => he⟩
      | FcCall.edges [] =>
          rw [fcGo] at heq
          simp only [Option.some.injEq, Prod.mk.injEq] at heq
          obtain ⟨-, -, -, hcontra⟩ := heq
          cases hcontra
      | FcCall.edges (eid :: rest) =>
          rw [fcGo] at heq
          obtain ⟨d, hd, hsub⟩ := hPre
          cases hh : (st.getEdge eid).head with
          | none => rw [hh] at heq; cases heq
          | some h =>
              rw [hh] at heq
              dsimp only at heq
              by_cases hp : h ∈ p
              · rw [if_pos hp] at heq
                simp only [Option.some.injEq, Prod.mk.injEq] at heq
                obtain ⟨-, rfl, -, -⟩ := heq
                exact ⟨d, hd, List.ne_nil_of_mem
                  (hsub eid (List.mem_cons_self eid rest))⟩
              · rw [if_neg hp] at heq
                cases hrec : fcGo st fuel (FcCall.node h) v p F with
                | none => rw [hrec] at heq; cases heq
                | some r =>
                    obtain ⟨v4, p4, F4, b⟩ := r
                    rw [hrec] at heq
                    cases b with
                    | true =>
                        simp only [Option.some.injEq, Prod.mk.injEq] at heq
                        obtain ⟨rfl, rfl, rfl, -⟩ := heq
                        exact ih (FcCall.node h) v p F _ _ _ hI trivial hrec
                    | false =>
                        obtain ⟨hp4, -, -, hI4, -⟩ :=
                          fcGo_false_post st fuel (FcCall.node h) v p F
                            v4 p4 F4 hI hp hrec
                        rw [hp4] at heq
                        exact ih (FcCall.edges rest) v4 p F4 v2 p2 F2 hI4
                          ⟨d, hd, fun e2 he2 =>
                            hsub e2 (List.mem_cons_of_mem eid he2)⟩ heq

lemma fcScan_false_post (st : DepState) (fuel : Nat) :
    ∀ (nodes v p F v2 p2 F2 : List Nat),
      DfsInv st v p F →
      fcScan st fuel nodes v p F = some (v2, p2, F2, false) →
      p2 = p ∧ DfsInv st v2 p F2 ∧ (∀ x ∈ F, x ∈ F2) ∧
        (∀ d ∈ nodes, d ∉ p → d ∈ F2) := by
  intro nodes
  induction nodes with
  | nil =>
      intro v p F v2 p2 F2 hI heq
      rw [fcScan] at heq
      simp only [Option.some.injEq, Prod.mk.injEq] at heq
      obtain ⟨rfl, rfl, rfl, -⟩ := heq
      exact ⟨rfl, hI, fun x hx => hx, fun d hd => absurd hd (List.not_mem_nil d)⟩
  | cons d rest ih =>
      intro v p F v2 p2 F2 hI heq
      rw [fcScan] at heq
      cases hrec : fcGo st fuel (FcCall.node d) v p F with
      | none => rw [hrec] at heq; cases heq
      | some r =>
          obtain ⟨v3, p3, F3, b⟩ := r
          rw [hrec] at heq
          cases b with
          | true => simp only [] at heq; cases heq
          | false =>
              by_cases hdp : d ∈ p
              · have hstay : p3 = p ∧ F3 = F ∧ v3 = v := by
                  cases fuel with
                  | zero => rw [fcGo] at hrec; cases hrec
                  | succ fuel2 =>
                      rw [fcGo] at hrec
                      rw [if_pos (hI.1 d hdp)] at hrec
                      simp only [Option.some.injEq, Prod.mk.injEq] at hrec
                      exact ⟨hrec.2.1.symm, hrec.2.2.1.symm, hrec.1.symm⟩
                obtain ⟨rfl, rfl, rfl⟩ := hstay
                obtain ⟨hp2, hI2, hF2, hrest⟩ := ih _ _ _ _ _ _ hI heq
                exact ⟨hp2, hI2, hF2, fun d2 hd2 hd2p => by
                  rcases List.mem_cons.mp hd2 with rfl | hd2
                  · exact absurd hdp hd2p
                  · exact hrest d2 hd2 hd2p⟩
              · obtain ⟨hp3, hF3, -, hI3, hPost3⟩ :=
                  fcGo_false_post st fuel (FcCall.node d) v p F v3 p3 F3 hI hdp hrec
                rw [hp3] at heq
                obtain ⟨hp2, hI2, hF2, hrest⟩ := ih v3 p F3 v2 p2 F2 hI3 heq
                refine ⟨hp2, hI2, fun x hx => hF2 x (hF3 x hx), ?_⟩
                intro d2 hd2 hd2p
                rcases List.mem_cons.mp hd2 with rfl | hd2
                · exact hF2 d2 hPost3
                · exact hrest d2 hd2 hd2p

lemma fcScan_true_post (st : DepState) (fuel : Nat) :
    ∀ (nodes v p F v2 p2 F2 : List Nat),
      DfsInv st v p F →
      fcScan st fuel nodes v p F = some (v2, p2, F2, true) →
      ∃ d ∈ p2, (st.getNode d).incoming ≠ [] := by
  intro nodes
  induction nodes with
  | nil =>
      intro v p F v2 p2 F2 _ heq
      rw [fcScan] at heq
      simp only [Option.some.injEq, Prod.mk.injEq] at heq
      obtain ⟨-, -, -, hcontra⟩ := heq
      cases hcontra
  | cons d rest ih =>
      intro v p F v2 p2 F2 hI heq
      rw [fcScan] at heq
      cases hrec : fcGo st fuel (FcCall.node d) v p F with
      | none => rw [hrec] at heq; cases heq
      | some r =>
          obtain ⟨v3, p3, F3, b⟩ := r
          rw [hrec] at heq
          cases b with
          | true =>
              simp only [Option.some.injEq, Prod.mk.injEq] at heq
              obtain ⟨rfl, rfl, rfl, -⟩ := heq
              exact fcGo_true_post st fuel (FcCall.node d) v p F _ _ _ hI
                trivial hrec
          | false =>
              by_cases hdp : d ∈ p
              · have hstay : p3 = p ∧ F3 = F ∧ v3 = v := by
                  cases fuel with
                  | zero => rw [fcGo] at hrec; cases hrec
                  | succ fuel2 =>
                      rw [fcGo] at hrec
                      rw [if_pos (hI.1 d hdp)] at hrec
                      simp only [Option.some.injEq, Prod.mk.injEq] at hrec
                      exact ⟨hrec.2.1.symm, hrec.2.2.1.symm, hrec.1.symm⟩
                obtain ⟨rfl, rfl, rfl⟩ := hstay
                exact ih _ _ _ _ _ _ hI heq
              · obtain ⟨hp3, -, -, hI3, -⟩ :=
                  fcGo_false_post st fuel (FcCall.node d) v p F v3 p3 F3 hI hdp hrec
                rw [hp3] at heq
                exact ih v3 p F3 v2 p2 F2 hI3 heq

lemma goodF_rank (st : DepState) (F : List Nat) (hG : GoodF st F) :
    ∀ a b, Relation.TransGen (SuccStep st) a b → a ∈ F →
      b ∈ F ∧ List.indexOf b F < List.indexOf a F := by
  intro a b hT
  induction hT with
  | single h => intro ha; exact hG a ha _ h
  | tail hT h ih =>
      intro ha
      obtain ⟨hb, hlt⟩ := ih ha
      obtain ⟨hc, hlt2⟩ := hG _ hb _ h
      exact ⟨hc, Nat.lt_trans hlt2 hlt⟩

lemma goodF_no_cycle (st : DepState) (F : List Nat) (hG : GoodF st F)
    (n : Nat) (hn : n ∈ F) : ¬ Relation.TransGen (SuccStep st) n n := by
  intro hT
  exact absurd (goodF_rank st F hG n n hT hn).2 (Nat.lt_irrefl _)

lemma breakCyclesLoop_acyclic (nodes : List Nat) :
    ∀ (fuel : Nat) (st st2 : DepState) (its : Nat),
      breakCyclesLoop nodes fuel st = some (st2, its) →
      ∀ n ∈ nodes, ¬ Relation.TransGen (SuccStep st2) n n := by
  intro fuel
  induction fuel with
  | zero => intro st st2 its heq; cases heq
  | succ fuel ih =>
      intro st st2 its heq
      rw [breakCyclesLoop] at heq
      cases hscan : fcScan st (fcFuel st) nodes [] [] [] with
      | none => rw [hscan] at heq; cases heq
      | some r =>
          obtain ⟨v2, p2, F2, b⟩ := r
          rw [hscan] at heq
          cases b with
          | false =>
              simp only [Option.some.injEq, Prod.mk.injEq] at heq
              obtain ⟨rfl, -⟩ := heq
              obtain ⟨-, hI2, -, hAll⟩ :=
                fcScan_false_post st (fcFuel st) nodes [] [] [] v2 p2 F2
                  (dfsInv_empty st) hscan
              intro n hn
              exact goodF_no_cycle st F2 hI2.2.2.2.2.2 n
                (hAll n hn (List.not_mem_nil n))
          | true =>
              dsimp only at heq
              cases hmin : pickMinEdge st (cycleCandidates st p2) with
              | none => rw [hmin] at heq; cases heq
              | some m =>
                  rw [hmin] at heq
                  dsimp only at heq
                  cases hrec : breakCyclesLoop nodes fuel (removeEdge st m) with
                  | none => rw [hrec] at heq; cases heq
                  | some r2 =>
                      obtain ⟨st3, its3⟩ := r2
                      rw [hrec] at heq
                      simp only [Option.some.injEq, Prod.mk.injEq] at heq
                      obtain ⟨rfl, -⟩ := heq
                      exact ih (removeEdge st m) _ _ hrec

/-- C3: whenever `break_cycles` returns (fuel sufficiency is claim C9),
no node of the input list can reach itself by repeatedly following an
incoming edge to its head: the final head relation is cycle-free on the
given nodes. -/
theorem C3_break_cycles_acyclic (st : DepState) (nodes : List Nat)
    (st2 : DepState) (its : Nat)
    (hrun : breakCycles st nodes = some (st2, its)) :
    ∀ n ∈ nodes, ¬ Relation.TransGen (SuccStep st2) n n :=
  breakCyclesLoop_acyclic nodes (totalIncoming st + 1) st st2 its hrun

/-- Witness for C3 at the two-node cycle `c3St`: the run completes after
one removal and neither node can reach itself any more. -/
theorem C3_break_cycles_acyclic_witness :
    breakCycles c3St [1, 2] = some (removeEdge c3St 0, 1) ∧
      ¬ Relation.TransGen (SuccStep (removeEdge c3St 0)) 1 1 :=
  ⟨by decide,
    C3_break_cycles_acyclic c3St [1, 2] (removeEdge c3St 0) 1 (by decide) 1
      (by decide)⟩

/-- The number of real nodes not yet visited: the quantity that bounds
how much deeper the `find_cycle` recursion can grow. -/
def freeCount (st : DepState) (v : List Nat) : Nat :=
  ((List.range st.nodes.length).filter (fun m => decide (m ∉ v))).length

/-- Fuel cost request of a pending call (beyond the per-free-node
budget). -/
def fcCost : FcCall → Nat
  | FcCall.node _ => 1
  | FcCall.edges eids => eids.length + 1

/-- Heads are available (and real) for the edges a pending call still has
to process. -/
def fcHeadsOkPre (st : DepState) : FcCall → Prop
  | FcCall.node _ => True
  | FcCall.edges eids =>
      ∀ eid ∈ eids, ∃ h, (st.getEdge eid).head = some h ∧ h < st.nodes.length

lemma le_foldr_max (l : List Nat) (x : Nat) (hx : x ∈ l) : x ≤ l.foldr max 0 := by
  induction l with
  | nil => cases hx
  | cons a t ih =>
      rcases List.mem_cons.mp hx with rfl | hx
      · exact le_max_left _ _
      · exact Nat.le_trans (ih hx) (le_max_right a _)

lemma incLen_le_maxIncLen (st : DepState) (k : Nat) (hk : k < st.nodes.length) :
    ((st.getNode k).incoming).length ≤ maxIncLen st := by
  unfold maxIncLen
  exact le_foldr_max _ _ (List.mem_map.mpr ⟨k, List.mem_range.mpr hk, rfl⟩)

lemma freeCount_le (st : DepState) (v : List Nat) :
    freeCount st v ≤ st.nodes.length := by
  unfold freeCount
  calc ((List.range st.nodes.length).filter (fun m => decide (m ∉ v))).length
      ≤ (List.range st.nodes.length).length := List.length_filter_le _ _
    _ = st.nodes.length := List.length_range _

lemma freeCount_pos (st : DepState) (v : List Nat) (n : Nat)
    (hn : n < st.nodes.length) (hnv : n ∉ v) : 1 ≤ freeCount st v := by
  have hmem : n ∈ (List.range st.nodes.length).filter (fun m => decide (m ∉ v)) :=
    List.mem_filter.mpr ⟨List.mem_range.mpr hn, by simpa using hnv⟩
  exact List.length_pos.mpr (List.ne_nil_of_mem hmem)

lemma filter_notmem_append (l v : List Nat) (n : Nat) (hnl : n ∉ l) :
    l.filter (fun m => decide (m ∉ v ++ [n])) = l.filter (fun m => decide (m ∉ v)) := by
  apply List.filter_congr
  intro m hm
  have hmn : m ≠ n := fun hc => hnl (hc ▸ hm)
  simp [List.mem_append, hmn]

lemma length_filter_remove (v : List Nat) (n : Nat) :
    ∀ (l : List Nat), n ∈ l → l.Nodup → n ∉ v →
      (l.filter (fun m => decide (m ∉ v ++ [n]))).length + 1 =
        (l.filter (fun m => decide (m ∉ v))).length := by
  intro l
  induction l with
  | nil => intro hl; cases hl
  | cons a t ih =>
      intro hl hnd hnv
      rcases List.mem_cons.mp hl with rfl | hl2
      · rw [List.filter_cons, List.filter_cons]
        have h1 : decide (n ∉ v ++ [n]) = false := by simp
        have h2 : decide (n ∉ v) = true := by simpa using hnv
        rw [h1, h2]
        have hat : n ∉ t := (List.nodup_cons.mp hnd).1
        rw [filter_notmem_append t v n hat]
        simp [Nat.add_comm]
      · have hat : a ∉ t := (List.nodup_cons.mp hnd).1
        have hane : a ≠ n := fun hc => hat (hc ▸ hl2)
        rw [List.filter_cons, List.filter_cons]
        have heqd : decide (a ∉ v ++ [n]) = decide (a ∉ v) := by
          simp [List.mem_append, hane]
        rw [heqd]
        have hrec := ih hl2 (List.nodup_cons.mp hnd).2 hnv
        cases hdec : decide (a ∉ v)
        · simp only [Bool.false_eq_true, if_false]
          exact hrec
        · simp only [if_true, List.length_cons]
          omega

lemma freeCount_append_mem (st : DepState) (v : List Nat) (n : Nat)
    (hn : n < st.nodes.length) (hnv : n ∉ v) :
    freeCount st (v ++ [n]) + 1 = freeCount st v :=
  length_filter_remove v n (List.range st.nodes.length)
    (List.mem_range.mpr hn) (List.nodup_range _) hnv

lemma freeCount_append_not_lt (st : DepState) (v : List Nat) (n : Nat)
    (hn : st.nodes.length ≤ n) :
    freeCount st (v ++ [n]) = freeCount st v := by
  unfold freeCount
  rw [filter_notmem_append]
  intro hc
  exact absurd (List.mem_range.mp hc) (Nat.not_lt.mpr hn)

lemma length_filter_mono (p q : Nat → Bool)
    (hpq : ∀ a, q a = true → p a = true) :
    ∀ (l : List Nat), (l.filter q).length ≤ (l.filter p).length := by
  intro l
  induction l with
  | nil => exact Nat.le_refl 0
  | cons a t ih =>
      rw [List.filter_cons, List.filter_cons]
      cases hq : q a with
      | true =>
          rw [hpq a hq]
          simpa using ih
      | false =>
          cases hp : p a <;> simp <;> omega

lemma freeCount_mono (st : DepState) (v v2 : List Nat)
    (hsub : ∀ x ∈ v, x ∈ v2) : freeCount st v2 ≤ freeCount st v := by
  apply length_filter_mono
  intro a ha
  simp only [decide_eq_true_eq] at ha ⊢
  exact fun hc => ha (hsub a hc)

lemma fcGo_adequate (st : DepState) (hHP : HeadsPresent st) :
    ∀ (fuel : Nat) (call : FcCall) (v p F : List Nat),
      fcHeadsOkPre st call →
      freeCount st v * (1 + maxIncLen st) + fcCost call + 1 ≤ fuel →
      ∃ r, fcGo st fuel call v p F = some r ∧ (∀ x ∈ v, x ∈ r.1) ∧
        freeCount st r.1 ≤ freeCount st v := by
  intro fuel
  induction fuel with
  | zero => intro call v p F _ hB; omega
  | succ fuel ih =>
      intro call v p F hPre hB
      match call with
      | FcCall.node n =>
          by_cases hv : n ∈ v
          · refine ⟨(v, p, F, false), ?_, fun x hx => hx, Nat.le_refl _⟩
            rw [fcGo, if_pos hv]
          · by_cases hnN : n < st.nodes.length
            · have hpre2 : fcHeadsOkPre st (FcCall.edges (st.getNode n).incoming) :=
                fun eid he => hHP n hnN eid he
              have hfc := freeCount_append_mem st v n hnN hv
              have hlen := incLen_le_maxIncLen st n hnN
              have hmul : freeCount st v * (1 + maxIncLen st) =
                  freeCount st (v ++ [n]) * (1 + maxIncLen st) + (1 + maxIncLen st) := by
                rw [← hfc, Nat.succ_mul]
              have hbound : freeCount st (v ++ [n]) * (1 + maxIncLen st) +
                  fcCost (FcCall.edges (st.getNode n).incoming) + 1 ≤ fuel := by
                simp only [fcCost] at hB ⊢
                omega
              obtain ⟨r, hr, hmon, hfree⟩ :=
                ih (FcCall.edges (st.getNode n).incoming) (v ++ [n]) (p ++ [n]) F
                  hpre2 hbound
              obtain ⟨v3, p3, F3, b⟩ := r
              have hmon2 : ∀ x ∈ v, x ∈ v3 :=
                fun x hx => hmon x (List.mem_append.mpr (Or.inl hx))
              have hfree2 : freeCount st v3 ≤ freeCount st v :=
                Nat.le_trans hfree
                  (freeCount_mono st v (v ++ [n])
                    (fun x hx => List.mem_append.mpr (Or.inl hx)))
              cases b with
              | true =>
                  refine ⟨(v3, p3, F3, true), ?_, hmon2, hfree2⟩
                  rw [fcGo, if_neg hv, hr]
              | false =>
                  refine ⟨(v3, p3.erase n, F3 ++ [n], false), ?_, hmon2, hfree2⟩
                  rw [fcGo, if_neg hv, hr]
            · have hinc : (st.getNode n).incoming = [] := by
                rw [getNode_eq_default st (Nat.le_of_not_lt hnN), default_depNode]
              cases fuel with
              | zero => simp only [fcCost] at hB; omega
              | succ f2 =>
                  refine ⟨(v ++ [n], (p ++ [n]).erase n, F ++ [n], false), ?_, ?_, ?_⟩
                  · rw [fcGo, if_neg hv, hinc, fcGo]
                  · intro x hx
                    exact List.mem_append.mpr (Or.inl hx)
                  · rw [freeCount_append_not_lt st v n (Nat.le_of_not_lt hnN)]
      | FcCall.edges [] =>
          refine ⟨(v, p, F, false), ?_, fun x hx => hx, Nat.le_refl _⟩
          rw [fcGo]
      | FcCall.edges (eid :: rest) =>
          obtain ⟨h, hh, hhN⟩ := hPre eid (List.mem_cons_self eid rest)
          by_cases hp : h ∈ p
          · refine ⟨(v, p, F, true), ?_, fun x hx => hx, Nat.le_refl _⟩
            rw [fcGo, hh]
            dsimp only
            rw [if_pos hp]
          · have hbn : freeCount st v * (1 + maxIncLen st) +
                fcCost (FcCall.node h) + 1 ≤ fuel := by
              simp only [fcCost, List.length_cons] at hB ⊢
              omega
            obtain ⟨r4, hr4, hmon4, hfree4⟩ :=
              ih (FcCall.node h) v p F trivial hbn
            obtain ⟨v4, p4, F4, b⟩ := r4
            dsimp only at hmon4 hfree4
            cases b with
            | true =>
                refine ⟨(v4, p4, F4, true), ?_, hmon4, hfree4⟩
                rw [fcGo, hh]
                dsimp only
                rw [if_neg hp, hr4]
            | false =>
                have hpre2 : fcHeadsOkPre st (FcCall.edges rest) :=
                  fun e2 he2 => hPre e2 (List.mem_cons_of_mem eid he2)
                have hbr : freeCount st v4 * (1 + maxIncLen st) +
                    fcCost (FcCall.edges rest) + 1 ≤ fuel := by
                  have hmm := Nat.mul_le_mul_right (1 + maxIncLen st) hfree4
                  simp only [fcCost, List.length_cons] at hB ⊢
                  omega
                obtain ⟨r2, hr2, hmon2, hfree2⟩ :=
                  ih (FcCall.edges rest) v4 p4 F4 hpre2 hbr
                refine ⟨r2, ?_, fun x hx => hmon2 x (hmon4 x hx),
                  Nat.le_trans hfree2 hfree4⟩
                rw [fcGo, hh]
                dsimp only
                rw [if_neg hp, hr4]
                exact hr2

lemma fcScan_adequate (st : DepState) (hHP : HeadsPresent st) :
    ∀ (nodes v p F : List Nat),
      ∃ r, fcScan st (fcFuel st) nodes v p F = some r := by
  intro nodes
  induction nodes with
  | nil =>
      intro v p F
      exact ⟨(v, p, F, false), by rw [fcScan]⟩
  | cons d rest ih =>
      intro v p F
      have hfc := freeCount_le st v
      have hmul := Nat.mul_le_mul_right (1 + maxIncLen st) hfc
      have hbound : freeCount st v * (1 + maxIncLen st) +
          fcCost (FcCall.node d) + 1 ≤ fcFuel st := by
        simp only [fcCost]
        unfold fcFuel
        omega
      obtain ⟨r, hr, -, -⟩ :=
        fcGo_adequate st hHP (fcFuel st) (FcCall.node d) v p F trivial hbound
      obtain ⟨v2, p2, F2, b⟩ := r
      cases b with
      | true =>
          refine ⟨(v2, p2, F2, true), ?_⟩
          rw [fcScan, hr]
      | false =>
          obtain ⟨r2, hr2⟩ := ih v2 p2 F2
          refine ⟨r2, ?_⟩
          rw [fcScan, hr]
          exact hr2

lemma sum_range_map_pred (f g : Nat → Nat) :
    ∀ (N : Nat) (d : Nat), d < N →
      (∀ k, k < N → k ≠ d → f k = g k) → f d + 1 = g d →
      ((List.range N).map f).sum + 1 = ((List.range N).map g).sum := by
  intro N
  induction N with
  | zero => intro d hd; exact absurd hd (Nat.not_lt_zero d)
  | succ N ih =>
      intro d hd hne hfd
      rw [List.range_succ, List.map_append, List.map_append,
        List.sum_append, List.sum_append]
      simp only [List.map_cons, List.map_nil, List.sum_cons, List.sum_nil]
      by_cases hdN : d = N
      · subst hdN
        have hmap : (List.range d).map f = (List.range d).map g :=
          List.map_congr_left (fun k hk =>
            hne k (Nat.lt_succ_of_lt (List.mem_range.mp hk))
              (Nat.ne_of_lt (List.mem_range.mp hk)))
        rw [hmap]
        omega
      · have hdN2 : d < N := Nat.lt_of_le_of_ne (Nat.le_of_lt_succ hd) hdN
        have hrec := ih d hdN2
          (fun k hk hkd => hne k (Nat.lt_succ_of_lt hk) hkd) hfd
        have hfN : f N = g N := hne N (Nat.lt_succ_self N) (fun hc => hdN hc.symm)
        omega

lemma dependent_of_mem_incoming (st : DepState) (hC : Consistent st)
    (d m : Nat) (hm : m ∈ (st.getNode d).incoming) :
    (st.getEdge m).dependent = some d ∧ m < st.edges.length ∧
      d < st.nodes.length := by
  have hdN : d < st.nodes.length := by
    by_contra hcon
    rw [getNode_eq_default st (Nat.le_of_not_lt hcon), default_depNode] at hm
    cases hm
  have hmE : m < st.edges.length := (hC.1 d hdN).2.2.2 m hm
  exact ⟨((hC.2 d hdN m hmE).2).mp hm, hmE, hdN⟩

lemma totalIncoming_removeEdge (st : DepState) (hC : Consistent st)
    (m d : Nat) (hm : m ∈ (st.getNode d).incoming) :
    totalIncoming (removeEdge st m) + 1 = totalIncoming st := by
  obtain ⟨hdep, hmE, hdN⟩ := dependent_of_mem_incoming st hC d m hm
  unfold totalIncoming
  rw [nodesLength_removeEdge]
  apply sum_range_map_pred _ _ st.nodes.length d hdN
  · intro k hk hkd
    rw [incoming_removeEdge]
    rw [if_neg]
    rw [hdep]
    intro hcon
    injection hcon with hcon2
    exact hkd hcon2.symm
  · rw [incoming_removeEdge, if_pos hdep]
    exact List.length_erase_add_one hm

lemma headsPresent_removeEdge (st : DepState) (hC : Consistent st)
    (hHP : HeadsPresent st) (m : Nat) : HeadsPresent (removeEdge st m) := by
  intro k hk eid he
  rw [nodesLength_removeEdge] at hk
  rw [incoming_removeEdge] at he
  have hmem : eid ∈ (st.getNode k).incoming ∧ eid ≠ m := by
    by_cases hdep : (st.getEdge m).dependent = some k
    · rw [if_pos hdep] at he
      have hnd : ((st.getNode k).incoming).Nodup := (hC.1 k hk).2.1
      exact ((hnd.mem_erase_iff).mp he).symm.imp id id |>.symm.imp id id |>.symm
    · rw [if_neg hdep] at he
      refine ⟨he, ?_⟩
      intro hcon
      subst hcon
      exact hdep (dependent_of_mem_incoming st hC k eid he).1
  obtain ⟨heOld, hne⟩ := hmem
  obtain ⟨h, hh, hhN⟩ := hHP k hk eid heOld
  refine ⟨h, ?_, ?_⟩
  · rw [getEdge_removeEdge_ne st m eid (fun hc => hne hc.symm)]
    exact hh
  · rw [nodesLength_removeEdge]
    exact hhN

lemma nodup_flatMap_aux (f : Nat → List Nat) :
    ∀ (l : List Nat), l.Nodup → (∀ a ∈ l, (f a).Nodup) →
      (∀ a ∈ l, ∀ b ∈ l, a ≠ b → ∀ x ∈ f a, x ∉ f b) →
      (l.flatMap f).Nodup := by
  intro l
  induction l with
  | nil => intro _ _ _; simp
  | cons a t ih =>
      intro hnd hf hdisj
      rw [List.flatMap_cons]
      refine List.Nodup.append (hf a (List.mem_cons_self a t))
        (ih (List.nodup_cons.mp hnd).2
          (fun b hb => hf b (List.mem_cons_of_mem a hb))
          (fun b hb c hc hbc => hdisj b (List.mem_cons_of_mem a hb)
            c (List.mem_cons_of_mem a hc) hbc)) ?_
      intro x hx hx2
      obtain ⟨b, hb, hxb⟩ := List.mem_flatMap.mp hx2
      have hab : a ≠ b := fun hc => (List.nodup_cons.mp hnd).1 (hc ▸ hb)
      exact hdisj a (List.mem_cons_self a t) b (List.mem_cons_of_mem a hb)
        hab x hx hxb

lemma totalIncoming_le_edges (st : DepState) (hC : Consistent st) :
    totalIncoming st ≤ st.edges.length := by
  have hlen : ((List.range st.nodes.length).flatMap
      (fun k => (st.getNode k).incoming)).length = totalIncoming st := by
    rw [List.length_flatMap]
    rfl
  have hnd : ((List.range st.nodes.length).flatMap
      (fun k => (st.getNode k).incoming)).Nodup := by
    apply nodup_flatMap_aux _ _ (List.nodup_range _)
    · intro a ha
      exact (hC.1 a (List.mem_range.mp ha)).2.1
    · intro a ha b hb hab x hxa hxb
      have h1 := (dependent_of_mem_incoming st hC a x hxa).1
      have h2 := (dependent_of_mem_incoming st hC b x hxb).1
      rw [h1] at h2
      injection h2 with h3
      exact hab h3
  have hsub : ((List.range st.nodes.length).flatMap
      (fun k => (st.getNode k).incoming)).toFinset ⊆
        Finset.range st.edges.length := by
    intro x hx
    rw [List.mem_toFinset] at hx
    obtain ⟨k, hk, hxk⟩ := List.mem_flatMap.mp hx
    exact Finset.mem_range.mpr
      ((hC.1 k (List.mem_range.mp hk)).2.2.2 x hxk)
  calc totalIncoming st
      = ((List.range st.nodes.length).flatMap
          (fun k => (st.getNode k).incoming)).length := hlen.symm
    _ = ((List.range st.nodes.length).flatMap
          (fun k => (st.getNode k).incoming)).toFinset.card :=
        (List.toFinset_card_of_nodup hnd).symm
    _ ≤ (Finset.range st.edges.length).card := Finset.card_le_card hsub
    _ = st.edges.length := Finset.card_range _

lemma foldl_pick_mem (st : DepState) :
    ∀ (l : List Nat) (acc : Nat),
      (l.foldl (fun best e2 =>
          if edgeKey st e2 < edgeKey st best then e2 else best) acc) = acc ∨
        (l.foldl (fun best e2 =>
          if edgeKey st e2 < edgeKey st best then e2 else best) acc) ∈ l := by
  intro l
  induction l with
  | nil => intro acc; exact Or.inl rfl
  | cons x t ih =>
      intro acc
      rw [List.foldl_cons]
      by_cases hx : edgeKey st x < edgeKey st acc
      · rw [if_pos hx]
        rcases ih x with h | h
        · refine Or.inr ?_
          rw [h]
          exact List.mem_cons_self x t
        · exact Or.inr (List.mem_cons_of_mem x h)
      · rw [if_neg hx]
        rcases ih acc with h | h
        · exact Or.inl h
        · exact Or.inr (List.mem_cons_of_mem x h)

lemma pickMinEdge_mem (st : DepState) (c : Nat) (crest : List Nat) (m : Nat)
    (hm : pickMinEdge st (c :: crest) = some m) : m ∈ c :: crest := by
  rw [pickMinEdge] at hm
  injection hm with hm2
  rcases foldl_pick_mem st crest c with h | h
  · rw [← hm2, h]
    exact List.mem_cons_self c crest
  · rw [← hm2]
    exact List.mem_cons_of_mem c h

lemma breakCyclesLoop_adequate (nodes : List Nat) :
    ∀ (fuel : Nat) (st : DepState), Consistent st → HeadsPresent st →
      totalIncoming st < fuel →
      ∃ st2 its, breakCyclesLoop nodes fuel st = some (st2, its) ∧
        its ≤ totalIncoming st := by
  intro fuel
  induction fuel with
  | zero => intro st _ _ hB; omega
  | succ fuel ih =>
      intro st hC hHP hB
      obtain ⟨r, hr⟩ := fcScan_adequate st hHP nodes [] [] []
      obtain ⟨v2, p2, F2, b⟩ := r
      cases b with
      | false =>
          refine ⟨st, 0, ?_, Nat.zero_le _⟩
          rw [breakCyclesLoop, hr]
      | true =>
          obtain ⟨d, hd, hne⟩ :=
            fcScan_true_post st (fcFuel st) nodes [] [] [] v2 p2 F2
              (dfsInv_empty st) hr
          obtain ⟨e0, he0⟩ := List.exists_mem_of_ne_nil _ hne
          have hcand : e0 ∈ cycleCandidates st p2 :=
            List.mem_flatMap.mpr ⟨d, hd, he0⟩
          cases hcs : cycleCandidates st p2 with
          | nil => rw [hcs] at hcand; cases hcand
          | cons c crest =>
              have hpick : ∃ m, pickMinEdge st (c :: crest) = some m := by
                rw [pickMinEdge]
                exact ⟨_, rfl⟩
              obtain ⟨m, hm⟩ := hpick
              have hmmem : m ∈ cycleCandidates st p2 := by
                rw [hcs]
                exact pickMinEdge_mem st c crest m hm
              obtain ⟨d2, hd2, hmd2⟩ := List.mem_flatMap.mp hmmem
              obtain ⟨hdep, hmE, hd2N⟩ :=
                dependent_of_mem_incoming st hC d2 m hmd2
              have htot := totalIncoming_removeEdge st hC m d2 hmd2
              obtain ⟨st2, its, hrec, hits⟩ :=
                ih (removeEdge st m) (consistent_removeEdge st m hC hmE)
                  (headsPresent_removeEdge st hC hHP m) (by omega)
              refine ⟨st2, its + 1, ?_, by omega⟩
              rw [breakCyclesLoop, hr]
              dsimp only
              rw [hcs, hm]
              dsimp only
              rw [hrec]

/-- C9: on a consistent input state (adjacency lists matching the edge
endpoints, as the forward conversion maintains) whose incoming edges all
carry real heads, `break_cycles` terminates, and the number of
edge-removing iterations is at most the number of edges: every
cycle-detecting iteration removes exactly one edge from some incoming
list, and the incoming lists hold at most `|edges|` entries in total. -/
theorem C9_break_cycles_terminates (st : DepState) (nodes : List Nat)
    (hC : Consistent st) (hHP : HeadsPresent st) :
    ∃ st2 its, breakCycles st nodes = some (st2, its) ∧
      its ≤ st.edges.length := by
  obtain ⟨st2, its, hrun, hits⟩ :=
    breakCyclesLoop_adequate nodes (totalIncoming st + 1) st hC hHP
      (Nat.lt_succ_self _)
  exact ⟨st2, its, hrun, Nat.le_trans hits (totalIncoming_le_edges st hC)⟩

/-- Witness for C9 at the two-node cycle `c3St`. -/
theorem C9_break_cycles_terminates_witness :
    Consistent c3St ∧ HeadsPresent c3St ∧
      ∃ st2 its, breakCycles c3St [1, 2] = some (st2, its) ∧
        its ≤ c3St.edges.length :=
  ⟨by decide, by decide,
    C9_break_cycles_terminates c3St [1, 2] (by decide) (by decide)⟩

lemma foldl_pick_le (st : DepState) :
    ∀ (l : List Nat) (acc : Nat),
      edgeKey st (l.foldl (fun best e2 =>
          if edgeKey st e2 < edgeKey st best then e2 else best) acc) ≤
          edgeKey st acc ∧
        ∀ x ∈ l, edgeKey st (l.foldl (fun best e2 =>
          if edgeKey st e2 < edgeKey st best then e2 else best) acc) ≤
          edgeKey st x := by
  intro l
  induction l with
  | nil =>
      intro acc
      exact ⟨Nat.le_refl _, fun x hx => absurd hx (List.not_mem_nil x)⟩
  | cons x t ih =>
      intro acc
      rw [List.foldl_cons]
      by_cases hx : edgeKey st x < edgeKey st acc
      · rw [if_pos hx]
        obtain ⟨h1, h2⟩ := ih x
        refine ⟨Nat.le_trans h1 (Nat.le_of_lt hx), ?_⟩
        intro y hy
        rcases List.mem_cons.mp hy with rfl | hy
        · exact h1
        · exact h2 y hy
      · rw [if_neg hx]
        obtain ⟨h1, h2⟩ := ih acc
        refine ⟨h1, ?_⟩
        intro y hy
        rcases List.mem_cons.mp hy with rfl | hy
        · exact Nat.le_trans h1 (Nat.le_of_not_lt hx)
        · exact h2 y hy

/-- C4 (amended): the edge removed by a cycle-detecting iteration of
`break_cycles` is one of the incoming edges of the nodes on the
discovered path (hence, on a consistent state, an edge whose dependent
lies on the path), and it MINIMIZES the key `(not remote, rel ≠ Linker)`
— remote edges are preferred for removal, and among equally-remote edges
the LINKER-labelled ones are removed first, not last; the minimum need
not be unique, ties are broken by the (unspecified) set iteration order,
modelled here as path insertion order with `min` keeping the earliest
minimum. -/
theorem C4_cycle_edge_choice (st : DepState) (path : List Nat) (m : Nat)
    (hpick : pickMinEdge st (cycleCandidates st path) = some m) :
    m ∈ cycleCandidates st path ∧
      (∀ x ∈ cycleCandidates st path, edgeKey st m ≤ edgeKey st x) ∧
      (Consistent st → ∃ d ∈ path, (st.getEdge m).dependent = some d) := by
  cases hcs : cycleCandidates st path with
  | nil => rw [hcs, pickMinEdge] at hpick; cases hpick
  | cons c crest =>
      rw [hcs] at hpick
      have hmem : m ∈ c :: crest := pickMinEdge_mem st c crest m hpick
      have hmin : ∀ x ∈ c :: crest, edgeKey st m ≤ edgeKey st x := by
        rw [pickMinEdge] at hpick
        injection hpick with hm2
        obtain ⟨h1, h2⟩ := foldl_pick_le st crest c
        intro x hx
        rcases List.mem_cons.mp hx with rfl | hx
        · rw [← hm2]
          exact h1
        · rw [← hm2]
          exact h2 x hx
      refine ⟨hmem, hmin, ?_⟩
      intro hC
      have hm3 : m ∈ cycleCandidates st path := by rw [hcs]; exact hmem
      obtain ⟨d, hd, hmd⟩ := List.mem_flatMap.mp hm3
      exact ⟨d, hd, (dependent_of_mem_incoming st hC d m hmd).1⟩

/-- Candidate state for C4: node 1 carries three remote incoming edges,
one labelled "conj" and two labelled Linker "L". -/
def c4St : DepState :=
  { nodes :=
      [{ position := 0
         outgoing := [0, 1, 2] },
       { position := 1
         incoming := [0, 1, 2] }]
    edges :=
      [{ head := some 0
         dependent := some 1
         rel := "conj"
         remote := true
         headIndex := -1 },
       { head := some 0
         dependent := some 1
         rel := "L"
         remote := true
         headIndex := -1 },
       { head := some 0
         dependent := some 1
         rel := "L"
         remote := true
         headIndex := -1 }] }

/-- C4 counterexample: among the candidates of a path there is a
non-Linker edge (edge 0), yet a Linker-labelled edge (edge 1) is the one
chosen for removal — Linker edges are removed first, not last — and the
key minimum is not unique (edge 2 carries the same key as edge 1). -/
theorem C4_linker_first_counterexample :
    pickMinEdge c4St (cycleCandidates c4St [1]) = some 1 ∧
      (c4St.getEdge 1).rel = linkerTag ∧
      (c4St.getEdge 0).rel ≠ linkerTag ∧
      0 ∈ cycleCandidates c4St [1] ∧
      2 ∈ cycleCandidates c4St [1] ∧ (2 : Nat) ≠ 1 ∧
      edgeKey c4St 2 = edgeKey c4St 1 := by
  decide

/-- Witness for C4 at `c4St`. -/
theorem C4_cycle_edge_choice_witness :
    pickMinEdge c4St (cycleCandidates c4St [1]) = some 1 ∧
      (1 ∈ cycleCandidates c4St [1] ∧
        (∀ x ∈ cycleCandidates c4St [1], edgeKey c4St 1 ≤ edgeKey c4St x) ∧
        (Consistent c4St → ∃ d ∈ [1], (c4St.getEdge 1).dependent = some d)) :=
  ⟨by decide, C4_cycle_edge_choice c4St [1] 1 (by decide)⟩

/-- A hierarchical (layer-1) edge of the converted passage: parent unit,
label, child unit, and whether the attachment is remote.  Units are
identified by numeric ids. -/
structure L1Edge where
  parent : Nat
  rel : String
  child : Nat
  remote : Bool
deriving DecidableEq, Repr

/-- A queued remote-attachment request (dep.py line 326: the resolved
`edge.head.node or l1.heads[0]`, the relation, and the resolved
`edge.dependent.node or l1.heads[0]`). -/
structure RemoteReq where
  parent : Nat
  rel : String
  child : Nat
deriving DecidableEq, Repr

/-- `parent.children` in the layer-1 graph: the child of every outgoing
edge — primary AND remote alike. -/
def l1Children (es : List L1Edge) (p : Nat) : List Nat :=
  (es.filter (fun e => decide (e.parent = p))).map (fun e => e.child)

/-- One parent-to-child step in the layer-1 graph. -/
def ChildStep (es : List L1Edge) (a b : Nat) : Prop :=
  ∃ e ∈ es, e.parent = a ∧ e.child = b

instance (es : List L1Edge) : DecidableRel (ChildStep es) := by
  intro a b; unfold ChildStep; infer_instance

/-- `child.iter()` (ucca `core.Node.iter`): the node itself and all its
descendants.  Modelled as a fuel-bounded unfolding of the child lists;
`es.length` fuel reaches everything a repetition-free walk can. -/
def reachD (es : List L1Edge) : Nat → Nat → List Nat
  | 0, n => [n]
  | fuel + 1, n => n :: (l1Children es n).flatMap (fun c => reachD es fuel c)

/-- The remote-attachment loop of `create_non_terminals` (dep.py lines
326-330): attach each queued remote as a secondary edge unless the child
is already a child of the parent (any child — `child not in
parent.children`) or the parent is the child or one of its descendants
(`parent not in child.iter()`). -/
def attachRemotes : List RemoteReq → List L1Edge → List L1Edge
  | [], es => es
  | r :: rest, es =>
    if r.child ∉ l1Children es r.parent ∧ r.parent ∉ reachD es es.length r.child then
      attachRemotes rest (es ++ [{ parent := r.parent
                                   rel := r.rel
                                   child := r.child
                                   remote := true }])
    else attachRemotes rest es

/-- No directed cycle in the layer-1 parent-to-child relation. -/
def L1Acyclic (es : List L1Edge) : Prop :=
  ∀ n, ¬ Relation.TransGen (ChildStep es) n n

/-- No two edges connect the same parent to the same child. -/
def L1NoDupEdge (es : List L1Edge) : Prop :=
  (es.map (fun e => (e.parent, e.child))).Nodup

/-- A walk from `a` through the intermediate nodes `l` to `b`, each step
a `ChildStep`. -/
def L1Walk (es : List L1Edge) : Nat → List Nat → Nat → Prop
  | a, [], b => ChildStep es a b
  | a, x :: l, b => ChildStep es a x ∧ L1Walk es x l b

lemma walk_snoc (es : List L1Edge) :
    ∀ (l : List Nat) (a b c : Nat), L1Walk es a l b → ChildStep es b c →
      L1Walk es a (l ++ [b]) c := by
  intro l
  induction l with
  | nil => intro a b c h1 h2; exact ⟨h1, h2⟩
  | cons x t ih =>
      intro a b c h1 h2
      exact ⟨h1.1, ih x b c h1.2 h2⟩

lemma transGen_walk (es : List L1Edge) (a b : Nat)
    (h : Relation.TransGen (ChildStep es) a b) : ∃ l, L1Walk es a l b := by
  induction h with
  | single h1 => exact ⟨[], h1⟩
  | tail h1 h2 ih =>
      obtain ⟨l, hl⟩ := ih
      exact ⟨l ++ [_], walk_snoc es l _ _ _ hl h2⟩

lemma walk_append (es : List L1Edge) :
    ∀ (l1 : List Nat) (a x : Nat) (l2 : List Nat) (b : Nat),
      L1Walk es a l1 x → L1Walk es x l2 b → L1Walk es a (l1 ++ x :: l2) b := by
  intro l1
  induction l1 with
  | nil => intro a x l2 b h1 h2; exact ⟨h1, h2⟩
  | cons y t ih =>
      intro a x l2 b h1 h2
      exact ⟨h1.1, ih y x l2 b h1.2 h2⟩

lemma walk_split (es : List L1Edge) :
    ∀ (l1 : List Nat) (a x : Nat) (l2 : List Nat) (b : Nat),
      L1Walk es a (l1 ++ x :: l2) b → L1Walk es a l1 x ∧ L1Walk es x l2 b := by
  intro l1
  induction l1 with
  | nil => intro a x l2 b h; exact ⟨h.1, h.2⟩
  | cons y t ih =>
      intro a x l2 b h
      obtain ⟨h1, h2⟩ := ih y x l2 b h.2
      exact ⟨⟨h.1, h1⟩, h2⟩

lemma exists_dup_decomp :
    ∀ (l : List Nat), ¬ l.Nodup → ∃ la x lb lc, l = la ++ x :: (lb ++ x :: lc) := by
  intro l
  induction l with
  | nil => intro h; exact absurd List.nodup_nil h
  | cons a t ih =>
      intro h
      by_cases ha : a ∈ t
      · obtain ⟨s, u, rfl⟩ := List.append_of_mem ha
        exact ⟨[], a, s, u, rfl⟩
      · have hndt : ¬ t.Nodup := by
          intro hc
          exact h (List.nodup_cons.mpr ⟨ha, hc⟩)
        obtain ⟨la, x, lb, lc, rfl⟩ := ih hndt
        exact ⟨a :: la, x, lb, lc, rfl⟩

lemma walk_shorten (es : List L1Edge) :
    ∀ (n : Nat) (l : List Nat) (a b : Nat), l.length ≤ n → L1Walk es a l b →
      ∃ l2, L1Walk es a l2 b ∧ (l2 ++ [b]).Nodup := by
  intro n
  induction n with
  | zero =>
      intro l a b hlen hw
      have hnil : l = [] := List.eq_nil_of_length_eq_zero (Nat.le_zero.mp hlen)
      subst hnil
      exact ⟨[], hw, List.nodup_singleton b⟩
  | succ n ih =>
      intro l a b hlen hw
      by_cases hnd : (l ++ [b]).Nodup
      · exact ⟨l, hw, hnd⟩
      · by_cases hbl : b ∈ l
        · obtain ⟨s, t, rfl⟩ := List.append_of_mem hbl
          obtain ⟨h1, -⟩ := walk_split es s a b t b hw
          refine ih s a b ?_ h1
          rw [List.length_append, List.length_cons] at hlen
          omega
        · have hndl : ¬ l.Nodup := by
            intro hc
            refine hnd (List.nodup_append.mpr ⟨hc, List.nodup_singleton b, ?_⟩)
            intro x hx hx2
            rcases List.mem_singleton.mp hx2 with rfl
            exact hbl hx
          obtain ⟨la, x, lb, lc, rfl⟩ := exists_dup_decomp l hndl
          obtain ⟨h1, h2⟩ := walk_split es la a x (lb ++ x :: lc) b hw
          obtain ⟨-, h3⟩ := walk_split es lb x x lc b h2
          have hcomb := walk_append es la a x lc b h1 h3
          refine ih (la ++ x :: lc) a b ?_ hcomb
          rw [List.length_append, List.length_cons, List.length_append,
            List.length_cons] at hlen
          rw [List.length_append, List.length_cons]
          omega

lemma walk_child_mem (es : List L1Edge) :
    ∀ (l : List Nat) (a b : Nat), L1Walk es a l b →
      ∀ x ∈ l ++ [b], x ∈ es.map (fun e => e.child) := by
  intro l
  induction l with
  | nil =>
      intro a b hw x hx
      rcases List.mem_singleton.mp hx with rfl
      obtain ⟨e, he, -, hc⟩ := hw
      exact List.mem_map.mpr ⟨e, he, hc⟩
  | cons y t ih =>
      intro a b hw x hx
      rcases List.mem_cons.mp hx with rfl | hx
      · obtain ⟨e, he, -, hc⟩ := hw.1
        exact List.mem_map.mpr ⟨e, he, hc⟩
      · exact ih y b hw.2 x hx

lemma nodup_subset_length (l L : List Nat) (hnd : l.Nodup)
    (hsub : ∀ x ∈ l, x ∈ L) : l.length ≤ L.length :=
  calc l.length = l.toFinset.card := (List.toFinset_card_of_nodup hnd).symm
    _ ≤ L.toFinset.card :=
        Finset.card_le_card
          (fun x hx => List.mem_toFinset.mpr (hsub x (List.mem_toFinset.mp hx)))
    _ ≤ L.length := List.toFinset_card_le L

lemma reachD_self (es : List L1Edge) : ∀ (fuel n : Nat), n ∈ reachD es fuel n := by
  intro fuel n
  cases fuel with
  | zero => exact List.mem_singleton.mpr rfl
  | succ f => exact List.mem_cons_self n _

lemma walk_reachD (es : List L1Edge) :
    ∀ (l : List Nat) (a b fuel : Nat), L1Walk es a l b → l.length + 1 ≤ fuel →
      b ∈ reachD es fuel a := by
  intro l
  induction l with
  | nil =>
      intro a b fuel hw hlen
      cases fuel with
      | zero => omega
      | succ f =>
          refine List.mem_cons_of_mem a (List.mem_flatMap.mpr ⟨b, ?_, reachD_self es f b⟩)
          obtain ⟨e, he, hp, hc⟩ := hw
          exact List.mem_map.mpr
            ⟨e, List.mem_filter.mpr ⟨he, by simpa using hp⟩, hc⟩
  | cons x t ih =>
      intro a b fuel hw hlen
      cases fuel with
      | zero => omega
      | succ f =>
          refine List.mem_cons_of_mem a (List.mem_flatMap.mpr ⟨x, ?_, ?_⟩)
          · obtain ⟨e, he, hp, hc⟩ := hw.1
            exact List.mem_map.mpr
              ⟨e, List.mem_filter.mpr ⟨he, by simpa using hp⟩, hc⟩
          · refine ih x b f hw.2 ?_
            simp only [List.length_cons] at hlen
            omega

lemma transGen_mem_reachD (es : List L1Edge) (a b : Nat)
    (h : Relation.TransGen (ChildStep es) a b) :
    b ∈ reachD es es.length a := by
  obtain ⟨l, hl⟩ := transGen_walk es a b h
  obtain ⟨l2, hw2, hnd⟩ := walk_shorten es l.length l a b (Nat.le_refl _) hl
  have hlen := nodup_subset_length (l2 ++ [b]) (es.map (fun e => e.child)) hnd
    (walk_child_mem es l2 a b hw2)
  rw [List.length_append, List.length_cons, List.length_map] at hlen
  refine walk_reachD es l2 a b es.length hw2 ?_
  simp only [List.length_nil] at hlen
  omega

lemma childStep_append (es : List L1Edge) (eN : L1Edge) (a b : Nat) :
    ChildStep (es ++ [eN]) a b ↔
      ChildStep es a b ∨ (a = eN.parent ∧ b = eN.child) := by
  constructor
  · intro ⟨e, he, hp, hc⟩
    rcases List.mem_append.mp he with he | he
    · exact Or.inl ⟨e, he, hp, hc⟩
    · rcases List.mem_singleton.mp he with rfl
      exact Or.inr ⟨hp.symm, hc.symm⟩
  · intro h
    rcases h with ⟨e, he, hp, hc⟩ | ⟨rfl, rfl⟩
    · exact ⟨e, List.mem_append.mpr (Or.inl he), hp, hc⟩
    · exact ⟨eN, List.mem_append.mpr (Or.inr (List.mem_singleton.mpr rfl)), rfl, rfl⟩

lemma transGen_add_edge (es : List L1Edge) (eN : L1Edge) (a b : Nat)
    (h : Relation.TransGen (ChildStep (es ++ [eN])) a b) :
    Relation.TransGen (ChildStep es) a b ∨
      (Relation.ReflTransGen (ChildStep es) a eN.parent ∧
        Relation.ReflTransGen (ChildStep es) eN.child b) := by
  induction h with
  | single h1 =>
      rcases (childStep_append es eN _ _).mp h1 with hold | ⟨rfl, rfl⟩
      · exact Or.inl (Relation.TransGen.single hold)
      · exact Or.inr ⟨Relation.ReflTransGen.refl, Relation.ReflTransGen.refl⟩
  | tail hT h1 ih =>
      rcases (childStep_append es eN _ _).mp h1 with hold | ⟨hb, hc⟩
      · rcases ih with hTG | ⟨h2, h3⟩
        · exact Or.inl (hTG.tail hold)
        · exact Or.inr ⟨h2, h3.tail hold⟩
      · rcases ih with hTG | ⟨h2, -⟩
        · refine Or.inr ⟨?_, ?_⟩
          · rw [← hb]
            exact hTG.to_reflTransGen
          · rw [hc]
        · refine Or.inr ⟨h2, ?_⟩
          rw [hc]

lemma acyclic_append (es : List L1Edge) (eN : L1Edge)
    (hA : L1Acyclic es) (hremote : eN.remote = true)
    (hreach : eN.parent ∉ reachD es es.length eN.child) :
    L1Acyclic (es ++ [eN]) := by
  intro n hT
  rcases transGen_add_edge es eN n n hT with hTG | ⟨hnp, hcn⟩
  · exact hA n hTG
  · have hcp : Relation.ReflTransGen (ChildStep es) eN.child eN.parent :=
      hcn.trans hnp
    rcases Relation.reflTransGen_iff_eq_or_transGen.mp hcp with heq | hTG2
    · rw [heq] at hreach
      exact hreach (reachD_self es es.length eN.child)
    · exact hreach (transGen_mem_reachD es eN.child eN.parent hTG2)

lemma mem_l1Children_iff (es : List L1Edge) (p c : Nat) :
    c ∈ l1Children es p ↔ (p, c) ∈ es.map (fun e => (e.parent, e.child)) := by
  unfold l1Children
  constructor
  · intro hc
    obtain ⟨e, he, hc2⟩ := List.mem_map.mp hc
    obtain ⟨he2, hp⟩ := List.mem_filter.mp he
    refine List.mem_map.mpr ⟨e, he2, ?_⟩
    rw [hc2]
    simp only [decide_eq_true_eq] at hp
    rw [hp]
  · intro hc
    obtain ⟨e, he, hc2⟩ := List.mem_map.mp hc
    injection hc2 with hp hc3
    refine List.mem_map.mpr ⟨e, List.mem_filter.mpr ⟨he, by simpa using hp⟩, hc3⟩

lemma attachRemotes_acyclic :
    ∀ (queue : List RemoteReq) (es : List L1Edge), L1Acyclic es →
      L1Acyclic (attachRemotes queue es) := by
  intro queue
  induction queue with
  | nil => intro es hA; exact hA
  | cons r rest ih =>
      intro es hA
      rw [attachRemotes]
      split_ifs with hcond
      · exact ih _ (acyclic_append es _ hA rfl hcond.2)
      · exact ih es hA

lemma attachRemotes_nodupEdge :
    ∀ (queue : List RemoteReq) (es : List L1Edge), L1NoDupEdge es →
      L1NoDupEdge (attachRemotes queue es) := by
  intro queue
  induction queue with
  | nil => intro es hD; exact hD
  | cons r rest ih =>
      intro es hD
      rw [attachRemotes]
      split_ifs with hcond
      · refine ih _ ?_
        unfold L1NoDupEdge
        rw [List.map_append]
        refine List.nodup_append.mpr ⟨hD, List.nodup_singleton _, ?_⟩
        intro q hq hq2
        rcases List.mem_singleton.mp hq2 with rfl
        exact hcond.1 ((mem_l1Children_iff es r.parent r.child).mpr hq)
      · exact ih es hD

lemma attachRemotes_mono :
    ∀ (queue : List RemoteReq) (es : List L1Edge) (e : L1Edge), e ∈ es →
      e ∈ attachRemotes queue es := by
  intro queue
  induction queue with
  | nil => intro es e he; exact he
  | cons r rest ih =>
      intro es e he
      rw [attachRemotes]
      split_ifs with hcond
      · exact ih _ e (List.mem_append.mpr (Or.inl he))
      · exact ih es e he

lemma l1Acyclic_nil : L1Acyclic [] := by
  have hgen : ∀ a b : Nat, ¬ Relation.TransGen (ChildStep []) a b := by
    intro a b hT
    induction hT with
    | single h => obtain ⟨e, he, -⟩ := h; cases he
    | tail _ h ih => obtain ⟨e, he, -⟩ := h; cases he
  exact fun n => hgen n n

/-- C8 (amended): a queued remote edge is attached as a secondary parent
exactly when the child is not ALREADY ANY child of the prospective
parent (primary or previously attached remote — not only "an existing
primary child relation") and the parent is not the child itself or one
of its descendants; consequently the attachment loop preserves
acyclicity of the layer-1 parent-child relation and never creates two
edges between the same parent and child. -/
theorem C8_remote_attachment :
    (∀ (r : RemoteReq) (rest : List RemoteReq) (es : List L1Edge),
      r.child ∉ l1Children es r.parent →
      r.parent ∉ reachD es es.length r.child →
      ({ parent := r.parent
         rel := r.rel
         child := r.child
         remote := true } : L1Edge) ∈ attachRemotes (r :: rest) es) ∧
    (∀ (r : RemoteReq) (rest : List RemoteReq) (es : List L1Edge),
      ¬ (r.child ∉ l1Children es r.parent ∧
          r.parent ∉ reachD es es.length r.child) →
      attachRemotes (r :: rest) es = attachRemotes rest es) ∧
    (∀ (queue : List RemoteReq) (es : List L1Edge),
      L1Acyclic es → L1Acyclic (attachRemotes queue es)) ∧
    (∀ (queue : List RemoteReq) (es : List L1Edge),
      L1NoDupEdge es → L1NoDupEdge (attachRemotes queue es)) := by
  refine ⟨?_, ?_, attachRemotes_acyclic, attachRemotes_nodupEdge⟩
  · intro r rest es h1 h2
    rw [attachRemotes, if_pos ⟨h1, h2⟩]
    exact attachRemotes_mono rest _ _
      (List.mem_append.mpr (Or.inr (List.mem_singleton.mpr rfl)))
  · intro r rest es hcond
    rw [attachRemotes, if_neg hcond]

/-- C8 counterexample: two identical queued remotes into an empty
layer-1 graph — the second is skipped although the only existing
parent-child relation it would duplicate is the REMOTE one just created,
not a primary child relation; per the claim's wording it should have
been attached. -/
theorem C8_duplicate_remote_counterexample :
    (attachRemotes
        [{ parent := 1, rel := "A", child := 2 },
         { parent := 1, rel := "A", child := 2 }] []).length = 1 ∧
      ∀ e ∈ attachRemotes
          [{ parent := 1, rel := "A", child := 2 },
           { parent := 1, rel := "A", child := 2 }] [], e.remote = true := by
  decide

/-- Witness for C8: a fresh remote is attached, and the loop keeps the
(empty) graph acyclic. -/
theorem C8_remote_attachment_witness :
    ({ parent := 1, rel := "A", child := 2, remote := true } : L1Edge) ∈
        attachRemotes [{ parent := 1, rel := "A", child := 2 }] [] ∧
      L1Acyclic (attachRemotes [{ parent := 1, rel := "A", child := 2 }] []) :=
  ⟨C8_remote_attachment.1 { parent := 1, rel := "A", child := 2 } [] []
      (by decide) (by decide),
    C8_remote_attachment.2.2.1 [{ parent := 1, rel := "A", child := 2 }] []
      l1Acyclic_nil⟩

end Semstr
